import Mathlib

/-!
# Verification of the namelist core of `runner` (`runner/ext/namelist.py`)

Shallow embedding of the namelist parser/formatter.  Python strings are
modelled as `List Char` (`Str`); Python's ordered `dict`/`OrderedDict` as
insertion-ordered association lists; exceptions as `Except`.  Python `int`
is `ℤ`; Python `float` is idealised as `ℚ` (decimal literals parse exactly;
the `inf`/`nan` spellings and underscore digit separators accepted by the
builtins, and `repr`'s scientific notation for extreme magnitudes, are not
exercised by any claim and are not modelled).
-/

abbrev Str := List Char

/-- Python `str.isspace` characters relevant to `strip`/`split`. -/
def pyIsSpace (c : Char) : Bool :=
  c == ' ' || c == '\t' || c == '\n' || c == '\r' || c == '\x0b' || c == '\x0c'

/-- Python `c in s` (substring test for a single character). -/
def strHas (c : Char) (s : Str) : Bool := s.any (fun x => x == c)

/-- Python `s.startswith(c)` for a single character. -/
def headIs (c : Char) : Str → Bool
  | [] => false
  | x :: _ => x == c

/-- Python `s.endswith(c)` for a single character. -/
def lastIs (c : Char) (s : Str) : Bool := headIs c s.reverse

/-- Split on every occurrence of a character class, keeping empty parts
(the behaviour of Python `str.split(sep)` for a one-character `sep`,
generalised to a predicate). -/
def splitOnP (p : Char → Bool) : Str → List Str
  | [] => [[]]
  | x :: xs =>
    match splitOnP p xs with
    | [] => [[]]
    | r :: rs => if p x then [] :: r :: rs else (x :: r) :: rs

/-- Python `s.split(c)` for a one-character separator. -/
def splitOnChar (c : Char) (s : Str) : List Str := splitOnP (fun x => x == c) s

/-- Python `sep.join(parts)` for a one-character separator. -/
def joinWith (c : Char) : List Str → Str
  | [] => []
  | [x] => x
  | x :: xs => x ++ c :: joinWith c xs

/-- Python `s.strip()`. -/
def pyStrip (s : Str) : Str :=
  ((s.dropWhile pyIsSpace).reverse.dropWhile pyIsSpace).reverse

/-- Python `s.split()` (split on whitespace runs, dropping empty parts). -/
def pySplitWs (s : Str) : List Str :=
  (splitOnP pyIsSpace s).filter (fun t => t ≠ [])

/-- Python `s.lower()`. -/
def pyLower (s : Str) : Str := s.map Char.toLower

/-- Value of a nonempty all-digit string (helper for `int()`/`float()`). -/
def digitsVal (s : Str) : Option ℕ :=
  if s ≠ [] ∧ s.all Char.isDigit then
    some (s.foldl (fun a c => 10 * a + (c.toNat - '0'.toNat)) 0)
  else none

/-- Python `int(s)`: optional surrounding whitespace, optional sign,
nonempty digit string. -/
def pyInt (s : Str) : Option ℤ :=
  match pyStrip s with
  | '+' :: rest => (digitsVal rest).map Int.ofNat
  | '-' :: rest => (digitsVal rest).map (fun n => -(n : ℤ))
  | t => (digitsVal t).map Int.ofNat

/-- Mantissa of a float literal: `D+`, `D+.D*`, `D*.D+`. -/
def pyFloatMant (m : Str) : Option ℚ :=
  match splitOnChar '.' m with
  | [a] => (digitsVal a).map (fun n => (n : ℚ))
  | [a, b] =>
    if (a ≠ [] ∨ b ≠ []) ∧ (a ++ b).all Char.isDigit then
      some ((a.foldl (fun x c => 10 * x + (c.toNat - '0'.toNat)) 0 : ℕ) +
            (b.foldl (fun x c => 10 * x + (c.toNat - '0'.toNat)) 0 : ℕ) / (10 : ℚ) ^ b.length)
    else none
  | _ => none

/-- Optional leading sign of a float literal. -/
def pySign (t : Str) : ℚ × Str :=
  match t with
  | '+' :: r => (1, r)
  | '-' :: r => (-1, r)
  | r => (1, r)

/-- Optional sign of a float exponent. -/
def pyExpSign (e : Str) : ℤ × Str :=
  match e with
  | '+' :: r => (1, r)
  | '-' :: r => (-1, r)
  | r => (1, r)

/-- Python `float(s)` restricted to finite decimal/exponent literals. -/
def pyFloat (s : Str) : Option ℚ :=
  match splitOnP (fun c => c == 'e' || c == 'E') (pySign (pyStrip s)).2 with
  | [m] => (pyFloatMant m).map (fun q => (pySign (pyStrip s)).1 * q)
  | [m, e] =>
    match pyFloatMant m with
    | none => none
    | some mv =>
      match digitsVal (pyExpSign e).2 with
      | none => none
      | some ev =>
        some ((pySign (pyStrip s)).1 * mv * (10 : ℚ) ^ ((pyExpSign e).1 * (ev : ℤ)))
  | _ => none

/-! ## Split lemmas (also used for the parser's termination measure) -/

theorem splitOnP_ne_nil (p : Char → Bool) (s : Str) : splitOnP p s ≠ [] := by
  induction s with
  | nil => simp [splitOnP]
  | cons x xs ih =>
    simp only [splitOnP]
    cases h : splitOnP p xs with
    | nil => simp
    | cons r rs => by_cases hp : p x <;> simp [hp]

theorem splitOnP_sum (p : Char → Bool) (s : Str) :
    ((splitOnP p s).map List.length).sum + (splitOnP p s).length = s.length + 1 := by
  induction s with
  | nil => simp [splitOnP]
  | cons x xs ih =>
    simp only [splitOnP]
    cases h : splitOnP p xs with
    | nil => exact absurd h (splitOnP_ne_nil p xs)
    | cons r rs =>
      rw [h] at ih
      simp only [List.map_cons, List.sum_cons, List.length_cons] at ih
      by_cases hp : p x <;> simp [hp, List.sum_cons] <;> omega

theorem splitOnP_two_le (p : Char → Bool) (s : Str) (h : ∃ c ∈ s, p c) :
    2 ≤ (splitOnP p s).length := by
  induction s with
  | nil => simp at h
  | cons x xs ih =>
    simp only [splitOnP]
    cases hs : splitOnP p xs with
    | nil => exact absurd hs (splitOnP_ne_nil p xs)
    | cons r rs =>
      by_cases hp : p x
      · simp [hp]
      · simp only [hp, if_false]
        obtain ⟨c, hc, hpc⟩ := h
        rcases List.mem_cons.mp hc with rfl | hc
        · exact absurd hpc (by simp [hp])
        · have := ih ⟨c, hc, hpc⟩
          rw [hs] at this
          simpa using this

theorem strHas_iff {c : Char} {s : Str} : strHas c s = true ↔ c ∈ s := by
  simp [strHas, List.any_eq_true]

theorem pyStrip_length_le (s : Str) : (pyStrip s).length ≤ s.length := by
  unfold pyStrip
  calc ((s.dropWhile pyIsSpace).reverse.dropWhile pyIsSpace).reverse.length
      = ((s.dropWhile pyIsSpace).reverse.dropWhile pyIsSpace).length := by
        rw [List.length_reverse]
    _ ≤ (s.dropWhile pyIsSpace).reverse.length :=
        ((s.dropWhile pyIsSpace).reverse.dropWhile_sublist pyIsSpace).length_le
    _ = (s.dropWhile pyIsSpace).length := by rw [List.length_reverse]
    _ ≤ s.length := (s.dropWhile_sublist pyIsSpace).length_le

/-- Measure for the array half of the mutual parser. -/
def arrMeasure (vs : List Str) : ℕ := (vs.map (fun v => 3 * v.length + 1)).sum

theorem arrMeasure_eq (vs : List Str) :
    arrMeasure vs = 3 * ((vs.map List.length).sum) + vs.length := by
  induction vs with
  | nil => simp [arrMeasure]
  | cons v rest ih => simp [arrMeasure] at ih ⊢; omega

theorem sum_len_filter_le (p : Str → Bool) (l : List Str) :
    (((l.filter p).map List.length).sum) ≤ ((l.map List.length).sum) := by
  induction l with
  | nil => simp
  | cons x xs ih =>
    by_cases hp : p x <;> simp [hp] <;> omega


/-! ## Data model -/

/-- The Value union produced by the parser: integers, floats, booleans,
strings, and lists of values.  (The grammar never nests lists on purpose,
but the Python data model allows it, so the type does too.) -/
inductive Value where
  | int (n : ℤ)
  | float (q : ℚ)
  | bool (b : Bool)
  | str (s : Str)
  | list (l : List Value)

mutual

def valueDecEq : (a b : Value) → Decidable (a = b)
  | .int a, .int b =>
    match decEq a b with
    | isTrue h => isTrue (h ▸ rfl)
    | isFalse h => isFalse (fun he => h (Value.int.inj he))
  | .float a, .float b =>
    match decEq a b with
    | isTrue h => isTrue (h ▸ rfl)
    | isFalse h => isFalse (fun he => h (Value.float.inj he))
  | .bool a, .bool b =>
    match decEq a b with
    | isTrue h => isTrue (h ▸ rfl)
    | isFalse h => isFalse (fun he => h (Value.bool.inj he))
  | .str a, .str b =>
    match decEq a b with
    | isTrue h => isTrue (h ▸ rfl)
    | isFalse h => isFalse (fun he => h (Value.str.inj he))
  | .list a, .list b =>
    match valueListDecEq a b with
    | isTrue h => isTrue (h ▸ rfl)
    | isFalse h => isFalse (fun he => h (Value.list.inj he))
  | .int _, .float _ => isFalse (fun he => Value.noConfusion he)
  | .int _, .bool _ => isFalse (fun he => Value.noConfusion he)
  | .int _, .str _ => isFalse (fun he => Value.noConfusion he)
  | .int _, .list _ => isFalse (fun he => Value.noConfusion he)
  | .float _, .int _ => isFalse (fun he => Value.noConfusion he)
  | .float _, .bool _ => isFalse (fun he => Value.noConfusion he)
  | .float _, .str _ => isFalse (fun he => Value.noConfusion he)
  | .float _, .list _ => isFalse (fun he => Value.noConfusion he)
  | .bool _, .int _ => isFalse (fun he => Value.noConfusion he)
  | .bool _, .float _ => isFalse (fun he => Value.noConfusion he)
  | .bool _, .str _ => isFalse (fun he => Value.noConfusion he)
  | .bool _, .list _ => isFalse (fun he => Value.noConfusion he)
  | .str _, .int _ => isFalse (fun he => Value.noConfusion he)
  | .str _, .float _ => isFalse (fun he => Value.noConfusion he)
  | .str _, .bool _ => isFalse (fun he => Value.noConfusion he)
  | .str _, .list _ => isFalse (fun he => Value.noConfusion he)
  | .list _, .int _ => isFalse (fun he => Value.noConfusion he)
  | .list _, .float _ => isFalse (fun he => Value.noConfusion he)
  | .list _, .bool _ => isFalse (fun he => Value.noConfusion he)
  | .list _, .str _ => isFalse (fun he => Value.noConfusion he)

def valueListDecEq : (a b : List Value) → Decidable (a = b)
  | [], [] => isTrue rfl
  | [], _ :: _ => isFalse (fun he => List.noConfusion he)
  | _ :: _, [] => isFalse (fun he => List.noConfusion he)
  | x :: xs, y :: ys =>
    match valueDecEq x y, valueListDecEq xs ys with
    | isTrue h1, isTrue h2 => isTrue (by rw [h1, h2])
    | isFalse h1, _ => isFalse (fun he => h1 (List.cons.inj he).1)
    | _, isFalse h2 => isFalse (fun he => h2 (List.cons.inj he).2)

end

instance : DecidableEq Value := valueDecEq

/-- Errors raised by the grammar and the façade (Python exceptions). -/
inductive NmlError where
  | valueError (s : Str)      -- fallback raise in the value cascade
  | intConvError (s : Str)    -- repeat-count multiplier is not an integer
  | starUnpack (s : Str)      -- star-split does not have exactly 2 parts
  | eqUnpack (s : Str)        -- equals-split does not have exactly 2 parts
  | continuationError (s : Str) -- continuation line with no preceding line
  | keyUnpack (s : Str)       -- key split on the separator is not 2 parts
  | emptyGroupName            -- group name empty when formatting
deriving DecidableEq

/-- `ParamNml` from namelist.py: one parameter record. -/
structure ParamNml where
  group : Str
  name : Str
  value : Value
  help : Option Str
deriving DecidableEq

/-- Python `n * l` for a list `l` (empty when `n ≤ 0`). -/
def pyListMul {α : Type} (m : ℤ) (l : List α) : List α :=
  (List.replicate m.toNat l).flatten

deriving instance DecidableEq for Except

/-! ## The value grammar -/

theorem star_split_len {v mult val : Str} (hsp : splitOnChar '*' v = [mult, val]) :
    mult.length + val.length + 1 = v.length := by
  have h := splitOnP_sum (fun x => x == '*') v
  rw [splitOnChar] at hsp
  rw [hsp] at h
  simp at h
  omega

mutual

/-- The value cascade from namelist.py: the ordered sequence of matchers
integer → float → boolean → quoted string → slash array → comma array →
repeat-count array → whitespace array → error. -/
def _parse_value (s : Str) : Except NmlError Value :=
  match pyInt s with
  | some n => .ok (.int n)
  | none =>
    match pyFloat s with
    | some q => .ok (.float q)
    | none =>
      if pyLower s ∈ [".true.".data, "t".data, "true".data] then .ok (.bool true)
      else if pyLower s ∈ [".false.".data, "f".data, "false".data] then .ok (.bool false)
      else if (headIs '\'' s ∧ lastIs '\'' s ∧ s.count '\'' = 2)
            ∨ (headIs '"' s ∧ lastIs '"' s ∧ s.count '"' = 2) then
        .ok (.str (s.drop 1).dropLast)
      else if h0 : headIs '/' s ∧ lastIs '/' s then
        (_parse_array (splitOnChar ',' ((s.drop 1).dropLast))).map .list
      else if h1 : strHas ',' s then
        (_parse_array (splitOnChar ',' s)).map .list
      else if h2 : strHas '*' s then
        (_parse_array [s]).map .list
      else if h3 : 1 < (pySplitWs s).length then
        (_parse_array (pySplitWs s)).map .list
      else .error (.valueError s)
termination_by 3 * s.length + (if strHas '*' s then 2 else 0)
decreasing_by
  · -- slash array: the interior is at least one character shorter
    have hs1 := splitOnP_sum (fun x => x == ',') ((s.drop 1).dropLast)
    have hs2 : 0 < (splitOnP (fun x => x == ',') ((s.drop 1).dropLast)).length :=
      List.length_pos.mpr (splitOnP_ne_nil _ _)
    have hs3 : ((s.drop 1).dropLast).length + 1 ≤ s.length := by
      rcases s with _ | ⟨c, cs⟩
      · simp [headIs] at h0
      · simp [List.length_dropLast]
    rw [splitOnChar, arrMeasure_eq]
    split <;> omega
  · -- comma array
    have hc1 := splitOnP_sum (fun x => x == ',') s
    have hc2 : 2 ≤ (splitOnP (fun x => x == ',') s).length :=
      splitOnP_two_le _ s ⟨',', strHas_iff.mp h1, by simp⟩
    rw [splitOnChar, arrMeasure_eq]
    split <;> omega
  · -- repeat-count: same token, but the star summand drops from 2 to 1
    simp [arrMeasure_eq, h2]
  · -- whitespace array
    have hA := splitOnP_sum pyIsSpace s
    have hF1 : ((pySplitWs s).map List.length).sum ≤
        ((splitOnP pyIsSpace s).map List.length).sum := sum_len_filter_le _ _
    have hF2 : (pySplitWs s).length ≤ (splitOnP pyIsSpace s).length :=
      List.length_filter_le _ _
    rw [arrMeasure_eq]
    split <;> omega

/-- The array grammar from namelist.py: parse each token, expanding
repeat-count tokens of the form multiplier-star-value. -/
def _parse_array (vs : List Str) : Except NmlError (List Value) :=
  match vs with
  | [] => .ok []
  | v :: rest =>
    if h : strHas '*' v then
      match hsp : splitOnChar '*' v with
      | [mult, val] =>
        match pyInt mult with
        | some m =>
          match _parse_value (pyStrip val) with
          | .error e => .error e
          | .ok x =>
            match _parse_array rest with
            | .error e => .error e
            | .ok r => .ok (pyListMul m [x] ++ r)
        | none => .error (.intConvError mult)
      | _ => .error (.starUnpack v)
    else
      match _parse_value v with
      | .error e => .error e
      | .ok x =>
        match _parse_array rest with
        | .error e => .error e
        | .ok r => .ok (x :: r)
termination_by arrMeasure vs
decreasing_by
  · -- star token: `val` is at least one character shorter than the token
    have ht1 := star_split_len hsp
    have ht2 := pyStrip_length_le val
    simp only [arrMeasure, List.map_cons, List.sum_cons]
    split <;> omega
  · -- rest of the array (star branch)
    simp only [arrMeasure, List.map_cons, List.sum_cons]
    omega
  · -- plain token: its star summand is 0
    simp only [arrMeasure, List.map_cons, List.sum_cons, h]
    simp only [if_false, Bool.false_eq_true]
    omega
  · -- rest of the array (plain branch)
    simp only [arrMeasure, List.map_cons, List.sum_cons]
    omega

end


/-! ## Fuel-indexed executable mirror of the value grammar

The grammar above is defined by well-founded recursion, which the kernel
cannot unfold on concrete inputs; `parseValueF`/`parseArrayF` are the same
algorithm structurally recursive on a fuel bound, proved equal below so
concrete runs can be evaluated by `decide`/`rfl`. -/

mutual

def parseValueF : ℕ → Str → Except NmlError Value
  | 0, s => .error (.valueError s)
  | fuel + 1, s =>
    match pyInt s with
    | some n => .ok (.int n)
    | none =>
      match pyFloat s with
      | some q => .ok (.float q)
      | none =>
        if pyLower s ∈ [".true.".data, "t".data, "true".data] then .ok (.bool true)
        else if pyLower s ∈ [".false.".data, "f".data, "false".data] then .ok (.bool false)
        else if (headIs '\'' s ∧ lastIs '\'' s ∧ s.count '\'' = 2)
              ∨ (headIs '"' s ∧ lastIs '"' s ∧ s.count '"' = 2) then
          .ok (.str (s.drop 1).dropLast)
        else if headIs '/' s ∧ lastIs '/' s then
          (parseArrayF fuel (splitOnChar ',' ((s.drop 1).dropLast))).map .list
        else if strHas ',' s then
          (parseArrayF fuel (splitOnChar ',' s)).map .list
        else if strHas '*' s then
          (parseArrayF fuel [s]).map .list
        else if 1 < (pySplitWs s).length then
          (parseArrayF fuel (pySplitWs s)).map .list
        else .error (.valueError s)

def parseArrayF : ℕ → List Str → Except NmlError (List Value)
  | 0, _ => .error (.valueError [])
  | _ + 1, [] => .ok []
  | fuel + 1, v :: rest =>
    if strHas '*' v then
      match splitOnChar '*' v with
      | [mult, val] =>
        match pyInt mult with
        | some m =>
          match parseValueF fuel (pyStrip val) with
          | .error e => .error e
          | .ok x =>
            match parseArrayF fuel rest with
            | .error e => .error e
            | .ok r => .ok (pyListMul m [x] ++ r)
        | none => .error (.intConvError mult)
      | _ => .error (.starUnpack v)
    else
      match parseValueF fuel v with
      | .error e => .error e
      | .ok x =>
        match parseArrayF fuel rest with
        | .error e => .error e
        | .ok r => .ok (x :: r)

end

theorem parse_spec (fuel : ℕ) :
    (∀ s, 3 * s.length + (if strHas '*' s then 2 else 0) + 1 ≤ fuel →
      parseValueF fuel s = _parse_value s) ∧
    (∀ vs, arrMeasure vs + 1 ≤ fuel → parseArrayF fuel vs = _parse_array vs) := by
  induction fuel using Nat.strong_induction_on with
  | _ fuel ih =>
    constructor
    · intro s hs
      match fuel, hs with
      | f + 1, hs =>
      rw [_parse_value]
      simp only [parseValueF]
      split
      next => rfl
      split
      next => rfl
      split
      next => rfl
      split
      next => rfl
      split
      next => rfl
      split
      next h0 =>
        have hlt : arrMeasure (splitOnChar ',' ((s.drop 1).dropLast)) + 1 ≤ f := by
          have hs1 := splitOnP_sum (fun x => x == ',') ((s.drop 1).dropLast)
          have hs2 : 0 < (splitOnP (fun x => x == ',') ((s.drop 1).dropLast)).length :=
            List.length_pos.mpr (splitOnP_ne_nil _ _)
          have hs3 : ((s.drop 1).dropLast).length + 1 ≤ s.length := by
            rcases s with _ | ⟨c, cs⟩
            · simp [headIs] at h0
            · simp [List.length_dropLast]
          rw [splitOnChar, arrMeasure_eq]
          split at hs <;> omega
        rw [(ih f (by omega)).2 _ hlt]
      split
      next h1 =>
        have hlt : arrMeasure (splitOnChar ',' s) + 1 ≤ f := by
          have hc1 := splitOnP_sum (fun x => x == ',') s
          have hc2 : 2 ≤ (splitOnP (fun x => x == ',') s).length :=
            splitOnP_two_le _ s ⟨',', strHas_iff.mp h1, by simp⟩
          rw [splitOnChar, arrMeasure_eq]
          split at hs <;> omega
        rw [(ih f (by omega)).2 _ hlt]
      split
      next h2 =>
        have hlt : arrMeasure [s] + 1 ≤ f := by
          rw [arrMeasure_eq]
          rw [h2] at hs
          simp at hs ⊢
          omega
        rw [(ih f (by omega)).2 _ hlt]
      split
      next h3 =>
        have hlt : arrMeasure (pySplitWs s) + 1 ≤ f := by
          have hA := splitOnP_sum pyIsSpace s
          have hF1 : ((pySplitWs s).map List.length).sum ≤
              ((splitOnP pyIsSpace s).map List.length).sum := sum_len_filter_le _ _
          have hF2 : (pySplitWs s).length ≤ (splitOnP pyIsSpace s).length :=
            List.length_filter_le _ _
          rw [arrMeasure_eq]
          split at hs <;> omega
        rw [(ih f (by omega)).2 _ hlt]
      rfl
    · intro vs hvs
      match fuel, hvs with
      | f + 1, hvs =>
      rw [_parse_array.eq_def]
      cases vs with
      | nil => rfl
      | cons v rest =>
      simp only [parseArrayF]
      have hrest : arrMeasure rest + 1 ≤ f := by
        simp only [arrMeasure, List.map_cons, List.sum_cons] at hvs ⊢
        omega
      split
      next hstar =>
        rcases hsp : splitOnChar '*' v with _ | ⟨m1, _ | ⟨v1, _ | ⟨x3, r3⟩⟩⟩
        · simp only [hsp]
        · simp only [hsp]
        · have hval : 3 * (pyStrip v1).length +
              (if strHas '*' (pyStrip v1) then 2 else 0) + 1 ≤ f := by
            have ht1 := star_split_len hsp
            have ht2 := pyStrip_length_le v1
            simp only [arrMeasure, List.map_cons, List.sum_cons] at hvs
            split <;> omega
          simp only [hsp]
          rw [(ih f (by omega)).1 _ hval, (ih f (by omega)).2 _ hrest]
        · simp only [hsp]
      next hstar =>
        have hv : 3 * v.length + (if strHas '*' v then 2 else 0) + 1 ≤ f := by
          simp only [arrMeasure, List.map_cons, List.sum_cons] at hvs
          simp only [Bool.not_eq_true] at hstar
          rw [hstar]
          simp only [Bool.false_eq_true, if_false]
          omega
        rw [(ih f (by omega)).1 _ hv, (ih f (by omega)).2 _ hrest]

theorem _parse_value_exec (s : Str) :
    _parse_value s = parseValueF (3 * s.length + 3) s :=
  ((parse_spec (3 * s.length + 3)).1 s (by split <;> omega)).symm

theorem _parse_array_exec (vs : List Str) :
    _parse_array vs = parseArrayF (arrMeasure vs + 1) vs :=
  ((parse_spec (arrMeasure vs + 1)).2 vs (by omega)).symm

/-! ## Line parser, continuation joiner, group extraction (`parse_nml`) -/

/-- `_parse_line` from namelist.py: strip an optional `!` comment, drop an
optional trailing comma, split on `=` (Python `k, v = line.split('=')`
requires exactly two parts), parse the value.  Returns (name, value, comment). -/
def _parse_line (l0 : Str) : Except NmlError (Str × Value × Str) :=
  let comment :=
    if strHas '!' l0 then pyStrip ((l0.dropWhile (fun c => c != '!')).drop 1) else []
  let l1 := if strHas '!' l0 then pyStrip (l0.takeWhile (fun c => c != '!')) else l0
  let l2 := if lastIs ',' l1 then l1.dropLast else l1
  match splitOnChar '=' l2 with
  | [k, v] => (_parse_value (pyStrip v)).map (fun val => (pyStrip k, val, comment))
  | _ => .error (.eqUnpack l2)

/-- The continuation joiner of `parse_nml`: a stripped line with `=` starts a
new logical line, an empty line is skipped, anything else is appended to the
previous logical line (`joined_lines[-1] += line`, an IndexError when there
is none).  `acc` holds the joined lines in reverse. -/
def joinContAux (acc : List Str) : List Str → Except NmlError (List Str)
  | [] => .ok acc.reverse
  | l :: rest =>
    let l1 := pyStrip l
    if strHas '=' l1 then joinContAux (l1 :: acc) rest
    else if l1 = [] then joinContAux acc rest
    else
      match acc with
      | [] => .error (.continuationError l1)
      | a :: atl => joinContAux ((a ++ l1) :: atl) rest

/-- Content of one ampersand-to-slash segment under the group regex: the
regex body is greedy, so a match extends to the last `/` of the segment, and
needs at least one character before it. -/
def upToLastSlash : Str → Option Str
  | [] => none
  | x :: xs =>
    match upToLastSlash xs with
    | some r => some (x :: r)
    | none => if x = '/' then some [] else none

def segContent (seg : Str) : Option Str :=
  match upToLastSlash seg with
  | some r => if r = [] then none else some r
  | none => none

/-- `re.findall(r'&([^&]+)/', text, re.DOTALL)`: the text is cut at every
`&`; each following segment contributes its prefix up to its last `/` when
that prefix is nonempty, and is skipped (no error) otherwise. -/
def findGroupBlocks (text : Str) : List Str :=
  match splitOnChar '&' text with
  | [] => []
  | _ :: segs => segs.filterMap segContent

/-- Body of the per-block loop of `parse_nml`: first line is the group name
(truncated at `!` if present; the group help computed there by the source is
dead code and not modelled), remaining lines are joined and parsed. -/
def parseGroupBlock (block : Str) : Except NmlError (List ParamNml) :=
  match splitOnChar '\n' block with
  | [] => .ok []
  | g0 :: rest =>
    let gname0 := pyStrip g0
    let gname :=
      if strHas '!' gname0 then pyStrip (gname0.takeWhile (fun c => c != '!')) else gname0
    match joinContAux [] rest with
    | .error e => .error e
    | .ok body =>
      body.mapM (fun l => (_parse_line l).map (fun nvc => ⟨gname, nvc.1, nvc.2.1, some nvc.2.2⟩))

/-- The initial line filter of `parse_nml`: strip, drop blank lines and
full-line comments, truncate inline comments only when `ignore_comments`. -/
def filterNmlLine (ignore_comments : Bool) (line : Str) : Option Str :=
  let l := pyStrip line
  if l = [] then none
  else if headIs '!' l then none
  else if ignore_comments ∧ strHas '!' l then some (l.takeWhile (fun c => c != '!'))
  else some l

/-- `parse_nml` from namelist.py. -/
def parse_nml (string : Str) (ignore_comments : Bool) : Except NmlError (List ParamNml) :=
  let filtered := (splitOnChar '\n' string).filterMap (filterNmlLine ignore_comments)
  let blocks := findGroupBlocks (joinWith '\n' filtered)
  match blocks.mapM parseGroupBlock with
  | .error e => .error e
  | .ok pss => .ok pss.flatten

/-! ## Formatter (`format_nml` and helpers) -/

/-- Decimal digit character (only used for `k < 10`). -/
def digitChar : ℕ → Char
  | 0 => '0' | 1 => '1' | 2 => '2' | 3 => '3' | 4 => '4'
  | 5 => '5' | 6 => '6' | 7 => '7' | 8 => '8' | 9 => '9'
  | _ => '?'

/-- Decimal digits of a natural number, most significant first
(fuel-structural so the kernel can evaluate it; fuel `n+1` always suffices). -/
def natDigitsAux : ℕ → ℕ → Str → Str
  | 0, _, acc => acc
  | fuel + 1, n, acc =>
    if n < 10 then digitChar n :: acc
    else natDigitsAux fuel (n / 10) (digitChar (n % 10) :: acc)

def natDigits (n : ℕ) : Str := natDigitsAux (n + 1) n []

/-- Python `repr` of an int. -/
def pyReprInt (n : ℤ) : Str :=
  if n < 0 then '-' :: natDigits n.natAbs else natDigits n.toNat

/-- Python `repr` of a str, modelled for strings of printable characters
without backslashes (`repr`'s escaping of backslashes and control characters
is not exercised by any claim). -/
def pyReprStr (s : Str) : Str :=
  if ¬ strHas '\'' s then '\'' :: s ++ ['\'']
  else if ¬ strHas '"' s then '"' :: s ++ ['"']
  else '\'' :: (s.map (fun c => if c = '\'' then ['\\', '\''] else [c])).flatten ++ ['\'']

/-- Python `repr` of a float, modelled for values with terminating decimal
expansion (the only values decimal literals parse to); scientific notation
for extreme magnitudes is not modelled, and no claim exercises floats. -/
def pyReprFloat (q : ℚ) : Str :=
  let sgn : Str := if q < 0 then ['-'] else []
  let a := |q|
  match (List.range 400).find? (fun k => (a * 10 ^ k).den == 1) with
  | some k =>
    if k = 0 then sgn ++ natDigits a.num.toNat ++ ['.', '0']
    else
      let ds := natDigits (a * 10 ^ k).num.toNat
      if ds.length ≤ k then
        sgn ++ '0' :: '.' :: (List.replicate (k - ds.length) '0' ++ ds)
      else sgn ++ ds.take (ds.length - k) ++ '.' :: ds.drop (ds.length - k)
  | none => sgn ++ natDigits a.num.toNat

mutual

/-- Python `repr` of a parsed value (used by `_format_value` for everything
except booleans; nested lists render as `[x, y]`). -/
def pyReprValue : Value → Str
  | .int n => pyReprInt n
  | .float q => pyReprFloat q
  | .bool b => if b then "True".data else "False".data
  | .str s => pyReprStr s
  | .list l => '[' :: pyReprValueList l ++ [']']

def pyReprValueList : List Value → Str
  | [] => []
  | [v] => pyReprValue v
  | v :: rest => pyReprValue v ++ ',' :: ' ' :: pyReprValueList rest

end

/-- `_format_value` from namelist.py: booleans as `.true.`/`.false.`,
everything else via `repr`. -/
def _format_value (value : Value) : Str :=
  match value with
  | .bool b => if b then ".true.".data else ".false.".data
  | v => pyReprValue v

/-- Python `"{:N}".format(s)`: pad right with spaces to width `N`. -/
def padTo (n : ℕ) (l : Str) : Str := l ++ List.replicate (n - l.length) ' '

/-- The value text of one formatted line: list values are space-joined
element reprs, scalars a single repr. -/
def valueText (v : Value) : Str :=
  match v with
  | .list l => joinWith ' ' (l.map _format_value)
  | v => _format_value v

/-- One formatted parameter line of `format_nml`: name padded to 15, the
whole line padded to 30, list values space-joined, then an optional
`!`-comment from a truthy help string. -/
def paramLine (param : ParamNml) : Str :=
  let nmstr := padTo 15 param.name
  let body := ' ' :: (nmstr ++ ' ' :: '=' :: ' ' :: valueText param.value)
  let line := padTo 30 body
  match param.help with
  | some h => if h ≠ [] then line ++ ' ' :: '!' :: ' ' :: h else line
  | none => line

/-- `itertools.groupby` keyed on the group name: maximal runs of consecutive
records with equal `group`. -/
def groupByKey : List ParamNml → List (Str × List ParamNml)
  | [] => []
  | p :: ps =>
    match groupByKey ps with
    | [] => [(p.group, [p])]
    | (g, run) :: rest =>
      if p.group = g then (g, p :: run) :: rest
      else (p.group, [p]) :: (g, run) :: rest

/-- `format_nml` from namelist.py: one `&GROUP .. /` block per `groupby` run,
an error on an empty group name, lines joined by newlines plus a final
newline. -/
def format_nml (params : List ParamNml) : Except NmlError Str :=
  match (groupByKey params).mapM (fun gr =>
      if gr.1 = [] then Except.error NmlError.emptyGroupName
      else Except.ok (('&' :: gr.1) :: gr.2.map paramLine ++ [['/']])) with
  | .error e => .error e
  | .ok lineBlocks => .ok (joinWith '\n' lineBlocks.flatten ++ ['\n'])

/-! ## Façade and dict model -/

/-- Python `d[k] = v` on an insertion-ordered dict: replace in place if the
key exists, append otherwise. -/
def dictSet {α : Type} (m : List (Str × α)) (k : Str) (v : α) : List (Str × α) :=
  if m.any (fun kv => kv.1 == k) then
    m.map (fun kv => if kv.1 == k then (k, v) else kv)
  else m ++ [(k, v)]

/-- Python `OrderedDict(pairs)` / `dict(pairs)`. -/
def odictOfPairs {α : Type} (ps : List (Str × α)) : List (Str × α) :=
  ps.foldl (fun m kv => dictSet m kv.1 kv.2) []

/-- Python `d.get(k)` / `d[k]`. -/
def dictGet {α : Type} (m : List (Str × α)) (k : Str) : Option α :=
  (m.find? (fun kv => kv.1 == k)).map (fun kv => kv.2)

/-- The `Namelist` façade (separator modelled as a single character, the
default `'.'` of the source). -/
structure Namelist where
  sep : Char

/-- `Namelist.dumps`: split each flattened key on the separator into
`(group, name)` (`group, name = longname.split(self.sep)` requires exactly
two parts), then format. -/
def Namelist.dumps (nl : Namelist) (params : List (Str × Value)) : Except NmlError Str :=
  match params.mapM (fun kv =>
      match splitOnChar nl.sep kv.1 with
      | [group, name] => Except.ok (⟨group, name, kv.2, none⟩ : ParamNml)
      | _ => Except.error (NmlError.keyUnpack kv.1)) with
  | .error e => .error e
  | .ok pars => format_nml pars

/-- `Namelist.loads`: parse, then build the ordered mapping keyed by
`group + sep + name`. -/
def Namelist.loads (nl : Namelist) (string : Str) : Except NmlError (List (Str × Value)) :=
  match parse_nml string false with
  | .error e => .error e
  | .ok params => .ok (odictOfPairs (params.map (fun p => (p.group ++ nl.sep :: p.name, p.value))))

/-! ## File-level helpers -/

/-- `nml_update_if_exists` from namelist.py: update only keys already
present in `par`. -/
def nml_update_if_exists (par new : List (Str × Value)) : List (Str × Value) :=
  new.foldl (fun cur kv =>
    if cur.any (fun e => e.1 == kv.1) then
      cur.map (fun e => if e.1 == kv.1 then (kv.1, kv.2) else e)
    else cur) par

/-- `param_map_groups` from namelist.py: for keys containing a dot, keep the
first two dot-separated segments, replacing the first by its alias when the
alias dict defines one; other keys pass through; values are unchanged. -/
def param_map_groups (params : List (Str × Value)) (grp_aliases : List (Str × Str)) :
    List (Str × Value) :=
  params.foldl (fun out kv =>
    let key_new :=
      if strHas '.' kv.1 then
        let tmp := splitOnChar '.' kv.1
        let grp := tmp.headD []
        let par := (tmp.drop 1).headD []
        let grp_new :=
          match grp_aliases.find? (fun a => a.1 == grp) with
          | some a => a.2
          | none => grp
        grp_new ++ '.' :: par
      else kv.1
    dictSet out key_new kv.2) []

/-- In-memory file system: a path-to-contents dict standing in for the file
handles the Python code passes around. -/
abbrev FileSys := List (Str × Str)

/-- Errors of the file-level helpers. -/
inductive ParamFileError where
  | io (path : Str)                                  -- missing file
  | fmt (e : NmlError)                               -- parse or format error
  | missingParams (keys : List Str) (files : List Str)
      -- the `Exception(error_msg)` of `param_check_all`: carries every
      -- missing key and the list of files checked
deriving DecidableEq

/-- Modelled from the spec: `FileType.load` (runner/filetype.py is not under
src/) reads a file and parses it with `loads`; modelled as `loads` over the
in-memory file system. -/
def nmlLoadFile (fs : FileSys) (path : Str) : Except ParamFileError (List (Str × Value)) :=
  match (fs.find? (fun e => e.1 == path)).map (fun e => e.2) with
  | none => .error (.io path)
  | some s =>
    match Namelist.loads ⟨'.'⟩ s with
    | .error e => .error (.fmt e)
    | .ok d => .ok d

/-- `param_check_all` from namelist.py: load every source file, take the
union of their key sets, and fail with the complete set of missing keys and
the list of files checked when any requested key is absent. -/
def param_check_all (params : List (Str × Value)) (par_paths : List Str) (fs : FileSys) :
    Except ParamFileError Unit :=
  match par_paths.mapM (nmlLoadFile fs) with
  | .error e => .error e
  | .ok params_all =>
    let all_keys := (params_all.map (fun d => d.map (fun kv => kv.1))).flatten
    let missing_keys := (params.map (fun kv => kv.1)).filter (fun k => ¬ all_keys.contains k)
    if missing_keys ≠ [] then .error (.missingParams missing_keys par_paths) else .ok ()

/-- `param_write_to_file` from namelist.py: load the source namelist, update
the values of keys that exist there, and write the result to the
destination path (modelled from the spec for `FileType.dump`, which writes
`dumps` output to the handle). -/
def param_write_to_file (params : List (Str × Value)) (par_src_path par_dst_path : Str)
    (fs : FileSys) : Except ParamFileError FileSys :=
  match nmlLoadFile fs par_src_path with
  | .error e => .error e
  | .ok params_now =>
    match Namelist.dumps ⟨'.'⟩ (nml_update_if_exists params_now params) with
    | .error e => .error (.fmt e)
    | .ok text => .ok (dictSet fs par_dst_path text)

/-- `param_write_to_files` from namelist.py: expand group aliases if given,
check that every parameter exists in some source file, and only then write
every destination file. -/
def param_write_to_files (params : List (Str × Value)) (nml_src_paths nml_dst_paths : List Str)
    (grp_aliases : Option (List (Str × Str))) (fs : FileSys) : Except ParamFileError FileSys :=
  let params_mapped :=
    match grp_aliases with
    | some al => if 0 < al.length then param_map_groups params al else params
    | none => params
  match param_check_all params_mapped nml_src_paths fs with
  | .error e => .error e
  | .ok _ =>
    (nml_src_paths.zip nml_dst_paths).foldlM
      (fun cur sd => param_write_to_file params_mapped sd.1 sd.2 cur) fs

/-! ## Executable mirror of the parsing pipeline

Same functions with the fuel parser substituted for the well-founded one,
plus pointwise equality lemmas, so whole-pipeline runs on concrete inputs
reduce inside the kernel. -/

def _parse_lineE (l0 : Str) : Except NmlError (Str × Value × Str) :=
  let comment :=
    if strHas '!' l0 then pyStrip ((l0.dropWhile (fun c => c != '!')).drop 1) else []
  let l1 := if strHas '!' l0 then pyStrip (l0.takeWhile (fun c => c != '!')) else l0
  let l2 := if lastIs ',' l1 then l1.dropLast else l1
  match splitOnChar '=' l2 with
  | [k, v] =>
    (parseValueF (3 * (pyStrip v).length + 3) (pyStrip v)).map
      (fun val => (pyStrip k, val, comment))
  | _ => .error (.eqUnpack l2)

theorem _parse_lineE_eq (l0 : Str) : _parse_line l0 = _parse_lineE l0 := by
  simp only [_parse_line, _parse_lineE, _parse_value_exec]

def parseGroupBlockE (block : Str) : Except NmlError (List ParamNml) :=
  match splitOnChar '\n' block with
  | [] => .ok []
  | g0 :: rest =>
    let gname0 := pyStrip g0
    let gname :=
      if strHas '!' gname0 then pyStrip (gname0.takeWhile (fun c => c != '!')) else gname0
    match joinContAux [] rest with
    | .error e => .error e
    | .ok body =>
      body.mapM (fun l => (_parse_lineE l).map (fun nvc => ⟨gname, nvc.1, nvc.2.1, some nvc.2.2⟩))

theorem parseGroupBlockE_eq (block : Str) : parseGroupBlock block = parseGroupBlockE block := by
  simp only [parseGroupBlock, parseGroupBlockE, _parse_lineE_eq]

def parse_nmlE (string : Str) (ignore_comments : Bool) : Except NmlError (List ParamNml) :=
  let filtered := (splitOnChar '\n' string).filterMap (filterNmlLine ignore_comments)
  let blocks := findGroupBlocks (joinWith '\n' filtered)
  match blocks.mapM parseGroupBlockE with
  | .error e => .error e
  | .ok pss => .ok pss.flatten

theorem parse_nmlE_eq (string : Str) (ic : Bool) : parse_nml string ic = parse_nmlE string ic := by
  have h : parseGroupBlock = parseGroupBlockE := funext parseGroupBlockE_eq
  simp only [parse_nml, parse_nmlE, h]

def loadsE (nl : Namelist) (string : Str) : Except NmlError (List (Str × Value)) :=
  match parse_nmlE string false with
  | .error e => .error e
  | .ok params => .ok (odictOfPairs (params.map (fun p => (p.group ++ nl.sep :: p.name, p.value))))

theorem loadsE_eq (nl : Namelist) (string : Str) : nl.loads string = loadsE nl string := by
  simp only [Namelist.loads, loadsE, parse_nmlE_eq]

/-! ## Split, join and strip lemmas -/

theorem splitOnP_eq_single {p : Char → Bool} {l : Str}
    (h : ∀ x ∈ l, p x = false) : splitOnP p l = [l] := by
  induction l with
  | nil => rfl
  | cons x xs ih =>
    have hx := h x (by simp)
    have ihs := ih (fun y hy => h y (by simp [hy]))
    simp only [splitOnP, ihs, hx]
    simp

theorem splitOnP_append {p : Char → Bool} {l : Str} {c : Char} {r : Str}
    (hl : ∀ x ∈ l, p x = false) (hc : p c = true) :
    splitOnP p (l ++ c :: r) = l :: splitOnP p r := by
  induction l with
  | nil =>
    simp only [List.nil_append, splitOnP]
    cases h : splitOnP p r with
    | nil => exact absurd h (splitOnP_ne_nil p r)
    | cons a as => simp [hc]
  | cons x xs ih =>
    have hx := hl x (by simp)
    have ihs := ih (fun y hy => hl y (by simp [hy]))
    rw [List.cons_append]
    rw [splitOnP, ihs]
    simp [hx]

theorem joinWith_cons_cons (c x : Char) (r : Str) (rs : List Str) :
    joinWith c ((x :: r) :: rs) = x :: joinWith c (r :: rs) := by
  cases rs <;> simp [joinWith]

theorem joinWith_splitOnChar (c : Char) (l : Str) :
    joinWith c (splitOnChar c l) = l := by
  induction l with
  | nil => rfl
  | cons x xs ih =>
    rw [splitOnChar] at ih ⊢
    simp only [splitOnP]
    cases h : splitOnP (fun y => y == c) xs with
    | nil => exact absurd h (splitOnP_ne_nil _ xs)
    | cons r rs =>
      rw [h] at ih
      by_cases hx : x = c
      · simp only [hx, beq_self_eq_true, if_true, joinWith]
        rw [ih]
        simp
      · have hxc : (x == c) = false := by simp [hx]
        simp only [hxc, Bool.false_eq_true, if_false, joinWith_cons_cons]
        rw [ih]

theorem not_mem_of_mem_splitOnChar {c : Char} {l part : Str}
    (hp : part ∈ splitOnChar c l) : c ∉ part := by
  induction l generalizing part with
  | nil =>
    rw [splitOnChar, splitOnP] at hp
    simp at hp
    simp [hp]
  | cons x xs ih =>
    rw [splitOnChar, splitOnP] at hp
    cases h : splitOnP (fun y => y == c) xs with
    | nil => exact absurd h (splitOnP_ne_nil _ xs)
    | cons r rs =>
      rw [h] at hp
      have hr : ∀ q ∈ r :: rs, c ∉ q := by
        intro q hq
        exact ih (by rw [splitOnChar, h]; exact hq)
      by_cases hx : x = c
      · simp only [hx, beq_self_eq_true, if_true] at hp
        rcases List.mem_cons.mp hp with rfl | hp2
        · simp
        · exact hr _ hp2
      · have hxc : (x == c) = false := by simp [hx]
        simp only [hxc, if_false] at hp
        rcases List.mem_cons.mp hp with rfl | hp2
        · intro hmem
          rcases List.mem_cons.mp hmem with rfl | hmem2
          · exact hx rfl
          · exact hr r (by simp) hmem2
        · exact hr _ (by simp [hp2])

theorem mem_of_mem_splitOnP {p : Char → Bool} {l part : Str} {x : Char}
    (hp : part ∈ splitOnP p l) (hx : x ∈ part) : x ∈ l := by
  induction l generalizing part with
  | nil =>
    rw [splitOnP] at hp
    simp at hp
    subst hp
    simp at hx
  | cons y ys ih =>
    rw [splitOnP] at hp
    cases h : splitOnP p ys with
    | nil => exact absurd h (splitOnP_ne_nil _ ys)
    | cons r rs =>
      rw [h] at hp
      by_cases hy : p y
      · simp only [hy, if_true] at hp
        rcases List.mem_cons.mp hp with rfl | hp2
        · simp at hx
        · exact List.mem_cons_of_mem _ (ih (by rw [h]; exact hp2) hx)
      · simp only [hy, if_false] at hp
        rcases List.mem_cons.mp hp with rfl | hp2
        · rcases List.mem_cons.mp hx with rfl | hx2
          · simp
          · exact List.mem_cons_of_mem _ (ih (by rw [h]; simp) hx2)
        · exact List.mem_cons_of_mem _ (ih (by rw [h]; simp [hp2]) hx)

theorem mem_splitOnP_cover {p : Char → Bool} {l : Str} {x : Char} (hx : x ∈ l) :
    p x = true ∨ ∃ part ∈ splitOnP p l, x ∈ part := by
  induction l with
  | nil => simp at hx
  | cons y ys ih =>
    rw [splitOnP]
    cases h : splitOnP p ys with
    | nil => exact absurd h (splitOnP_ne_nil _ ys)
    | cons r rs =>
      rcases List.mem_cons.mp hx with rfl | hx2
      · by_cases hy : p x
        · exact Or.inl hy
        · refine Or.inr ⟨x :: r, by simp [hy], by simp⟩
      · rcases ih hx2 with hpx | ⟨part, hpm, hxm⟩
        · exact Or.inl hpx
        · rw [h] at hpm
          by_cases hy : p y
          · exact Or.inr ⟨part, by simp only [hy, if_true]; exact List.mem_cons_of_mem _ hpm, hxm⟩
          · rcases List.mem_cons.mp hpm with rfl | hpm2
            · exact Or.inr ⟨y :: part, by simp [hy], by simp [hxm]⟩
            · exact Or.inr ⟨part, by simp only [hy, Bool.false_eq_true, if_false]; exact List.mem_cons_of_mem _ hpm2, hxm⟩

theorem splitOnChar_sandwich {c : Char} {g n : Str}
    (hg : c ∉ g) (hn : c ∉ n) : splitOnChar c (g ++ c :: n) = [g, n] := by
  rw [splitOnChar]
  rw [splitOnP_append (fun x hx => by simp; rintro rfl; exact hg hx) (by simp)]
  rw [splitOnP_eq_single (fun x hx => by simp; rintro rfl; exact hn hx)]

theorem joinWith_cons_of_ne (c : Char) (a : Str) {L : List Str} (h : L ≠ []) :
    joinWith c (a :: L) = a ++ c :: joinWith c L := by
  cases L with
  | nil => exact absurd rfl h
  | cons z zs => rfl

theorem joinWith_append (c : Char) (xs ys : List Str) (hx : xs ≠ []) (hy : ys ≠ []) :
    joinWith c (xs ++ ys) = joinWith c xs ++ c :: joinWith c ys := by
  induction xs with
  | nil => exact absurd rfl hx
  | cons a as ih =>
    cases as with
    | nil =>
      rw [List.singleton_append, joinWith_cons_of_ne c a hy]
      rfl
    | cons a2 as2 =>
      rw [List.cons_append, joinWith_cons_of_ne c a (by simp),
        ih (by simp), joinWith_cons_of_ne c a (by simp)]
      simp

theorem splitOnChar_joinWith {c : Char} {ls : List Str}
    (h : ∀ l ∈ ls, c ∉ l) (hne : ls ≠ []) :
    splitOnChar c (joinWith c ls) = ls := by
  induction ls with
  | nil => exact absurd rfl hne
  | cons l ls2 ih =>
    cases ls2 with
    | nil =>
      show splitOnChar c (joinWith c [l]) = [l]
      rw [joinWith, splitOnChar, splitOnP_eq_single]
      intro x hx
      simp
      rintro rfl
      exact h l (by simp) hx
    | cons l2 ls3 =>
      rw [joinWith_cons_of_ne c l (by simp)]
      rw [splitOnChar, splitOnP_append
        (fun x hx => by simp; rintro rfl; exact h l (by simp) hx) (by simp)]
      rw [← splitOnChar, ih (fun q hq => h q (by simp [hq])) (by simp)]

theorem splitOnChar_joinWith_newline {c : Char} {ls : List Str}
    (h : ∀ l ∈ ls, c ∉ l) (hne : ls ≠ []) :
    splitOnChar c (joinWith c ls ++ [c]) = ls ++ [[]] := by
  induction ls with
  | nil => exact absurd rfl hne
  | cons l ls2 ih =>
    cases ls2 with
    | nil =>
      show splitOnChar c (joinWith c [l] ++ [c]) = [l, []]
      rw [joinWith, splitOnChar,
        splitOnP_append (fun x hx => by simp; rintro rfl; exact h l (by simp) hx) (by simp)]
      rfl
    | cons l2 ls3 =>
      rw [joinWith_cons_of_ne c l (by simp), List.append_assoc, List.cons_append]
      rw [splitOnChar, splitOnP_append
        (fun x hx => by simp; rintro rfl; exact h l (by simp) hx) (by simp)]
      rw [← splitOnChar, ih (fun q hq => h q (by simp [hq])) (by simp)]
      rfl

/-! ## Strip lemmas -/

theorem dropWhile_append_all {p : Char → Bool} {a b : Str}
    (h : ∀ x ∈ a, p x = true) : (a ++ b).dropWhile p = b.dropWhile p := by
  induction a with
  | nil => simp
  | cons x xs ih =>
    have := h x (by simp)
    simp [List.dropWhile_cons, this, ih (fun y hy => h y (by simp [hy]))]

theorem dropWhile_of_head {p : Char → Bool} {b : Str} {hd : Char}
    (hh : b.head? = some hd) (hp : p hd = false) : b.dropWhile p = b := by
  cases b with
  | nil => rfl
  | cons x xs =>
    simp at hh
    subst hh
    simp [List.dropWhile_cons, hp]

theorem dropWhile_spaces (m : ℕ) :
    (List.replicate m ' ').dropWhile pyIsSpace = [] := by
  induction m with
  | zero => rfl
  | succ m ih => simp [List.replicate_succ, List.dropWhile_cons, pyIsSpace, ih]

theorem pyStrip_eq_self {l : Str}
    (h1 : ∀ hd, l.head? = some hd → pyIsSpace hd = false)
    (h2 : ∀ lt, l.getLast? = some lt → pyIsSpace lt = false) :
    pyStrip l = l := by
  cases l with
  | nil => rfl
  | cons x xs =>
    unfold pyStrip
    have e1 : (x :: xs).dropWhile pyIsSpace = x :: xs :=
      @dropWhile_of_head pyIsSpace (x :: xs) x rfl (h1 x rfl)
    rw [e1]
    have e2 : ((x :: xs).reverse).dropWhile pyIsSpace = (x :: xs).reverse :=
      @dropWhile_of_head pyIsSpace ((x :: xs).reverse) ((x :: xs).getLast (by simp))
        (by rw [List.head?_reverse]; exact List.getLast?_eq_getLast _ (by simp))
        (h2 _ (List.getLast?_eq_getLast _ (by simp)))
    rw [e2, List.reverse_reverse]

theorem pyStrip_pad {l : Str} {j k : ℕ}
    (h1 : ∀ hd, l.head? = some hd → pyIsSpace hd = false)
    (h2 : ∀ lt, l.getLast? = some lt → pyIsSpace lt = false) :
    pyStrip (List.replicate j ' ' ++ l ++ List.replicate k ' ') = l := by
  cases l with
  | nil =>
    unfold pyStrip
    rw [List.append_nil, ← List.replicate_add, dropWhile_spaces]
    rfl
  | cons y ys =>
    unfold pyStrip
    rw [List.append_assoc,
      dropWhile_append_all (fun x hx => by rw [List.eq_of_mem_replicate hx]; rfl)]
    have e1 : ((y :: ys) ++ List.replicate k ' ').dropWhile pyIsSpace =
        (y :: ys) ++ List.replicate k ' ' :=
      @dropWhile_of_head pyIsSpace ((y :: ys) ++ List.replicate k ' ') y rfl (h1 y rfl)
    rw [e1, List.reverse_append, List.reverse_replicate,
      dropWhile_append_all (fun x hx => by rw [List.eq_of_mem_replicate hx]; rfl)]
    have e2 : ((y :: ys).reverse).dropWhile pyIsSpace = (y :: ys).reverse :=
      @dropWhile_of_head pyIsSpace ((y :: ys).reverse) ((y :: ys).getLast (by simp))
        (by rw [List.head?_reverse]; exact List.getLast?_eq_getLast _ (by simp))
        (h2 _ (List.getLast?_eq_getLast _ (by simp)))
    rw [e2, List.reverse_reverse]

/-! ## Digit and integer lemmas -/

theorem digitChar_isDigit {k : ℕ} (h : k < 10) : (digitChar k).isDigit = true := by
  interval_cases k <;> decide

theorem digitChar_toNat {k : ℕ} (h : k < 10) : (digitChar k).toNat = 48 + k := by
  interval_cases k <;> decide

theorem mem_of_getLast?_eq {α : Type} {l : List α} {c : α} (h : l.getLast? = some c) : c ∈ l := by
  obtain ⟨hne, heq⟩ := @List.mem_getLast?_eq_getLast _ l c (Option.mem_def.mpr h)
  rw [heq]
  exact List.getLast_mem hne

theorem not_space_of_digit {c : Char} (h : c.isDigit = true) : pyIsSpace c = false := by
  by_contra hsp
  have hsp2 : pyIsSpace c = true := by
    cases hx : pyIsSpace c
    · exact absurd hx hsp
    · rfl
  simp only [pyIsSpace, Bool.or_eq_true, beq_iff_eq] at hsp2
  rcases hsp2 with ((((h1 | h1) | h1) | h1) | h1) | h1 <;> subst h1 <;> simp at h

theorem natDigitsAux_spec : ∀ fuel n acc, n < fuel →
    ∃ ds : Str, natDigitsAux fuel n acc = ds ++ acc ∧ ds ≠ [] ∧
      ds.all Char.isDigit = true ∧
      ∀ a : ℕ, ds.foldl (fun x c => 10 * x + (c.toNat - '0'.toNat)) a =
        a * 10 ^ ds.length + n := by
  intro fuel
  induction fuel with
  | zero => intro n acc h; omega
  | succ f ih =>
    intro n acc h
    by_cases h10 : n < 10
    · refine ⟨[digitChar n], by simp [natDigitsAux, h10], by simp,
        by simp [digitChar_isDigit h10], ?_⟩
      intro a
      simp [digitChar_toNat h10]
      omega
    · have hn : n / 10 < f := by omega
      obtain ⟨ds, he, hne, hdig, hval⟩ := ih (n / 10) (digitChar (n % 10) :: acc) hn
      refine ⟨ds ++ [digitChar (n % 10)], ?_, by simp, ?_, ?_⟩
      · simp only [natDigitsAux, if_neg h10, he, List.append_assoc, List.singleton_append]
      · simp [List.all_append, hdig, digitChar_isDigit (show n % 10 < 10 by omega)]
      · intro a
        rw [List.foldl_append, hval a]
        simp [digitChar_toNat (show n % 10 < 10 by omega), List.length_append, pow_succ]
        ring_nf
        omega

theorem natDigits_spec (n : ℕ) :
    natDigits n ≠ [] ∧ (natDigits n).all Char.isDigit = true ∧
      (natDigits n).foldl (fun x c => 10 * x + (c.toNat - '0'.toNat)) 0 = n := by
  obtain ⟨ds, he, hne, hdig, hval⟩ := natDigitsAux_spec (n + 1) n [] (by omega)
  rw [natDigits, he, List.append_nil]
  exact ⟨hne, hdig, by rw [hval 0]; simp⟩

theorem digitsVal_natDigits (n : ℕ) : digitsVal (natDigits n) = some n := by
  obtain ⟨hne, hdig, hval⟩ := natDigits_spec n
  rw [digitsVal, if_pos ⟨hne, hdig⟩, hval]

theorem digitsVal_none_of_mem {s : Str} {c : Char} (hc : c ∈ s)
    (hd : c.isDigit = false) : digitsVal s = none := by
  rw [digitsVal, if_neg]
  rintro ⟨-, hall⟩
  rw [List.all_eq_true] at hall
  rw [hall c hc] at hd
  cases hd

theorem pyStrip_of_digits {s : Str} (h : s.all Char.isDigit = true) :
    pyStrip s = s := by
  rw [List.all_eq_true] at h
  refine pyStrip_eq_self ?_ ?_
  · intro hd hh
    exact not_space_of_digit (h hd (by cases s with
      | nil => simp at hh
      | cons a l => simp at hh; simp [hh]))
  · intro lt hl
    exact not_space_of_digit (h lt (mem_of_getLast?_eq hl))

theorem digit_ne_plus {c : Char} (h : c.isDigit = true) : c ≠ '+' := by
  rintro rfl; simp at h

theorem digit_ne_minus {c : Char} (h : c.isDigit = true) : c ≠ '-' := by
  rintro rfl; simp at h

theorem pyStrip_minus_digits {ds : Str} (hne : ds ≠ []) (hdig : ds.all Char.isDigit = true) :
    pyStrip ('-' :: ds) = '-' :: ds := by
  refine pyStrip_eq_self ?_ ?_
  · intro hd hh
    simp at hh
    subst hh
    rfl
  · intro lt hl
    have h2 : ('-' :: ds).getLast? = ds.getLast? := by
      cases hds : ds with
      | nil => exact absurd hds hne
      | cons a l => rw [List.getLast?_cons_cons]
    rw [h2] at hl
    exact not_space_of_digit ((List.all_eq_true.mp hdig) lt (mem_of_getLast?_eq hl))

theorem pyInt_pyReprInt (n : ℤ) : pyInt (pyReprInt n) = some n := by
  by_cases hn : n < 0
  · obtain ⟨hne, hdig, -⟩ := natDigits_spec n.natAbs
    rw [pyReprInt, if_pos hn, pyInt, pyStrip_minus_digits hne hdig]
    show (digitsVal (natDigits n.natAbs)).map (fun m => -(m : ℤ)) = some n
    rw [digitsVal_natDigits]
    have habs : ((n.natAbs : ℕ) : ℤ) = -n := Int.ofNat_natAbs_of_nonpos (by omega)
    simp [habs]
  · obtain ⟨hne, hdig, -⟩ := natDigits_spec n.toNat
    rw [pyReprInt, if_neg hn, pyInt, pyStrip_of_digits hdig]
    cases hds : natDigits n.toNat with
    | nil => exact absurd hds hne
    | cons d ds =>
      have hd : d.isDigit = true := (List.all_eq_true.mp (hds ▸ hdig)) d (by simp)
      split
      next heq =>
        exact absurd (List.cons.inj heq).1 (digit_ne_plus hd)
      next heq =>
        exact absurd (List.cons.inj heq).1 (digit_ne_minus hd)
      next =>
        rw [← hds, digitsVal_natDigits]
        simp
        omega

/-! ## Character-class lemmas for the numeric matchers -/

theorem pySign_snd (t : Str) :
    (pySign t).2 = t ∨ ∃ r, (t = '+' :: r ∨ t = '-' :: r) ∧ (pySign t).2 = r := by
  unfold pySign
  split
  next r => exact Or.inr ⟨r, Or.inl rfl, rfl⟩
  next r => exact Or.inr ⟨r, Or.inr rfl, rfl⟩
  next => exact Or.inl rfl

theorem pyExpSign_snd (e : Str) :
    (pyExpSign e).2 = e ∨ ∃ r, (e = '+' :: r ∨ e = '-' :: r) ∧ (pyExpSign e).2 = r := by
  unfold pyExpSign
  split
  next r => exact Or.inr ⟨r, Or.inl rfl, rfl⟩
  next r => exact Or.inr ⟨r, Or.inr rfl, rfl⟩
  next => exact Or.inl rfl

theorem digitsVal_chars {s : Str} {v : ℕ} (h : digitsVal s = some v) :
    ∀ c ∈ s, c.isDigit = true := by
  intro c hc
  cases hall : s.all Char.isDigit with
  | false => rw [digitsVal, if_neg (by rintro ⟨-, h2⟩; rw [hall] at h2; cases h2)] at h; cases h
  | true => exact List.all_eq_true.mp hall c hc

theorem pyInt_chars {s : Str} {n : ℤ} (h : pyInt s = some n) :
    ∀ c ∈ pyStrip s, c.isDigit = true ∨ c = '+' ∨ c = '-' := by
  intro c hc
  rw [pyInt] at h
  cases hst : pyStrip s with
  | nil => rw [hst] at hc; cases hc
  | cons x rest =>
    rw [hst] at h hc
    split at h
    next heq =>
      obtain ⟨rfl, rfl⟩ : x = '+' ∧ rest = _ := ⟨(List.cons.inj heq).1, (List.cons.inj heq).2⟩
      cases hv : digitsVal rest with
      | none => rw [hv] at h; cases h
      | some v =>
        rcases List.mem_cons.mp hc with rfl | hc2
        · exact Or.inr (Or.inl rfl)
        · exact Or.inl (digitsVal_chars hv c hc2)
    next heq =>
      obtain ⟨rfl, rfl⟩ : x = '-' ∧ rest = _ := ⟨(List.cons.inj heq).1, (List.cons.inj heq).2⟩
      cases hv : digitsVal rest with
      | none => rw [hv] at h; cases h
      | some v =>
        rcases List.mem_cons.mp hc with rfl | hc2
        · exact Or.inr (Or.inr rfl)
        · exact Or.inl (digitsVal_chars hv c hc2)
    next =>
      cases hv : digitsVal (x :: rest) with
      | none => rw [hv] at h; cases h
      | some v => exact Or.inl (digitsVal_chars hv c hc)

theorem pyInt_none_of_char {s : Str} {c : Char} (hc : c ∈ pyStrip s)
    (h1 : c.isDigit = false) (h2 : c ≠ '+') (h3 : c ≠ '-') : pyInt s = none := by
  cases hpi : pyInt s with
  | none => rfl
  | some n =>
    rcases pyInt_chars hpi c hc with hd | rfl | rfl
    · rw [h1] at hd; cases hd
    · exact absurd rfl h2
    · exact absurd rfl h3

theorem joinWith_singleton (c : Char) (x : Str) : joinWith c [x] = x := rfl

theorem pyFloatMant_chars {m : Str} {q : ℚ} (h : pyFloatMant m = some q) :
    ∀ c ∈ m, c.isDigit = true ∨ c = '.' := by
  intro c hc
  have hj : joinWith '.' (splitOnChar '.' m) = m := joinWith_splitOnChar '.' m
  rw [pyFloatMant] at h
  split at h
  next a heq =>
    rw [heq, joinWith_singleton] at hj
    cases hv : digitsVal a with
    | none => rw [hv] at h; cases h
    | some v =>
      rw [← hj] at hc
      exact Or.inl (digitsVal_chars hv c hc)
  next a b heq =>
    rw [heq, joinWith_cons_of_ne '.' a (by simp), joinWith_singleton] at hj
    split at h
    next hcond =>
      have hall := hcond.2
      rw [← hj] at hc
      rcases List.mem_append.mp hc with hca | hcb
      · exact Or.inl (List.all_eq_true.mp hall c (List.mem_append.mpr (Or.inl hca)))
      · rcases List.mem_cons.mp hcb with rfl | hcb2
        · exact Or.inr rfl
        · exact Or.inl (List.all_eq_true.mp hall c (List.mem_append.mpr (Or.inr hcb2)))
    next => cases h
  next => cases h

theorem pyFloat_chars {s : Str} {q : ℚ} (h : pyFloat s = some q) :
    ∀ c ∈ pyStrip s, c.isDigit = true ∨ c = '.' ∨ c = 'e' ∨ c = 'E' ∨ c = '+' ∨ c = '-' := by
  intro c hc
  have hstep : c = '+' ∨ c = '-' ∨ c ∈ (pySign (pyStrip s)).2 := by
    rcases pySign_snd (pyStrip s) with he | ⟨r, hsr, he⟩
    · rw [he]; exact Or.inr (Or.inr hc)
    · rcases hsr with hpl | hmi
      · rw [hpl] at hc
        rcases List.mem_cons.mp hc with rfl | hc2
        · exact Or.inl rfl
        · rw [he]; exact Or.inr (Or.inr hc2)
      · rw [hmi] at hc
        rcases List.mem_cons.mp hc with rfl | hc2
        · exact Or.inr (Or.inl rfl)
        · rw [he]; exact Or.inr (Or.inr hc2)
  rcases hstep with rfl | rfl | hcu
  · exact Or.inr (Or.inr (Or.inr (Or.inr (Or.inl rfl))))
  · exact Or.inr (Or.inr (Or.inr (Or.inr (Or.inr rfl))))
  rw [pyFloat] at h
  rcases @mem_splitOnP_cover (fun x => x == 'e' || x == 'E') _ _ hcu with he | ⟨part, hpm, hcp⟩
  · simp only [Bool.or_eq_true, beq_iff_eq] at he
    rcases he with rfl | rfl
    · exact Or.inr (Or.inr (Or.inl rfl))
    · exact Or.inr (Or.inr (Or.inr (Or.inl rfl)))
  · split at h
    next m heq =>
      rw [heq] at hpm
      cases hv : pyFloatMant m with
      | none => rw [hv] at h; cases h
      | some mv =>
        rcases List.mem_cons.mp hpm with rfl | hpm2
        · rcases pyFloatMant_chars hv c hcp with hd | rfl
          · exact Or.inl hd
          · exact Or.inr (Or.inl rfl)
        · cases hpm2
    next m e heq =>
      rw [heq] at hpm
      split at h
      next => cases h
      next mv hv =>
        cases hev : digitsVal (pyExpSign e).2 with
        | none => rw [hev] at h; cases h
        | some ev =>
          rcases List.mem_cons.mp hpm with rfl | hpm2
          · rcases pyFloatMant_chars hv c hcp with hd | rfl
            · exact Or.inl hd
            · exact Or.inr (Or.inl rfl)
          rcases List.mem_cons.mp hpm2 with rfl | hpm3
          · rcases pyExpSign_snd part with hee | ⟨r, hsr, hee⟩
            · rw [← hee] at hcp
              exact Or.inl (digitsVal_chars hev c hcp)
            · rcases hsr with hpl | hmi
              · rw [hpl] at hcp
                rcases List.mem_cons.mp hcp with rfl | hc2
                · exact Or.inr (Or.inr (Or.inr (Or.inr (Or.inl rfl))))
                · rw [← hee] at hc2
                  exact Or.inl (digitsVal_chars hev c hc2)
              · rw [hmi] at hcp
                rcases List.mem_cons.mp hcp with rfl | hc2
                · exact Or.inr (Or.inr (Or.inr (Or.inr (Or.inr rfl))))
                · rw [← hee] at hc2
                  exact Or.inl (digitsVal_chars hev c hc2)
          · cases hpm3
    next => cases h

theorem pyFloat_none_of_char {s : Str} {c : Char} (hc : c ∈ pyStrip s)
    (h1 : c.isDigit = false)
    (h2 : c ∉ (['.', 'e', 'E', '+', '-'] : List Char)) : pyFloat s = none := by
  cases hpf : pyFloat s with
  | none => rfl
  | some q =>
    rcases pyFloat_chars hpf c hc with hd | rfl | rfl | rfl | rfl | rfl
    · rw [h1] at hd; cases hd
    all_goals simp at h2

/-! ## The value class for which the round trip holds -/

/-- Characters allowed in group and parameter names for the round-trip
theorem. -/
def identChar (c : Char) : Bool := c.isAlphanum || c == '_' || c == '-'

/-- Characters allowed in string values inside lists (no whitespace). -/
def safeTokChar (c : Char) : Bool := c.isAlphanum || c == '_' || c == '-'

/-- Characters allowed in scalar string values. -/
def safeStrChar (c : Char) : Bool := c.isAlphanum || c == '_' || c == '-' || c == ' '

/-- Values allowed as list elements for the round-trip theorem. -/
def goodTok : Value → Bool
  | .int _ => true
  | .bool _ => true
  | .str s => s.all safeTokChar
  | _ => false

/-- Values for which the round trip holds: integers, booleans, strings over
a safe alphabet, and lists of at least two such scalars. -/
def goodVal : Value → Bool
  | .int _ => true
  | .bool _ => true
  | .str s => s.all safeStrChar
  | .list l => (2 ≤ l.length) && l.all goodTok
  | .float _ => false

/-- Keys of the form `group.name` over the ident alphabet. -/
def goodKey (k : Str) : Bool :=
  match splitOnChar '.' k with
  | [g, n] => (g ≠ []) && (n ≠ []) && g.all identChar && n.all identChar
  | _ => false

/-- An ordered mapping with distinct well-formed keys and good values. -/
def GoodMapping (d : List (Str × Value)) : Prop :=
  (d.map (fun kv => kv.1)).Nodup ∧ ∀ kv ∈ d, goodKey kv.1 = true ∧ goodVal kv.2 = true

instance : DecidablePred GoodMapping := fun d => by
  unfold GoodMapping
  infer_instance

/-! ## Scalar round trips through the value grammar -/

theorem parse_value_int {s : Str} {n : ℤ} (h : pyInt s = some n) :
    _parse_value s = .ok (.int n) := by
  rw [_parse_value, h]

theorem parse_value_float {s : Str} {q : ℚ} (h1 : pyInt s = none)
    (h2 : pyFloat s = some q) : _parse_value s = .ok (.float q) := by
  rw [_parse_value, h1, h2]

theorem parse_value_reprInt (n : ℤ) : _parse_value (pyReprInt n) = .ok (.int n) :=
  parse_value_int (pyInt_pyReprInt n)

theorem parse_value_true : _parse_value (".true.").data = .ok (.bool true) := by
  rw [_parse_value_exec]
  decide

theorem parse_value_false : _parse_value (".false.").data = .ok (.bool false) := by
  rw [_parse_value_exec]
  decide

theorem parse_value_quoted {s : Str} (hq : '\'' ∉ s) :
    _parse_value ('\'' :: s ++ ['\'']) = .ok (.str s) := by
  have hstrip : pyStrip ('\'' :: s ++ ['\'']) = '\'' :: s ++ ['\''] := by
    refine pyStrip_eq_self ?_ ?_
    · intro hd hh
      simp at hh
      subst hh
      rfl
    · intro lt hl
      rw [show ('\'' :: s ++ ['\'']) = ('\'' :: s) ++ ['\''] by simp,
        List.getLast?_concat] at hl
      simp at hl
      subst hl
      rfl
  have hqh : '\'' ∈ pyStrip ('\'' :: s ++ ['\'']) := by rw [hstrip]; simp
  have hpi : pyInt ('\'' :: s ++ ['\'']) = none :=
    pyInt_none_of_char hqh (by decide) (by decide) (by decide)
  have hpf : pyFloat ('\'' :: s ++ ['\'']) = none :=
    pyFloat_none_of_char hqh (by decide) (by decide)
  have hlow : (pyLower ('\'' :: s ++ ['\''])).head? = some '\'' := by
    simp [pyLower]
  have hbt : pyLower ('\'' :: s ++ ['\'']) ∉ [".true.".data, "t".data, "true".data] := by
    intro hm
    simp only [List.mem_cons, List.not_mem_nil, or_false] at hm
    rcases hm with he | he | he <;>
      (have h2 := congrArg List.head? he; rw [hlow] at h2; simp at h2)
  have hbf : pyLower ('\'' :: s ++ ['\'']) ∉ [".false.".data, "f".data, "false".data] := by
    intro hm
    simp only [List.mem_cons, List.not_mem_nil, or_false] at hm
    rcases hm with he | he | he <;>
      (have h2 := congrArg List.head? he; rw [hlow] at h2; simp at h2)
  have hquote : (headIs '\'' ('\'' :: s ++ ['\'']) ∧ lastIs '\'' ('\'' :: s ++ ['\''])
      ∧ ('\'' :: s ++ ['\'']).count '\'' = 2)
      ∨ (headIs '"' ('\'' :: s ++ ['\'']) ∧ lastIs '"' ('\'' :: s ++ ['\''])
      ∧ ('\'' :: s ++ ['\'']).count '"' = 2) := by
    left
    refine ⟨by simp [headIs], ?_, ?_⟩
    · rw [lastIs, show ('\'' :: s ++ ['\'']) = ('\'' :: s) ++ ['\''] by simp,
        List.reverse_concat]
      simp [headIs]
    · simp [List.count_append, List.count_cons, List.count_eq_zero.mpr hq]
  rw [_parse_value, hpi, hpf, if_neg hbt, if_neg hbf, if_pos hquote]
  rw [show ('\'' :: s ++ ['\'']).drop 1 = s ++ ['\''] from rfl, List.dropLast_concat]

/-! ## Token and line character classes -/

/-- Characters that may appear in a formatted list token. -/
def tokCharOK (c : Char) : Bool :=
  !(pyIsSpace c) && !(c == ',') && !(c == '*') && !(c == '&') && !(c == '!')
    && !(c == '=') && !(c == '"') && !(c == '/')

/-- Characters that may appear in a formatted value text. -/
def lineCharOK (c : Char) : Bool :=
  !(c == '!') && !(c == '=') && !(c == '\n') && !(c == '&') && !(c == '/') && !(c == ',')

theorem not_space_of_alnum {c : Char} (h : c.isAlphanum = true) : pyIsSpace c = false := by
  cases hx : pyIsSpace c with
  | false => rfl
  | true =>
    simp only [pyIsSpace, Bool.or_eq_true, beq_iff_eq] at hx
    rcases hx with ((((h1 | h1) | h1) | h1) | h1) | h1 <;> subst h1 <;> simp at h

theorem alnum_tokCharOK {c : Char} (h : c.isAlphanum = true) : tokCharOK c = true := by
  simp only [tokCharOK, Bool.and_eq_true, Bool.not_eq_true']
  refine ⟨⟨⟨⟨⟨⟨⟨not_space_of_alnum h, ?_⟩, ?_⟩, ?_⟩, ?_⟩, ?_⟩, ?_⟩, ?_⟩ <;>
    (simp only [beq_eq_false_iff_ne]; rintro rfl; simp at h)

theorem safeTokChar_ok {c : Char} (h : safeTokChar c = true) : tokCharOK c = true := by
  simp only [safeTokChar, Bool.or_eq_true, beq_iff_eq] at h
  rcases h with (ha | rfl) | rfl
  · exact alnum_tokCharOK ha
  · decide
  · decide

theorem identChar_ok {c : Char} (h : identChar c = true) : tokCharOK c = true := by
  simp only [identChar, Bool.or_eq_true, beq_iff_eq] at h
  rcases h with (ha | rfl) | rfl
  · exact alnum_tokCharOK ha
  · decide
  · decide

theorem tokCharOK_line {c : Char} (h : tokCharOK c = true) : lineCharOK c = true := by
  simp only [tokCharOK, Bool.and_eq_true, Bool.not_eq_true'] at h
  obtain ⟨⟨⟨⟨⟨⟨⟨hsp, hc⟩, hst⟩, ham⟩, hb⟩, he⟩, hq⟩, hsl⟩ := h
  have hnl : (c == '\n') = false := by
    simp only [beq_eq_false_iff_ne]
    rintro rfl
    simp [pyIsSpace] at hsp
  simp [lineCharOK, hc, hst, ham, hb, he, hq, hsl, hnl]

theorem digit_tokCharOK {c : Char} (h : c.isDigit = true) : tokCharOK c = true :=
  alnum_tokCharOK (by simp [Char.isAlphanum, h])

theorem safeStrChar_line {c : Char} (h : safeStrChar c = true) : lineCharOK c = true := by
  simp only [safeStrChar, Bool.or_eq_true, beq_iff_eq] at h
  rcases h with ((ha | rfl) | rfl) | rfl
  · exact tokCharOK_line (alnum_tokCharOK ha)
  · decide
  · decide
  · decide

/-! ## joinWith facts -/

theorem mem_joinWith {sep : Char} {toks : List Str} {c : Char}
    (hc : c ∈ joinWith sep toks) : c = sep ∨ ∃ t ∈ toks, c ∈ t := by
  induction toks with
  | nil => cases hc
  | cons t ts ih =>
    cases ts with
    | nil =>
      right
      exact ⟨t, by simp, by simpa [joinWith] using hc⟩
    | cons t2 ts2 =>
      rw [joinWith_cons_of_ne sep t (by simp)] at hc
      rcases List.mem_append.mp hc with h1 | h2
      · exact Or.inr ⟨t, by simp, h1⟩
      · rcases List.mem_cons.mp h2 with rfl | h3
        · exact Or.inl rfl
        · rcases ih h3 with hs | ⟨u, hu, hcu⟩
          · exact Or.inl hs
          · exact Or.inr ⟨u, by simp [hu], hcu⟩

theorem joinWith_head {sep : Char} {t : Str} {ts : List Str} :
    (joinWith sep (t :: ts)).head? = if t = [] ∧ ts ≠ [] then some sep else t.head? := by
  cases ts with
  | nil => simp [joinWith]
  | cons t2 ts2 =>
    rw [joinWith_cons_of_ne sep t (by simp)]
    cases t with
    | nil => simp
    | cons x xs => simp

theorem getLast?_append_right {a b : Str} (h : b ≠ []) :
    (a ++ b).getLast? = b.getLast? := by
  induction a with
  | nil => rfl
  | cons x xs ih =>
    rw [List.cons_append]
    rcases he : xs ++ b with _ | ⟨z, zs⟩
    · exact absurd (List.append_eq_nil.mp he).2 h
    · rw [List.getLast?_cons_cons, ← he, ih]

theorem joinWith_getLast {sep : Char} {toks : List Str} {u : Str}
    (hu : toks.getLast? = some u) (hune : u ≠ []) :
    (joinWith sep toks).getLast? = u.getLast? := by
  induction toks with
  | nil => cases hu
  | cons t ts ih =>
    cases ts with
    | nil =>
      simp at hu
      subst hu
      simp [joinWith]
    | cons t2 ts2 =>
      rw [List.getLast?_cons_cons] at hu
      rw [joinWith_cons_of_ne sep t (by simp), getLast?_append_right (by simp)]
      have hJ := ih hu
      rcases hJ2 : joinWith sep (t2 :: ts2) with _ | ⟨j, J2⟩
      · rw [hJ2] at hJ
        rw [List.getLast?_eq_getLast_of_ne_nil hune] at hJ
        cases hJ
      · rw [List.getLast?_cons_cons]
        rw [hJ2] at hJ
        exact hJ

theorem joinWith_count {sep : Char} {c : Char} (hc : c ≠ sep) (toks : List Str) :
    (joinWith sep toks).count c = (toks.map (fun t => t.count c)).sum := by
  induction toks with
  | nil => simp [joinWith]
  | cons t ts ih =>
    cases ts with
    | nil => simp [joinWith]
    | cons t2 ts2 =>
      rw [joinWith_cons_of_ne sep t (by simp), List.count_append, List.count_cons, ih]
      simp [hc, Ne.symm hc]

/-! ## Formatted token facts -/

theorem mem_of_head?_eq {α : Type} {l : List α} {c : α} (h : l.head? = some c) : c ∈ l := by
  cases l with
  | nil => cases h
  | cons x xs =>
    simp at h
    simp [h]

theorem headIs_head? {c : Char} {l : Str} (h : headIs c l = true) : l.head? = some c := by
  cases l with
  | nil => cases h
  | cons x xs =>
    simp [headIs] at h
    simp [h]

theorem lastIs_getLast? {c : Char} {l : Str} (h : lastIs c l = true) :
    l.getLast? = some c := by
  rw [lastIs] at h
  have := headIs_head? h
  rwa [List.head?_reverse] at this

theorem sum_ge_mem {L : List Str} {x : Str} (hx : x ∈ L) (f : Str → ℕ) :
    f x ≤ (L.map f).sum := by
  induction L with
  | nil => cases hx
  | cons a as ih =>
    rcases List.mem_cons.mp hx with rfl | h2
    · simp
    · simp only [List.map_cons, List.sum_cons]
      exact le_add_of_nonneg_of_le (Nat.zero_le _) (ih h2)

theorem pyReprInt_chars (n : ℤ) : ∀ c ∈ pyReprInt n, c.isDigit = true ∨ c = '-' := by
  intro c hc
  rw [pyReprInt] at hc
  split at hc
  next =>
    rcases List.mem_cons.mp hc with rfl | h2
    · exact Or.inr rfl
    · exact Or.inl ((List.all_eq_true.mp (natDigits_spec n.natAbs).2.1) c h2)
  next => exact Or.inl ((List.all_eq_true.mp (natDigits_spec n.toNat).2.1) c hc)

theorem pyReprInt_ne_nil (n : ℤ) : pyReprInt n ≠ [] := by
  rw [pyReprInt]
  split
  · simp
  · exact (natDigits_spec n.toNat).1

theorem goodTok_facts {v : Value} (hv : goodTok v = true) :
    _format_value v ≠ [] ∧
    (∀ c ∈ _format_value v, tokCharOK c = true) ∧
    ((_format_value v).count '\'' = 0 ∨
      ((_format_value v).count '\'' = 2 ∧ (_format_value v).head? = some '\''
        ∧ (_format_value v).getLast? = some '\'')) ∧
    _parse_value (_format_value v) = .ok v := by
  cases v with
  | int n =>
    have hchars : ∀ c ∈ _format_value (Value.int n), tokCharOK c = true := by
      intro c hc
      rcases pyReprInt_chars n c hc with hd | rfl
      · exact digit_tokCharOK hd
      · decide
    refine ⟨pyReprInt_ne_nil n, hchars, Or.inl ?_, parse_value_reprInt n⟩
    rw [List.count_eq_zero]
    intro hm
    rcases pyReprInt_chars n _ hm with hd | he
    · simp at hd
    · cases he
  | bool b =>
    cases b
    · exact ⟨by decide, by decide, Or.inl (by decide), parse_value_false⟩
    · exact ⟨by decide, by decide, Or.inl (by decide), parse_value_true⟩
  | str s =>
    have hsafe : s.all safeTokChar = true := hv
    have hq : '\'' ∉ s := by
      intro hm
      have := List.all_eq_true.mp hsafe _ hm
      simp [safeTokChar] at this
    have hfmt : _format_value (Value.str s) = '\'' :: s ++ ['\''] := by
      show pyReprStr s = _
      rw [pyReprStr, if_pos]
      simp only [strHas_iff]
      simp [hq]
    rw [hfmt]
    refine ⟨by simp, ?_, Or.inr ⟨?_, by simp, ?_⟩, ?_⟩
    · intro c hc
      rcases List.mem_cons.mp hc with rfl | hc2
      · decide
      · rcases List.mem_append.mp hc2 with hcs | hce
        · exact safeTokChar_ok (List.all_eq_true.mp hsafe _ hcs)
        · simp at hce
          subst hce
          decide
    · simp [List.count_append, List.count_cons, List.count_eq_zero.mpr hq]
    · rw [show ('\'' :: s ++ ['\'']) = ('\'' :: s) ++ ['\''] by simp, List.getLast?_concat]
    · exact parse_value_quoted hq
  | float q => simp [goodTok] at hv
  | list l => simp [goodTok] at hv

theorem parse_array_tokens {l : List Value} (h : ∀ v ∈ l, goodTok v = true) :
    _parse_array (l.map _format_value) = .ok l := by
  induction l with
  | nil => rw [_parse_array.eq_def]; rfl
  | cons v rest ih =>
    obtain ⟨hne, hchars, -, hparse⟩ := goodTok_facts (h v (by simp))
    have hstar : ¬ (strHas '*' (_format_value v) = true) := by
      rw [strHas_iff]
      intro hm
      have := hchars _ hm
      simp [tokCharOK] at this
    rw [_parse_array.eq_def]
    simp only [List.map_cons]
    rw [dif_neg hstar, hparse, ih (fun w hw => h w (by simp [hw]))]

theorem splitOnP_joinWith {p : Char → Bool} {sep : Char} {ls : List Str}
    (h : ∀ l ∈ ls, ∀ x ∈ l, p x = false) (hsep : p sep = true) (hne : ls ≠ []) :
    splitOnP p (joinWith sep ls) = ls := by
  induction ls with
  | nil => exact absurd rfl hne
  | cons l ls2 ih =>
    cases ls2 with
    | nil =>
      rw [joinWith_singleton, splitOnP_eq_single (h l (by simp))]
    | cons l2 ls3 =>
      rw [joinWith_cons_of_ne sep l (by simp)]
      rw [splitOnP_append (h l (by simp)) hsep]
      rw [ih (fun q hq => h q (by simp [hq])) (by simp)]

theorem pySplitWs_joinWith {toks : List Str} (hne : ∀ t ∈ toks, t ≠ [])
    (hws : ∀ t ∈ toks, ∀ c ∈ t, pyIsSpace c = false) (h : toks ≠ []) :
    pySplitWs (joinWith ' ' toks) = toks := by
  rw [pySplitWs, splitOnP_joinWith hws (by decide) h]
  rw [List.filter_eq_self]
  intro t ht
  simp [hne t ht]

/-! ## The value-level round trip -/

theorem tokCharOK_parts {c : Char} (h : tokCharOK c = true) :
    pyIsSpace c = false ∧ c ≠ ',' ∧ c ≠ '*' ∧ c ≠ '&' ∧ c ≠ '!' ∧ c ≠ '='
      ∧ c ≠ '"' ∧ c ≠ '/' := by
  simp only [tokCharOK, Bool.and_eq_true, Bool.not_eq_true', beq_eq_false_iff_ne] at h
  obtain ⟨⟨⟨⟨⟨⟨⟨h1, h2⟩, h3⟩, h4⟩, h5⟩, h6⟩, h7⟩, h8⟩ := h
  exact ⟨h1, h2, h3, h4, h5, h6, h7, h8⟩

theorem valueText_facts {v : Value} (hv : goodVal v = true) :
    valueText v ≠ [] ∧
    (∀ c ∈ valueText v, lineCharOK c = true) ∧
    (∀ hd, (valueText v).head? = some hd → pyIsSpace hd = false) ∧
    (∀ lt, (valueText v).getLast? = some lt → pyIsSpace lt = false ∧ lt ≠ ',') ∧
    _parse_value (valueText v) = .ok v := by
  cases v with
  | int n =>
    have hchars := (goodTok_facts (v := .int n) rfl).2.1
    refine ⟨pyReprInt_ne_nil n, ?_, ?_, ?_, parse_value_reprInt n⟩
    · intro c hc
      exact tokCharOK_line (hchars c hc)
    · intro hd hh
      exact (tokCharOK_parts (hchars hd (mem_of_head?_eq hh))).1
    · intro lt hl
      obtain ⟨ha, hb, -⟩ := tokCharOK_parts (hchars lt (mem_of_getLast?_eq hl))
      exact ⟨ha, hb⟩
  | bool b =>
    cases b
    · exact ⟨by decide, by decide, by decide, by decide, parse_value_false⟩
    · exact ⟨by decide, by decide, by decide, by decide, parse_value_true⟩
  | str s =>
    have hsafe : s.all safeStrChar = true := hv
    have hq : '\'' ∉ s := by
      intro hm
      have := List.all_eq_true.mp hsafe _ hm
      simp [safeStrChar] at this
    have hfmt : valueText (Value.str s) = '\'' :: s ++ ['\''] := by
      show pyReprStr s = _
      rw [pyReprStr, if_pos]
      simp only [strHas_iff]
      simp [hq]
    rw [hfmt]
    refine ⟨by simp, ?_, ?_, ?_, parse_value_quoted hq⟩
    · intro c hc
      rcases List.mem_cons.mp hc with rfl | hc2
      · decide
      · rcases List.mem_append.mp hc2 with hcs | hce
        · exact safeStrChar_line (List.all_eq_true.mp hsafe _ hcs)
        · simp at hce
          subst hce
          decide
    · intro hd hh
      simp at hh
      subst hh
      rfl
    · intro lt hl
      rw [show ('\'' :: s ++ ['\'']) = ('\'' :: s) ++ ['\''] by simp,
        List.getLast?_concat] at hl
      simp at hl
      subst hl
      exact ⟨rfl, by decide⟩
  | float q => simp [goodVal] at hv
  | list l =>
    simp only [goodVal, Bool.and_eq_true, decide_eq_true_eq] at hv
    obtain ⟨hlen, htokall⟩ := hv
    have htok : ∀ w ∈ l, goodTok w = true := List.all_eq_true.mp htokall
    rcases l with _ | ⟨v1, _ | ⟨v2, lrest⟩⟩
    · simp at hlen
    · simp at hlen
    -- at least two elements
    have hvt : valueText (Value.list (v1 :: v2 :: lrest)) =
        joinWith ' ' ((v1 :: v2 :: lrest).map _format_value) := rfl
    set toks := (v1 :: v2 :: lrest).map _format_value with htoks
    have htoksne : toks ≠ [] := by simp [htoks]
    have htokmem : ∀ t ∈ toks, ∃ w ∈ v1 :: v2 :: lrest, _format_value w = t := by
      intro t ht
      rw [htoks] at ht
      obtain ⟨w, hw, hwt⟩ := List.mem_map.mp ht
      exact ⟨w, hw, hwt⟩
    have htfacts : ∀ t ∈ toks, t ≠ [] ∧ (∀ c ∈ t, tokCharOK c = true) ∧
        (t.count '\'' = 0 ∨ (t.count '\'' = 2 ∧ t.head? = some '\''
          ∧ t.getLast? = some '\'')) := by
      intro t ht
      obtain ⟨w, hw, hwt⟩ := htokmem t ht
      obtain ⟨h1, h2, h3, -⟩ := goodTok_facts (htok w hw)
      rw [hwt] at h1 h2 h3
      exact ⟨h1, h2, h3⟩
    obtain ⟨ht1ne, ht1chars, ht1cnt⟩ := htfacts (_format_value v1) (by simp [htoks])
    -- head of the joined text
    have hhead : (joinWith ' ' toks).head? = (_format_value v1).head? := by
      rw [htoks, List.map_cons, joinWith_head, if_neg]
      rintro ⟨he, -⟩
      exact ht1ne he
    -- last token
    obtain ⟨u, hu⟩ : ∃ u, toks.getLast? = some u := by
      rcases toks with _ | ⟨a, as⟩
      · exact absurd rfl htoksne
      · exact ⟨_, List.getLast?_eq_getLast_of_ne_nil (by simp)⟩
    have humem : u ∈ toks := mem_of_getLast?_eq hu
    obtain ⟨hune, huchars, hucnt⟩ := htfacts u humem
    have hlast : (joinWith ' ' toks).getLast? = u.getLast? := joinWith_getLast hu hune
    have hvtne : joinWith ' ' toks ≠ [] := by
      intro he
      rcases hh : (_format_value v1) with _ | ⟨x, xs⟩
      · exact ht1ne hh
      · rw [he] at hhead
        rw [hh] at hhead
        cases hhead
    -- characters of the joined text
    have hallchars : ∀ c ∈ joinWith ' ' toks, c = ' ' ∨ tokCharOK c = true := by
      intro c hc
      rcases mem_joinWith hc with rfl | ⟨t, ht, hct⟩
      · exact Or.inl rfl
      · exact Or.inr ((htfacts t ht).2.1 c hct)
    rw [hvt]
    refine ⟨hvtne, ?_, ?_, ?_, ?_⟩
    · intro c hc
      rcases hallchars c hc with rfl | hok
      · decide
      · exact tokCharOK_line hok
    · intro hd hh
      rw [hhead] at hh
      exact (tokCharOK_parts (ht1chars hd (mem_of_head?_eq hh))).1
    · intro lt hl
      rw [hlast] at hl
      obtain ⟨ha, hb, -⟩ := tokCharOK_parts (huchars lt (mem_of_getLast?_eq hl))
      exact ⟨ha, hb⟩
    -- the parse itself
    have hstrip : pyStrip (joinWith ' ' toks) = joinWith ' ' toks := by
      refine pyStrip_eq_self ?_ ?_
      · intro hd hh
        rw [hhead] at hh
        exact (tokCharOK_parts (ht1chars hd (mem_of_head?_eq hh))).1
      · intro lt hl
        rw [hlast] at hl
        exact (tokCharOK_parts (huchars lt (mem_of_getLast?_eq hl))).1
    have hspmem : ' ' ∈ joinWith ' ' toks := by
      rw [htoks, List.map_cons, joinWith_cons_of_ne ' ' _ (by simp)]
      simp
    have hpi : pyInt (joinWith ' ' toks) = none :=
      pyInt_none_of_char (by rw [hstrip]; exact hspmem) (by decide) (by decide) (by decide)
    have hpf : pyFloat (joinWith ' ' toks) = none :=
      pyFloat_none_of_char (by rw [hstrip]; exact hspmem) (by decide) (by decide)
    have hlowmem : ' ' ∈ pyLower (joinWith ' ' toks) := by
      have := List.mem_map_of_mem Char.toLower hspmem
      exact this
    have hbt : pyLower (joinWith ' ' toks) ∉ [".true.".data, "t".data, "true".data] := by
      intro hm
      simp only [List.mem_cons, List.not_mem_nil, or_false] at hm
      rcases hm with he | he | he <;> (rw [he] at hlowmem; simp at hlowmem)
    have hbf : pyLower (joinWith ' ' toks) ∉ [".false.".data, "f".data, "false".data] := by
      intro hm
      simp only [List.mem_cons, List.not_mem_nil, or_false] at hm
      rcases hm with he | he | he <;> (rw [he] at hlowmem; simp at hlowmem)
    have hquote : ¬ ((headIs '\'' (joinWith ' ' toks) ∧ lastIs '\'' (joinWith ' ' toks)
        ∧ (joinWith ' ' toks).count '\'' = 2)
        ∨ (headIs '"' (joinWith ' ' toks) ∧ lastIs '"' (joinWith ' ' toks)
        ∧ (joinWith ' ' toks).count '"' = 2)) := by
      rintro (⟨hh, hl, hcnt⟩ | ⟨hh, hl, hcnt⟩)
      · have hh2 := headIs_head? hh
        rw [hhead] at hh2
        have hc1 : (_format_value v1).count '\'' = 2 := by
          rcases ht1cnt with h0 | ⟨h2, -, -⟩
          · exact absurd (mem_of_head?_eq hh2) (List.count_eq_zero.mp h0)
          · exact h2
        have hl2 := lastIs_getLast? hl
        rw [hlast] at hl2
        have hcu : u.count '\'' = 2 := by
          rcases hucnt with h0 | ⟨h2, -, -⟩
          · exact absurd (mem_of_getLast?_eq hl2) (List.count_eq_zero.mp h0)
          · exact h2
        -- u is in the tail, so the total count is at least 4
        have humem2 : u ∈ (_format_value v2) :: lrest.map _format_value := by
          rw [htoks, List.map_cons, List.map_cons, List.getLast?_cons_cons] at hu
          exact mem_of_getLast?_eq hu
        have hsum : 4 ≤ (joinWith ' ' toks).count '\'' := by
          rw [joinWith_count (by decide) toks, htoks, List.map_cons, List.map_cons,
            List.map_cons, List.map_cons, List.sum_cons]
          have := sum_ge_mem humem2 (fun t => t.count '\'')
          simp only [List.map_cons] at this ⊢
          omega
        omega
      · have : (joinWith ' ' toks).count '"' = 0 := by
          rw [List.count_eq_zero]
          intro hm
          rcases hallchars _ hm with he | hok
          · cases he
          · simp [tokCharOK] at hok
        omega
    have hslash : ¬ (headIs '/' (joinWith ' ' toks) ∧ lastIs '/' (joinWith ' ' toks)) := by
      rintro ⟨hh, -⟩
      have hh2 := headIs_head? hh
      rw [hhead] at hh2
      have := ht1chars '/' (mem_of_head?_eq hh2)
      simp [tokCharOK] at this
    have hcomma : ¬ (strHas ',' (joinWith ' ' toks) = true) := by
      rw [strHas_iff]
      intro hm
      rcases hallchars _ hm with he | hok
      · cases he
      · simp [tokCharOK] at hok
    have hstar : ¬ (strHas '*' (joinWith ' ' toks) = true) := by
      rw [strHas_iff]
      intro hm
      rcases hallchars _ hm with he | hok
      · cases he
      · simp [tokCharOK] at hok
    have hws : pySplitWs (joinWith ' ' toks) = toks := by
      refine pySplitWs_joinWith ?_ ?_ htoksne
      · intro t ht
        exact (htfacts t ht).1
      · intro t ht c hc
        exact (tokCharOK_parts ((htfacts t ht).2.1 c hc)).1
    have hwslen : 1 < (pySplitWs (joinWith ' ' toks)).length := by
      rw [hws, htoks]
      simp
    rw [_parse_value, hpi, hpf, if_neg hbt, if_neg hbf, if_neg hquote,
      dif_neg hslash, dif_neg hcomma, dif_neg hstar, dif_pos hwslen, hws, htoks,
      parse_array_tokens htok]
    rfl

/-! ## The line-level round trip -/

theorem lineCharOK_parts {c : Char} (h : lineCharOK c = true) :
    c ≠ '!' ∧ c ≠ '=' ∧ c ≠ '\n' ∧ c ≠ '&' ∧ c ≠ '/' ∧ c ≠ ',' := by
  simp only [lineCharOK, Bool.and_eq_true, Bool.not_eq_true', beq_eq_false_iff_ne] at h
  obtain ⟨⟨⟨⟨⟨h1, h2⟩, h3⟩, h4⟩, h5⟩, h6⟩ := h
  exact ⟨h1, h2, h3, h4, h5, h6⟩

theorem headIs_of_head? {c x : Char} {l : Str} (h : l.head? = some x) :
    headIs c l = (x == c) := by
  cases l with
  | nil => cases h
  | cons a as =>
    simp at h
    subst h
    rfl

/-- The stripped form of a formatted parameter line. -/
def lineMid (p : ParamNml) : Str :=
  p.name ++ List.replicate (15 - p.name.length) ' ' ++ ' ' :: '=' :: ' ' :: valueText p.value

theorem lineMid_mem {p : ParamNml} {c : Char} (hc : c ∈ lineMid p) :
    c ∈ p.name ∨ c = ' ' ∨ c = '=' ∨ c ∈ valueText p.value := by
  rw [lineMid] at hc
  rcases List.mem_append.mp hc with h1 | h2
  · rcases List.mem_append.mp h1 with h3 | h4
    · exact Or.inl h3
    · exact Or.inr (Or.inl (List.eq_of_mem_replicate h4))
  · rcases List.mem_cons.mp h2 with rfl | h3
    · exact Or.inr (Or.inl rfl)
    · rcases List.mem_cons.mp h3 with rfl | h4
      · exact Or.inr (Or.inr (Or.inl rfl))
      · rcases List.mem_cons.mp h4 with rfl | h5
        · exact Or.inr (Or.inl rfl)
        · exact Or.inr (Or.inr (Or.inr h5))

theorem paramLine_eq_pad {p : ParamNml} (hhelp : p.help = none) :
    paramLine p = List.replicate 1 ' ' ++ lineMid p
      ++ List.replicate (30 - (' ' :: lineMid p).length) ' ' := by
  rw [paramLine, hhelp]
  show padTo 30 (' ' :: (padTo 15 p.name ++ ' ' :: '=' :: ' ' :: valueText p.value)) = _
  rw [padTo, lineMid, padTo]
  simp

theorem lineMid_facts {p : ParamNml} (hne : p.name ≠ [])
    (hid : p.name.all identChar = true) (hval : goodVal p.value = true) :
    lineMid p ≠ [] ∧
    (∀ c, c ∈ lineMid p → c ≠ '\n' ∧ c ≠ '/' ∧ c ≠ '&' ∧ c ≠ '!') ∧
    headIs '!' (lineMid p) = false ∧
    strHas '=' (lineMid p) = true ∧
    (∀ hd, (lineMid p).head? = some hd → pyIsSpace hd = false) ∧
    (∀ lt, (lineMid p).getLast? = some lt → pyIsSpace lt = false) ∧
    _parse_line (lineMid p) = .ok (p.name, p.value, []) := by
  obtain ⟨hvne, hvchars, hvhead, hvlast, hvparse⟩ := valueText_facts hval
  have hident : ∀ c ∈ p.name, identChar c = true := List.all_eq_true.mp hid
  have hnamehead : ∃ h0, p.name.head? = some h0 := by
    cases hx : p.name with
    | nil => exact absurd hx hne
    | cons a l => exact ⟨a, by simp⟩
  obtain ⟨h0, hh0⟩ := hnamehead
  have hh0id : identChar h0 = true := hident h0 (mem_of_head?_eq hh0)
  have hmidhead : (lineMid p).head? = some h0 := by
    rw [lineMid]
    cases hx : p.name with
    | nil => exact absurd hx hne
    | cons a l =>
      rw [hx] at hh0
      simp at hh0
      simp [hx, hh0]
  have hcharfacts : ∀ c, c ∈ lineMid p → c ≠ '\n' ∧ c ≠ '/' ∧ c ≠ '&' ∧ c ≠ '!' := by
    intro c hc
    rcases lineMid_mem hc with hn | rfl | rfl | hv2
    · obtain ⟨-, -, -, h4, h5, -, -, h8⟩ := tokCharOK_parts (identChar_ok (hident c hn))
      refine ⟨?_, h8, h4, h5⟩
      have := (tokCharOK_parts (identChar_ok (hident c hn))).1
      rintro rfl
      simp [pyIsSpace] at this
    · exact ⟨by decide, by decide, by decide, by decide⟩
    · exact ⟨by decide, by decide, by decide, by decide⟩
    · obtain ⟨hb, -, hn, ha, hs, -⟩ := lineCharOK_parts (hvchars c hv2)
      exact ⟨hn, hs, ha, hb⟩
  have hexcl : '!' ∉ lineMid p := fun hm => (hcharfacts _ hm).2.2.2 rfl
  have hmne : lineMid p ≠ [] := by
    intro he
    rw [he] at hmidhead
    cases hmidhead
  have hmideq : lineMid p = (p.name ++ List.replicate (15 - p.name.length) ' ' ++ [' '])
      ++ '=' :: (' ' :: valueText p.value) := by
    rw [lineMid]
    simp
  have heqmem : strHas '=' (lineMid p) = true := by
    rw [strHas_iff, hmideq]
    simp
  have hlastfact : ∀ lt, (lineMid p).getLast? = some lt → pyIsSpace lt = false ∧ lt ≠ ',' := by
    intro lt hl
    rw [lineMid, getLast?_append_right (by simp),
      List.getLast?_cons_cons, List.getLast?_cons_cons] at hl
    cases hx : valueText p.value with
    | nil => exact absurd hx hvne
    | cons a l =>
      rw [hx, List.getLast?_cons_cons, ← hx] at hl
      exact hvlast lt hl
  have hheadfact : ∀ hd, (lineMid p).head? = some hd → pyIsSpace hd = false := by
    intro hd hh
    rw [hmidhead] at hh
    have h2 : h0 = hd := by simpa using hh
    subst h2
    exact (tokCharOK_parts (identChar_ok hh0id)).1
  have hparse : _parse_line (lineMid p) = .ok (p.name, p.value, []) := by
    have hnobang : strHas '!' (lineMid p) = false := by
      cases hx : strHas '!' (lineMid p) with
      | false => rfl
      | true => exact absurd (strHas_iff.mp hx) hexcl
    have hnocomma : lastIs ',' (lineMid p) = false := by
      cases hx : lastIs ',' (lineMid p) with
      | false => rfl
      | true =>
        have := lastIs_getLast? hx
        exact absurd rfl (hlastfact ',' this).2
    have hsplit : splitOnChar '=' (lineMid p) =
        [p.name ++ List.replicate (15 - p.name.length) ' ' ++ [' '],
          ' ' :: valueText p.value] := by
      rw [hmideq]
      refine splitOnChar_sandwich ?_ ?_
      · intro hm
        rcases List.mem_append.mp hm with h1 | h2
        · rcases List.mem_append.mp h1 with h3 | h4
          · have := (tokCharOK_parts (identChar_ok (hident _ h3))).2.2.2.2.2.1
            exact this rfl
          · have := List.eq_of_mem_replicate h4
            cases this
        · simp at h2
      · intro hm
        rcases List.mem_cons.mp hm with he | h2
        · cases he
        · exact (lineCharOK_parts (hvchars _ h2)).2.1 rfl
    have hkstrip : pyStrip (p.name ++ List.replicate (15 - p.name.length) ' ' ++ [' '])
        = p.name := by
      have : p.name ++ List.replicate (15 - p.name.length) ' ' ++ [' ']
          = List.replicate 0 ' ' ++ p.name ++ List.replicate (15 - p.name.length + 1) ' ' := by
        rw [List.replicate_add]
        simp
      rw [this]
      refine pyStrip_pad ?_ ?_
      · intro hd hh
        rw [hh0] at hh
        have h2 : h0 = hd := by simpa using hh
        subst h2
        exact (tokCharOK_parts (identChar_ok hh0id)).1
      · intro lt hl
        exact (tokCharOK_parts (identChar_ok (hident lt (mem_of_getLast?_eq hl)))).1
    have hvstrip : pyStrip (' ' :: valueText p.value) = valueText p.value := by
      have : ' ' :: valueText p.value
          = List.replicate 1 ' ' ++ valueText p.value ++ List.replicate 0 ' ' := by simp
      rw [this]
      exact pyStrip_pad hvhead (fun lt hl => (hvlast lt hl).1)
    rw [_parse_line]
    simp only [hnobang, Bool.false_eq_true, if_false, hnocomma, hsplit]
    rw [hkstrip, hvstrip, hvparse]
    rfl
  have hbang : headIs '!' (lineMid p) = false := by
    rw [headIs_of_head? hmidhead]
    simp only [beq_eq_false_iff_ne]
    exact fun he => (hcharfacts h0 (mem_of_head?_eq hmidhead)).2.2.2 he
  exact ⟨hmne, hcharfacts, hbang, heqmem, hheadfact, fun lt hl => (hlastfact lt hl).1, hparse⟩

/-! ## Block-structure lemmas for the group regex -/

theorem upToLastSlash_none {b : Str} (h : '/' ∉ b) : upToLastSlash b = none := by
  induction b with
  | nil => rfl
  | cons x xs ih =>
    rw [upToLastSlash, ih (fun hm => h (by simp [hm]))]
    rw [if_neg (fun he => h (by simp [he]))]

theorem upToLastSlash_sandwich {a b : Str} (ha : '/' ∉ a) (hb : '/' ∉ b) :
    upToLastSlash (a ++ '/' :: b) = some a := by
  induction a with
  | nil =>
    rw [List.nil_append, upToLastSlash, upToLastSlash_none hb, if_pos rfl]
  | cons x xs ih =>
    rw [List.cons_append, upToLastSlash, ih (fun hm => ha (by simp [hm]))]

theorem segContent_sandwich {a b : Str} (hne : a ≠ []) (ha : '/' ∉ a) (hb : '/' ∉ b) :
    segContent (a ++ '/' :: b) = some a := by
  rw [segContent, upToLastSlash_sandwich ha hb]
  simp [hne]

theorem splitOnChar_cons_sep (c : Char) (s : Str) :
    splitOnChar c (c :: s) = [] :: splitOnChar c s := by
  show splitOnP (fun x => x == c) ([] ++ c :: s) = _
  rw [splitOnP_append (by simp) (by simp)]
  rfl

theorem splitOnChar_append_cons {c : Char} {l r : Str} {Z : List Str}
    (hl : c ∉ l) (hr : splitOnChar c r = [] :: Z) :
    splitOnChar c (l ++ r) = l :: Z := by
  induction l with
  | nil =>
    rw [List.nil_append, hr]
  | cons x xs ih =>
    have ihs := ih (fun hm => hl (by simp [hm]))
    rw [splitOnChar] at ihs ⊢
    rw [List.cons_append, splitOnP, ihs]
    have hx : (x == c) = false := by
      simp only [beq_eq_false_iff_ne]
      rintro rfl
      exact hl (by simp)
    simp [hx]

/-- The lines of one rendered group block: header, body lines, terminator. -/
def renderBlockLines (b : Str × List Str) : List Str :=
  ('&' :: b.1) :: b.2 ++ [['/']]

/-- What the group regex extracts back from one rendered block: everything
between the `&` and the final `/`, newlines included. -/
def blockContent (b : Str × List Str) : Str :=
  b.1 ++ '\n' :: (joinWith '\n' b.2 ++ ['\n'])

/-- A rendered sequence of blocks, newline-joined (no trailing newline). -/
def renderBody (bs : List (Str × List Str)) : Str :=
  joinWith '\n' (bs.map renderBlockLines).flatten

/-- Character sanity of one block: nonempty group name, no `&`, `/` or
newline anywhere, nonempty body. -/
def goodBlockChars (b : Str × List Str) : Prop :=
  b.1 ≠ [] ∧ '&' ∉ b.1 ∧ '/' ∉ b.1 ∧ '\n' ∉ b.1 ∧ b.2 ≠ [] ∧
    ∀ m ∈ b.2, '&' ∉ m ∧ '/' ∉ m ∧ '\n' ∉ m

theorem blockContent_mem {b : Str × List Str} {c : Char} (hc : c ∈ blockContent b) :
    c ∈ b.1 ∨ c = '\n' ∨ ∃ m ∈ b.2, c ∈ m := by
  rw [blockContent] at hc
  rcases List.mem_append.mp hc with h1 | h2
  · exact Or.inl h1
  · rcases List.mem_cons.mp h2 with rfl | h3
    · exact Or.inr (Or.inl rfl)
    · rcases List.mem_append.mp h3 with h4 | h5
      · rcases mem_joinWith h4 with rfl | ⟨m, hm, hcm⟩
        · exact Or.inr (Or.inl rfl)
        · exact Or.inr (Or.inr ⟨m, hm, hcm⟩)
      · simp at h5
        exact Or.inr (Or.inl h5)

theorem blockContent_no_amp {b : Str × List Str} (h : goodBlockChars b) :
    '&' ∉ blockContent b := by
  intro hc
  rcases blockContent_mem hc with h1 | h2 | ⟨m, hm, hcm⟩
  · exact h.2.1 h1
  · cases h2
  · exact (h.2.2.2.2.2 m hm).1 hcm

theorem blockContent_no_slash {b : Str × List Str} (h : goodBlockChars b) :
    '/' ∉ blockContent b := by
  intro hc
  rcases blockContent_mem hc with h1 | h2 | ⟨m, hm, hcm⟩
  · exact h.2.2.1 h1
  · cases h2
  · exact (h.2.2.2.2.2 m hm).2.1 hcm

theorem joinWith_renderBlockLines {b : Str × List Str} (hm : b.2 ≠ []) :
    joinWith '\n' (renderBlockLines b) = '&' :: (blockContent b ++ ['/']) := by
  rw [renderBlockLines, List.cons_append,
    joinWith_cons_of_ne '\n' _ (by simp),
    joinWith_append '\n' b.2 [['/']] hm (by simp), blockContent]
  simp [joinWith]

theorem renderBlockLines_ne_nil (b : Str × List Str) : renderBlockLines b ≠ [] := by
  rw [renderBlockLines]
  simp

theorem splitAmp_renderBody : ∀ (bs : List (Str × List Str)), bs ≠ [] →
    (∀ b ∈ bs, goodBlockChars b) →
    ∃ Z : List Str, splitOnChar '&' (renderBody bs) = [] :: Z ∧
      Z.filterMap segContent = bs.map blockContent := by
  intro bs
  induction bs with
  | nil => intro h; exact absurd rfl h
  | cons b rest ih =>
    intro _ hg
    have hb := hg b (by simp)
    have hmne : b.2 ≠ [] := hb.2.2.2.2.1
    have hampA : '&' ∉ blockContent b := blockContent_no_amp hb
    have hslA : '/' ∉ blockContent b := blockContent_no_slash hb
    cases rest with
    | nil =>
      refine ⟨[blockContent b ++ ['/']], ?_, ?_⟩
      · rw [renderBody, List.map_cons, List.map_nil, List.flatten_cons, List.flatten_nil,
          List.append_nil, joinWith_renderBlockLines hmne, splitOnChar_cons_sep]
        rw [splitOnChar, splitOnP_eq_single]
        intro x hx
        simp only [beq_eq_false_iff_ne]
        rintro rfl
        rcases List.mem_append.mp hx with h1 | h2
        · exact hampA h1
        · simp at h2
      · rw [List.filterMap_cons]
        have : segContent (blockContent b ++ ['/']) = some (blockContent b) := by
          have h2 : blockContent b ++ ['/'] = blockContent b ++ '/' :: [] := rfl
          rw [h2, segContent_sandwich ?_ hslA (by simp)]
          rw [blockContent]
          simp
        rw [this]
        rfl
    | cons r rest2 =>
      obtain ⟨Z, hZ1, hZ2⟩ := ih (by simp) (fun x hx => hg x (by simp [hx]))
      have hbody : renderBody (b :: r :: rest2)
          = '&' :: ((blockContent b ++ '/' :: ['\n']) ++ renderBody (r :: rest2)) := by
        rw [renderBody, List.map_cons, List.flatten_cons,
          joinWith_append '\n' _ _ (renderBlockLines_ne_nil b) ?_,
          joinWith_renderBlockLines hmne, ← renderBody]
        · simp
        · rw [List.map_cons, List.flatten_cons]
          have := renderBlockLines_ne_nil r
          cases hx : renderBlockLines r with
          | nil => exact absurd hx this
          | cons y ys => simp
      refine ⟨(blockContent b ++ '/' :: ['\n']) :: Z, ?_, ?_⟩
      · rw [hbody, splitOnChar_cons_sep, splitOnChar_append_cons ?_ hZ1]
        intro hc
        rcases List.mem_append.mp hc with h1 | h2
        · exact hampA h1
        · simp at h2
      · rw [List.filterMap_cons, segContent_sandwich ?_ hslA (by simp), hZ2]
        · rfl
        · rw [blockContent]
          simp

theorem findGroupBlocks_renderBody {bs : List (Str × List Str)}
    (hg : ∀ b ∈ bs, goodBlockChars b) :
    findGroupBlocks (renderBody bs) = bs.map blockContent := by
  cases bs with
  | nil => rfl
  | cons b rest =>
    obtain ⟨Z, hZ1, hZ2⟩ := splitAmp_renderBody (b :: rest) (by simp) hg
    rw [findGroupBlocks, hZ1]
    exact hZ2

/-! ## Block parsing of rendered content -/

theorem filterMap_congr_some {α β : Type} {f : α → Option β} {g : α → β} :
    ∀ {l : List α}, (∀ x ∈ l, f x = some (g x)) → l.filterMap f = l.map g := by
  intro l
  induction l with
  | nil => intro _; rfl
  | cons x xs ih =>
    intro h
    rw [List.filterMap_cons, h x (by simp), List.map_cons,
      ih (fun y hy => h y (by simp [hy]))]

theorem mapM_map_ok {α β γ : Type} {f : β → Except NmlError γ} {m : α → β} {g : α → γ} :
    ∀ {l : List α}, (∀ x ∈ l, f (m x) = .ok (g x)) → (l.map m).mapM f = .ok (l.map g) := by
  intro l
  induction l with
  | nil => intro _; rfl
  | cons x xs ih =>
    intro h
    rw [List.map_cons, List.mapM_cons, h x (by simp)]
    rw [List.map_cons]
    have := ih (fun y hy => h y (by simp [hy]))
    simp only [this]
    rfl

theorem mapM_ok {α γ : Type} {f : α → Except NmlError γ} {g : α → γ} :
    ∀ {l : List α}, (∀ x ∈ l, f x = .ok (g x)) → l.mapM f = .ok (l.map g) := by
  intro l
  induction l with
  | nil => intro _; rfl
  | cons x xs ih =>
    intro h
    rw [List.mapM_cons, h x (by simp)]
    have := ih (fun y hy => h y (by simp [hy]))
    simp only [this]
    rfl

theorem joinContAux_clean : ∀ {ls : List Str} (acc : List Str),
    (∀ l ∈ ls, pyStrip l = l ∧ strHas '=' l = true) →
    joinContAux acc (ls ++ [[]]) = .ok (acc.reverse ++ ls) := by
  intro ls
  induction ls with
  | nil =>
    intro acc _
    rw [List.nil_append, joinContAux.eq_def]
    show (if strHas '=' (pyStrip []) = true then _ else _) = _
    rw [show pyStrip [] = [] from rfl]
    rw [if_neg (by simp [strHas])]
    rw [if_pos rfl, joinContAux]
    simp
  | cons l ls2 ih =>
    intro acc h
    obtain ⟨hs, he⟩ := h l (by simp)
    rw [List.cons_append, joinContAux.eq_def]
    show (if strHas '=' (pyStrip l) = true then _ else _) = _
    rw [hs, if_pos he, ih (l :: acc) (fun y hy => h y (by simp [hy]))]
    simp

theorem parseGroupBlock_render {g : Str} {mids : List Str}
    (hgs : pyStrip g = g) (hgb : strHas '!' g = false) (hnlg : '\n' ∉ g)
    (hnlm : ∀ m ∈ mids, '\n' ∉ m) (hmne : mids ≠ [])
    (hm : ∀ m ∈ mids, pyStrip m = m ∧ strHas '=' m = true) :
    parseGroupBlock (blockContent (g, mids))
      = mids.mapM (fun l => (_parse_line l).map
          (fun nvc => (⟨g, nvc.1, nvc.2.1, some nvc.2.2⟩ : ParamNml))) := by
  have hsplit : splitOnChar '\n' (blockContent (g, mids)) = g :: (mids ++ [[]]) := by
    rw [blockContent]
    show splitOnChar '\n' (g ++ '\n' :: (joinWith '\n' mids ++ ['\n'])) = _
    rw [splitOnChar, splitOnP_append ?_ (by simp)]
    · rw [← splitOnChar, splitOnChar_joinWith_newline hnlm hmne]
    · intro x hx
      simp only [beq_eq_false_iff_ne]
      rintro rfl
      exact hnlg hx
  rw [parseGroupBlock, hsplit]
  show ((match joinContAux [] (mids ++ [[]]) with
    | .error e => .error e
    | .ok body => body.mapM (fun l => (_parse_line l).map
        (fun nvc => (⟨if strHas '!' (pyStrip g) then
            pyStrip (List.takeWhile (fun c => c != '!') (pyStrip g)) else pyStrip g,
          nvc.1, nvc.2.1, some nvc.2.2⟩ : ParamNml)))) :
      Except NmlError (List ParamNml)) = _
  rw [joinContAux_clean [] hm, hgs, hgb]
  simp

/-! ## `groupby` lemmas -/

theorem groupByKey_flatten (l : List ParamNml) :
    ((groupByKey l).map (fun gr => gr.2)).flatten = l := by
  induction l with
  | nil => rfl
  | cons p ps ih =>
    rw [groupByKey]
    cases h : groupByKey ps with
    | nil =>
      rw [h] at ih
      simp at ih
      simp [← ih]
    | cons gr rest =>
      rw [h] at ih
      obtain ⟨g, run⟩ := gr
      by_cases hg : p.group = g
      · simp only [if_pos hg]
        simp only [List.map_cons, List.flatten_cons] at ih ⊢
        simp [ih]
      · simp only [if_neg hg]
        simp only [List.map_cons, List.flatten_cons] at ih ⊢
        simp [ih]

theorem groupByKey_runs (l : List ParamNml) :
    ∀ gr ∈ groupByKey l, gr.2 ≠ [] ∧ ∀ q ∈ gr.2, q.group = gr.1 := by
  induction l with
  | nil => intro gr h; cases h
  | cons p ps ih =>
    intro gr hgr
    cases h : groupByKey ps with
    | nil =>
      have hcons : groupByKey (p :: ps) = [(p.group, [p])] := by
        rw [groupByKey, h]
      rw [hcons] at hgr
      simp at hgr
      subst hgr
      refine ⟨by simp, ?_⟩
      intro q hq
      simp at hq
      subst hq
      rfl
    | cons gr0 rest =>
      obtain ⟨g, run⟩ := gr0
      have hcons : groupByKey (p :: ps)
          = if p.group = g then (g, p :: run) :: rest
            else (p.group, [p]) :: (g, run) :: rest := by
        rw [groupByKey, h]
      rw [hcons] at hgr
      by_cases hg : p.group = g
      · rw [if_pos hg] at hgr
        rcases List.mem_cons.mp hgr with rfl | h2
        · refine ⟨by simp, ?_⟩
          intro q hq
          rcases List.mem_cons.mp hq with rfl | h3
          · exact hg
          · exact (ih (g, run) (by rw [h]; simp)).2 q h3
        · exact ih gr (by rw [h]; simp [h2])
      · rw [if_neg hg] at hgr
        rcases List.mem_cons.mp hgr with rfl | h2
        · refine ⟨by simp, ?_⟩
          intro q hq
          simp at hq
          subst hq
          rfl
        · exact ih gr (by rw [h]; simp [h2])

theorem groupByKey_mem_of_run {l : List ParamNml} {gr : Str × List ParamNml}
    (hgr : gr ∈ groupByKey l) {q : ParamNml} (hq : q ∈ gr.2) : q ∈ l := by
  rw [← groupByKey_flatten l]
  exact List.mem_flatten.mpr ⟨gr.2, List.mem_map.mpr ⟨gr, hgr, rfl⟩, hq⟩

/-! ## `format_nml` on well-grouped parameters -/

theorem format_nml_render {pars : List ParamNml}
    (h : ∀ p ∈ pars, p.group ≠ []) :
    format_nml pars = .ok (renderBody ((groupByKey pars).map
      (fun gr => (gr.1, gr.2.map paramLine))) ++ ['\n']) := by
  have hgr : ∀ gr ∈ groupByKey pars, gr.1 ≠ [] := by
    intro gr hgrm
    obtain ⟨hne, hall⟩ := groupByKey_runs pars gr hgrm
    cases hx : gr.2 with
    | nil => exact absurd hx hne
    | cons q qs =>
      have hq : q ∈ gr.2 := by rw [hx]; simp
      rw [← hall q hq]
      exact h q (groupByKey_mem_of_run hgrm hq)
  have hmap := @mapM_ok (Str × List ParamNml) (List Str)
    (fun gr => if gr.1 = [] then Except.error NmlError.emptyGroupName
               else Except.ok (('&' :: gr.1) :: gr.2.map paramLine ++ [['/']]))
    (fun gr => renderBlockLines (gr.1, gr.2.map paramLine))
    (groupByKey pars)
    (by
      intro gr hgrm
      simp only [if_neg (hgr gr hgrm)]
      rfl)
  rw [format_nml, hmap]
  rw [renderBody, List.map_map]
  rfl

/-! ## The line filter on rendered lines -/

theorem identStr_facts {g : Str} (hne : g ≠ []) (hall : g.all identChar = true) :
    pyStrip g = g ∧ strHas '!' g = false ∧ '\n' ∉ g ∧ '&' ∉ g ∧ '/' ∉ g := by
  have hident : ∀ c ∈ g, identChar c = true := List.all_eq_true.mp hall
  have hnospace : ∀ c ∈ g, pyIsSpace c = false :=
    fun c hc => (tokCharOK_parts (identChar_ok (hident c hc))).1
  refine ⟨?_, ?_, ?_, ?_, ?_⟩
  · exact pyStrip_eq_self
      (fun hd hh => hnospace hd (mem_of_head?_eq hh))
      (fun lt hl => hnospace lt (mem_of_getLast?_eq hl))
  · cases hx : strHas '!' g with
    | false => rfl
    | true =>
      have hm := strHas_iff.mp hx
      exact absurd rfl (tokCharOK_parts (identChar_ok (hident '!' hm))).2.2.2.2.1
  · intro hm
    have := hnospace '\n' hm
    simp [pyIsSpace] at this
  · intro hm
    exact (tokCharOK_parts (identChar_ok (hident '&' hm))).2.2.2.1 rfl
  · intro hm
    exact (tokCharOK_parts (identChar_ok (hident '/' hm))).2.2.2.2.2.2.2 rfl

theorem filterNmlLine_header {g : Str} (hne : g ≠ []) (hall : g.all identChar = true) :
    filterNmlLine false ('&' :: g) = some ('&' :: g) := by
  have hstrip : pyStrip ('&' :: g) = '&' :: g := by
    refine pyStrip_eq_self ?_ ?_
    · intro hd hh
      simp at hh
      rw [← hh]
      rfl
    · intro lt hl
      have hg : ('&' :: g).getLast? = g.getLast? := @getLast?_append_right ['&'] g hne
      rw [hg] at hl
      exact (tokCharOK_parts (identChar_ok
        (List.all_eq_true.mp hall lt (mem_of_getLast?_eq hl)))).1
  rw [filterNmlLine]
  simp only [hstrip]
  rw [if_neg (by simp), if_neg (by rw [headIs]; simp), if_neg (by simp)]

theorem filterNmlLine_slash : filterNmlLine false ['/'] = some ['/'] := by decide

theorem filterNmlLine_empty : filterNmlLine false [] = none := by decide

theorem filterNmlLine_paramLine {p : ParamNml} (hne : p.name ≠ [])
    (hid : p.name.all identChar = true) (hval : goodVal p.value = true)
    (hhelp : p.help = none) :
    filterNmlLine false (paramLine p) = some (lineMid p) := by
  obtain ⟨hmne, -, hbang, -, hhead, hlast, -⟩ := lineMid_facts hne hid hval
  have hstrip : pyStrip (paramLine p) = lineMid p := by
    rw [paramLine_eq_pad hhelp]
    exact pyStrip_pad hhead hlast
  rw [filterNmlLine]
  simp only [hstrip]
  rw [if_neg (by simp [hmne]), if_neg (by simp [hbang]), if_neg (by simp)]

theorem filterMap_map_congr_some {α β γ : Type} {f : β → Option γ} {m : α → β} {g : α → γ} :
    ∀ {l : List α}, (∀ x ∈ l, f (m x) = some (g x)) → (l.map m).filterMap f = l.map g := by
  intro l
  induction l with
  | nil => intro _; rfl
  | cons x xs ih =>
    intro h
    rw [List.map_cons, List.filterMap_cons, h x (by simp), List.map_cons,
      ih (fun y hy => h y (by simp [hy]))]

theorem filterMap_flatten_eq {α β : Type} (f : α → Option β) :
    ∀ (L : List (List α)), L.flatten.filterMap f = (L.map (fun l => l.filterMap f)).flatten := by
  intro L
  induction L with
  | nil => rfl
  | cons x xs ih =>
    rw [List.flatten_cons, List.filterMap_append, ih, List.map_cons, List.flatten_cons]

theorem flatten_map_map {α β : Type} (f : α → β) :
    ∀ (L : List (List α)), (L.map (fun l => l.map f)).flatten = L.flatten.map f := by
  intro L
  induction L with
  | nil => rfl
  | cons x xs ih =>
    rw [List.map_cons, List.flatten_cons, List.flatten_cons, List.map_append, ih]

/-- Parameters `format_nml` prints and `parse_nml` recovers: nonempty
identifier group and name, a round-trippable value, no help text. -/
def goodParam (p : ParamNml) : Prop :=
  p.group ≠ [] ∧ p.group.all identChar = true ∧ p.name ≠ []
    ∧ p.name.all identChar = true ∧ goodVal p.value = true ∧ p.help = none

instance : DecidablePred goodParam := fun p => by
  unfold goodParam
  infer_instance

theorem lineMid_clean {p : ParamNml} (hne : p.name ≠ [])
    (hid : p.name.all identChar = true) (hval : goodVal p.value = true) :
    '\n' ∉ lineMid p ∧ '&' ∉ lineMid p ∧ '/' ∉ lineMid p ∧
    pyStrip (lineMid p) = lineMid p ∧ strHas '=' (lineMid p) = true ∧
    _parse_line (lineMid p) = .ok (p.name, p.value, []) := by
  obtain ⟨hmne, hchar, -, heq, hhead, hlast, hparse⟩ := lineMid_facts hne hid hval
  exact ⟨fun hm => (hchar _ hm).1 rfl, fun hm => (hchar _ hm).2.2.1 rfl,
    fun hm => (hchar _ hm).2.1 rfl, pyStrip_eq_self hhead hlast, heq, hparse⟩

theorem filterMap_renderBlock {g : Str} {run : List ParamNml}
    (hgne : g ≠ []) (hgall : g.all identChar = true)
    (hrun : ∀ p ∈ run, goodParam p) :
    (renderBlockLines (g, run.map paramLine)).filterMap (filterNmlLine false)
      = renderBlockLines (g, run.map lineMid) := by
  rw [renderBlockLines, renderBlockLines]
  show ((('&' :: g) :: run.map paramLine) ++ [['/']]).filterMap (filterNmlLine false)
    = (('&' :: g) :: run.map lineMid) ++ [['/']]
  rw [List.filterMap_append, List.filterMap_cons, filterNmlLine_header hgne hgall,
    filterMap_map_congr_some (fun p hp2 => filterNmlLine_paramLine (hrun p hp2).2.2.1
      (hrun p hp2).2.2.2.1 (hrun p hp2).2.2.2.2.1 (hrun p hp2).2.2.2.2.2),
    List.filterMap_cons, filterNmlLine_slash]
  rfl

theorem goodBlockChars_mid {g : Str} {run : List ParamNml}
    (hgne : g ≠ []) (hgall : g.all identChar = true) (hrunne : run ≠ [])
    (hrun : ∀ p ∈ run, goodParam p) :
    goodBlockChars (g, run.map lineMid) := by
  obtain ⟨-, -, hnl, hamp, hsl⟩ := identStr_facts hgne hgall
  refine ⟨hgne, hamp, hsl, hnl, by simp [hrunne], ?_⟩
  intro m hm
  obtain ⟨p, hp2, rfl⟩ := List.mem_map.mp hm
  obtain ⟨h1, h2, h3, -, -, -⟩ := lineMid_clean (hrun p hp2).2.2.1
    (hrun p hp2).2.2.2.1 (hrun p hp2).2.2.2.2.1
  exact ⟨h2, h3, h1⟩

/-! ## The document-level round trip -/

theorem parse_nml_render {pars : List ParamNml} (hp : ∀ p ∈ pars, goodParam p)
    {T : Str} (hT : format_nml pars = .ok T) :
    parse_nml T false
      = .ok (pars.map (fun p => (⟨p.group, p.name, p.value, some []⟩ : ParamNml))) := by
  have hgroups : ∀ p ∈ pars, p.group ≠ [] := fun p hpm => (hp p hpm).1
  rw [format_nml_render hgroups] at hT
  have hTeq : T = renderBody ((groupByKey pars).map
      (fun gr => (gr.1, gr.2.map paramLine))) ++ ['\n'] := by
    cases hT
    rfl
  subst hTeq
  by_cases hnil : pars = []
  · subst hnil
    rw [parse_nmlE_eq]
    decide
  have hGrun := groupByKey_runs pars
  have hGfacts : ∀ gr ∈ groupByKey pars, gr.1 ≠ [] ∧ gr.1.all identChar = true := by
    intro gr hgr
    obtain ⟨hne, hall⟩ := hGrun gr hgr
    cases hx : gr.2 with
    | nil => exact absurd hx hne
    | cons q qs =>
      have hq : q ∈ gr.2 := by rw [hx]; simp
      have hpq := hp q (groupByKey_mem_of_run hgr hq)
      rw [← hall q hq]
      exact ⟨hpq.1, hpq.2.1⟩
  have hG : groupByKey pars ≠ [] := by
    intro he
    have := groupByKey_flatten pars
    rw [he] at this
    simp at this
    exact hnil this

  have hLine : ∀ l ∈ (((groupByKey pars).map (fun gr => (gr.1, gr.2.map paramLine))).map
      renderBlockLines).flatten, '\n' ∉ l := by
    intro l hl
    obtain ⟨ls, hls, hl2⟩ := List.mem_flatten.mp hl
    obtain ⟨b, hb, rfl⟩ := List.mem_map.mp hls
    obtain ⟨gr, hgr, rfl⟩ := List.mem_map.mp hb
    rw [renderBlockLines] at hl2
    rcases List.mem_append.mp hl2 with h1 | h2
    · rcases List.mem_cons.mp h1 with rfl | h3
      · intro hc
        rcases List.mem_cons.mp hc with he | hcg
        · cases he
        · exact (identStr_facts (hGfacts gr hgr).1 (hGfacts gr hgr).2).2.2.1 hcg
      · obtain ⟨p, hp2, rfl⟩ := List.mem_map.mp h3
        have hpp := hp p (groupByKey_mem_of_run hgr hp2)
        rw [paramLine_eq_pad hpp.2.2.2.2.2]
        intro hc
        rcases List.mem_append.mp hc with h4 | h5
        · rcases List.mem_append.mp h4 with h6 | h7
          · exact absurd (List.eq_of_mem_replicate h6) (by decide)
          · exact (lineMid_clean hpp.2.2.1 hpp.2.2.2.1 hpp.2.2.2.2.1).1 h7
        · exact absurd (List.eq_of_mem_replicate h5) (by decide)
    · simp at h2
      subst h2
      decide
  have hLne : (((groupByKey pars).map (fun gr => (gr.1, gr.2.map paramLine))).map
      renderBlockLines).flatten ≠ [] := by
    cases hGx : groupByKey pars with
    | nil => exact absurd hGx hG
    | cons gr grs =>
      simp [renderBlockLines]
  have e1 : splitOnChar '\n' (renderBody ((groupByKey pars).map
        (fun gr => (gr.1, gr.2.map paramLine))) ++ ['\n'])
      = (((groupByKey pars).map (fun gr => (gr.1, gr.2.map paramLine))).map
          renderBlockLines).flatten ++ [[]] := by
    rw [renderBody]
    exact splitOnChar_joinWith_newline hLine hLne
  have e2 : ((((groupByKey pars).map (fun gr : Str × List ParamNml =>
            (gr.1, gr.2.map paramLine))).map
          renderBlockLines).flatten ++ [[]]).filterMap (filterNmlLine false)
      = (((groupByKey pars).map (fun gr => (gr.1, gr.2.map lineMid))).map
          renderBlockLines).flatten := by
    have hblocks : ((((groupByKey pars).map (fun gr => (gr.1, gr.2.map paramLine))).map
          renderBlockLines).map (fun l => l.filterMap (filterNmlLine false)))
        = ((groupByKey pars).map (fun gr => (gr.1, gr.2.map lineMid))).map
            renderBlockLines := by
      rw [List.map_map, List.map_map, List.map_map]
      refine List.map_congr_left ?_
      intro gr hgr
      simp only [Function.comp]
      exact filterMap_renderBlock (hGfacts gr hgr).1 (hGfacts gr hgr).2
        (fun p hp2 => hp p (groupByKey_mem_of_run hgr hp2))
    rw [List.filterMap_append, filterMap_flatten_eq, hblocks,
      List.filterMap_cons, filterNmlLine_empty]
    simp
  have e3 : findGroupBlocks (joinWith '\n' ((((groupByKey pars).map
        (fun gr => (gr.1, gr.2.map lineMid))).map renderBlockLines).flatten))
      = ((groupByKey pars).map (fun gr => (gr.1, gr.2.map lineMid))).map blockContent := by
    refine findGroupBlocks_renderBody ?_
    intro b hb
    obtain ⟨gr, hgr, rfl⟩ := List.mem_map.mp hb
    exact goodBlockChars_mid (hGfacts gr hgr).1 (hGfacts gr hgr).2 (hGrun gr hgr).1
      (fun p hp2 => hp p (groupByKey_mem_of_run hgr hp2))
  have e4 : ((((groupByKey pars).map (fun gr => (gr.1, gr.2.map lineMid))).map
          blockContent).mapM parseGroupBlock)
      = .ok ((groupByKey pars).map (fun gr => gr.2.map
          (fun p => (⟨p.group, p.name, p.value, some []⟩ : ParamNml)))) := by
    rw [List.map_map]
    refine mapM_map_ok ?_
    intro gr hgr
    have hrunP : ∀ p ∈ gr.2, goodParam p :=
      fun p hp2 => hp p (groupByKey_mem_of_run hgr hp2)
    obtain ⟨hgs, hgb, hnlg, -, -⟩ := identStr_facts (hGfacts gr hgr).1 (hGfacts gr hgr).2
    have hnlm : ∀ m ∈ gr.2.map lineMid, '\n' ∉ m := by
      intro m hm
      obtain ⟨p, hp2, rfl⟩ := List.mem_map.mp hm
      exact (lineMid_clean (hrunP p hp2).2.2.1 (hrunP p hp2).2.2.2.1
        (hrunP p hp2).2.2.2.2.1).1
    have hmne : gr.2.map lineMid ≠ [] := by
      have hne := (hGrun gr hgr).1
      cases hx : gr.2 with
      | nil => exact absurd hx hne
      | cons q qs => simp
    have hmstrip : ∀ m ∈ gr.2.map lineMid, pyStrip m = m ∧ strHas '=' m = true := by
      intro m hm
      obtain ⟨p, hp2, rfl⟩ := List.mem_map.mp hm
      have hc := lineMid_clean (hrunP p hp2).2.2.1 (hrunP p hp2).2.2.2.1
        (hrunP p hp2).2.2.2.2.1
      exact ⟨hc.2.2.2.1, hc.2.2.2.2.1⟩
    have hinner := @mapM_map_ok ParamNml Str ParamNml
      (fun l => (_parse_line l).map
        (fun nvc => (⟨gr.1, nvc.1, nvc.2.1, some nvc.2.2⟩ : ParamNml)))
      lineMid
      (fun p => (⟨gr.1, p.name, p.value, some []⟩ : ParamNml))
      gr.2
      (by
        intro p hp2
        show (_parse_line (lineMid p)).map
            (fun nvc => (⟨gr.1, nvc.1, nvc.2.1, some nvc.2.2⟩ : ParamNml))
          = Except.ok (⟨gr.1, p.name, p.value, some []⟩ : ParamNml)
        rw [(lineMid_clean (hrunP p hp2).2.2.1 (hrunP p hp2).2.2.2.1
          (hrunP p hp2).2.2.2.2.1).2.2.2.2.2]
        rfl)
    simp only [Function.comp]
    rw [parseGroupBlock_render hgs hgb hnlg hnlm hmne hmstrip, hinner]
    refine congrArg Except.ok (List.map_congr_left ?_)
    intro p hp2
    show (⟨gr.1, p.name, p.value, some []⟩ : ParamNml) = ⟨p.group, p.name, p.value, some []⟩
    rw [(hGrun gr hgr).2 p hp2]
  have e5 : ((groupByKey pars).map (fun gr => gr.2.map
        (fun p => (⟨p.group, p.name, p.value, some []⟩ : ParamNml)))).flatten
      = pars.map (fun p => (⟨p.group, p.name, p.value, some []⟩ : ParamNml)) := by
    calc ((groupByKey pars).map (fun gr => gr.2.map
          (fun p => (⟨p.group, p.name, p.value, some []⟩ : ParamNml)))).flatten
        = (((groupByKey pars).map (fun gr => gr.2)).map (fun l => l.map
            (fun p => (⟨p.group, p.name, p.value, some []⟩ : ParamNml)))).flatten := by
          rw [List.map_map]
          rfl
      _ = ((groupByKey pars).map (fun gr => gr.2)).flatten.map
            (fun p => (⟨p.group, p.name, p.value, some []⟩ : ParamNml)) :=
          flatten_map_map _ _
      _ = pars.map (fun p => (⟨p.group, p.name, p.value, some []⟩ : ParamNml)) := by
          rw [groupByKey_flatten]
  rw [parse_nml]
  show ((match (findGroupBlocks (joinWith '\n' ((splitOnChar '\n'
      (renderBody ((groupByKey pars).map (fun gr => (gr.1, gr.2.map paramLine)))
        ++ ['\n'])).filterMap (filterNmlLine false)))).mapM parseGroupBlock with
    | .error e => .error e
    | .ok pss => .ok pss.flatten) : Except NmlError (List ParamNml)) = _
  rw [e1, e2, e3, e4]
  exact congrArg Except.ok e5

/-! ## Ordered-dict lemmas -/

theorem dictSet_append {α : Type} {m : List (Str × α)} {k : Str} {v : α}
    (h : ∀ e ∈ m, e.1 ≠ k) : dictSet m k v = m ++ [(k, v)] := by
  rw [dictSet, if_neg]
  intro hc
  obtain ⟨e, he, heq⟩ := List.any_eq_true.mp hc
  simp at heq
  exact h e he heq

theorem foldl_dictSet_fresh {α : Type} :
    ∀ (ps : List (Str × α)) (acc : List (Str × α)),
    (ps.map (fun kv => kv.1)).Nodup →
    (∀ kv ∈ ps, ∀ e ∈ acc, e.1 ≠ kv.1) →
    ps.foldl (fun m kv => dictSet m kv.1 kv.2) acc = acc ++ ps := by
  intro ps
  induction ps with
  | nil =>
    intro acc _ _
    simp
  | cons kv rest ih =>
    intro acc hnd hfresh
    rw [List.foldl_cons, dictSet_append (fun e he => hfresh kv (by simp) e he)]
    rw [List.map_cons] at hnd
    have hnd2 := List.nodup_cons.mp hnd
    rw [ih (acc ++ [(kv.1, kv.2)]) hnd2.2 ?_]
    · simp
    · intro kv2 hkv2 e he
      rcases List.mem_append.mp he with h1 | h2
      · exact hfresh kv2 (by simp [hkv2]) e h1
      · have h3 := List.mem_singleton.mp h2
        subst h3
        intro heq
        exact hnd2.1 (heq.symm ▸ List.mem_map.mpr ⟨kv2, hkv2, rfl⟩)

theorem odictOfPairs_nodup {α : Type} {ps : List (Str × α)}
    (h : (ps.map (fun kv => kv.1)).Nodup) : odictOfPairs ps = ps := by
  rw [odictOfPairs, foldl_dictSet_fresh ps [] h (by intro kv _ e he; cases he)]
  rfl

/-! ## Key splitting -/

/-- Group and name extracted from a flattened `group.name` key. -/
def keyGN (k : Str) : Str × Str :=
  ((splitOnChar '.' k).headD [], ((splitOnChar '.' k).drop 1).headD [])

theorem goodKey_split {k : Str} (h : goodKey k = true) :
    splitOnChar '.' k = [(keyGN k).1, (keyGN k).2]
      ∧ (keyGN k).1 ≠ [] ∧ (keyGN k).2 ≠ []
      ∧ (keyGN k).1.all identChar = true ∧ (keyGN k).2.all identChar = true
      ∧ (keyGN k).1 ++ '.' :: (keyGN k).2 = k := by
  rw [goodKey] at h
  rcases hs : splitOnChar '.' k with _ | ⟨g, _ | ⟨n, _ | ⟨z, t⟩⟩⟩
  · rw [hs] at h
    cases h
  · rw [hs] at h
    cases h
  · rw [hs] at h
    simp only [Bool.and_eq_true, decide_eq_true_eq] at h
    have hgn : keyGN k = (g, n) := by
      rw [keyGN, hs]
      rfl
    rw [hgn]
    refine ⟨rfl, h.1.1.1, h.1.1.2, h.1.2, h.2, ?_⟩
    have := joinWith_splitOnChar '.' k
    rw [hs] at this
    exact this
  · rw [hs] at h
    cases h

/-! ## The `dumps`/`loads` round trip -/

theorem dumps_then_loads {d : List (Str × Value)} (h : GoodMapping d) :
    (Namelist.dumps ⟨'.'⟩ d).bind (Namelist.loads ⟨'.'⟩) = .ok d := by
  have hmapd := @mapM_ok (Str × Value) ParamNml
    (fun kv => match splitOnChar '.' kv.1 with
      | [group, name] => Except.ok (⟨group, name, kv.2, none⟩ : ParamNml)
      | _ => Except.error (NmlError.keyUnpack kv.1))
    (fun kv => (⟨(keyGN kv.1).1, (keyGN kv.1).2, kv.2, none⟩ : ParamNml))
    d
    (by
      intro kv hkv
      show (match splitOnChar '.' kv.1 with
        | [group, name] => Except.ok (⟨group, name, kv.2, none⟩ : ParamNml)
        | _ => Except.error (NmlError.keyUnpack kv.1))
        = Except.ok (⟨(keyGN kv.1).1, (keyGN kv.1).2, kv.2, none⟩ : ParamNml)
      rw [(goodKey_split (h.2 kv hkv).1).1])
  have hdumps : Namelist.dumps ⟨'.'⟩ d
      = format_nml (d.map (fun kv =>
          (⟨(keyGN kv.1).1, (keyGN kv.1).2, kv.2, none⟩ : ParamNml))) := by
    rw [Namelist.dumps]
    show ((match d.mapM (fun kv => match splitOnChar '.' kv.1 with
        | [group, name] => Except.ok (⟨group, name, kv.2, none⟩ : ParamNml)
        | _ => Except.error (NmlError.keyUnpack kv.1)) with
      | .error e => .error e
      | .ok pars => format_nml pars) : Except NmlError Str) = _
    rw [hmapd]
  have hpars : ∀ p ∈ d.map (fun kv =>
      (⟨(keyGN kv.1).1, (keyGN kv.1).2, kv.2, none⟩ : ParamNml)), goodParam p := by
    intro p hp2
    obtain ⟨kv, hkv, rfl⟩ := List.mem_map.mp hp2
    obtain ⟨-, hne1, hne2, hall1, hall2, -⟩ := goodKey_split (h.2 kv hkv).1
    exact ⟨hne1, hall1, hne2, hall2, (h.2 kv hkv).2, rfl⟩
  have hloads : ∀ T : Str, parse_nml T false
        = .ok ((d.map (fun kv =>
            (⟨(keyGN kv.1).1, (keyGN kv.1).2, kv.2, none⟩ : ParamNml))).map
          (fun p => (⟨p.group, p.name, p.value, some []⟩ : ParamNml)))
      → Namelist.loads ⟨'.'⟩ T = .ok d := by
    intro T hparse
    rw [Namelist.loads]
    show ((match parse_nml T false with
      | .error e => .error e
      | .ok params => .ok (odictOfPairs (params.map
          (fun p => (p.group ++ '.' :: p.name, p.value))))
      : Except NmlError (List (Str × Value)))) = _
    rw [hparse]
    show Except.ok (odictOfPairs (((d.map (fun kv : Str × Value =>
        (⟨(keyGN kv.1).1, (keyGN kv.1).2, kv.2, none⟩ : ParamNml))).map
          (fun p : ParamNml => (⟨p.group, p.name, p.value, some []⟩ : ParamNml))).map
            (fun p : ParamNml => (p.group ++ '.' :: p.name, p.value))))
      = Except.ok d
    rw [List.map_map, List.map_map]
    have hid : ∀ kv ∈ d, (((fun p : ParamNml => (p.group ++ '.' :: p.name, p.value)) ∘
        (fun p : ParamNml => (⟨p.group, p.name, p.value, some []⟩ : ParamNml))) ∘
          (fun kv : Str × Value =>
            (⟨(keyGN kv.1).1, (keyGN kv.1).2, kv.2, none⟩ : ParamNml))) kv = kv := by
      intro kv hkv
      simp only [Function.comp]
      rw [(goodKey_split (h.2 kv hkv).1).2.2.2.2.2]
    have hpairs : d.map (((fun p : ParamNml => (p.group ++ '.' :: p.name, p.value)) ∘
        (fun p : ParamNml => (⟨p.group, p.name, p.value, some []⟩ : ParamNml))) ∘
          (fun kv : Str × Value =>
            (⟨(keyGN kv.1).1, (keyGN kv.1).2, kv.2, none⟩ : ParamNml))) = d :=
      (List.map_congr_left hid).trans (List.map_id d)
    rw [hpairs, odictOfPairs_nodup h.1]
  have hfmt := format_nml_render (fun p hp2 => (hpars p hp2).1)
  rw [hdumps, hfmt]
  exact hloads _ (parse_nml_render hpars hfmt)

/-! ## Star-token expansion -/

theorem mem_dropWhile_of_not {p : Char → Bool} {c : Char} (hc : p c = false) :
    ∀ {l : Str}, c ∈ l → c ∈ l.dropWhile p := by
  intro l
  induction l with
  | nil => intro h; cases h
  | cons x xs ih =>
    intro h
    rw [List.dropWhile_cons]
    by_cases hx : p x = true
    · simp only [hx, if_true]
      rcases List.mem_cons.mp h with rfl | h2
      · rw [hx] at hc; cases hc
      · exact ih h2
    · simp only [hx, if_false]
      exact h

theorem mem_pyStrip_of_not_space {c : Char} {l : Str} (hc : pyIsSpace c = false)
    (h : c ∈ l) : c ∈ pyStrip l := by
  rw [pyStrip, List.mem_reverse]
  exact mem_dropWhile_of_not hc (List.mem_reverse.mpr (mem_dropWhile_of_not hc h))

theorem parse_array_star_cons {mult val : Str} {m : ℤ} {x : Value} {rest : List Str}
    {r : List Value}
    (hm1 : '*' ∉ mult) (hv1 : '*' ∉ val)
    (hn : pyInt mult = some m)
    (hx : _parse_value (pyStrip val) = .ok x)
    (hr : _parse_array rest = .ok r) :
    _parse_array ((mult ++ '*' :: val) :: rest) = .ok (pyListMul m [x] ++ r) := by
  have hstar : strHas '*' (mult ++ '*' :: val) = true := strHas_iff.mpr (by simp)
  have hspc : splitOnChar '*' (mult ++ '*' :: val) = [mult, val] :=
    splitOnChar_sandwich hm1 hv1
  rw [_parse_array.eq_def]
  simp only []
  rw [dif_pos hstar]
  split
  · next mult2 val2 heq =>
    have h2 : [mult, val] = [mult2, val2] := hspc.symm.trans heq
    simp only [List.cons.injEq, and_true] at h2
    obtain ⟨rfl, rfl, -⟩ := h2
    rw [hn, hx, hr]
  · next hne =>
    exact absurd hspc (hne mult val)

theorem parse_value_star {mult val : Str} {m : ℤ} {x : Value}
    (hmne : mult ≠ []) (hmd : mult.all Char.isDigit = true)
    (hv1 : '*' ∉ val) (hv2 : ',' ∉ val)
    (hsl : lastIs '/' (mult ++ '*' :: val) = false)
    (hn : pyInt mult = some m)
    (hx : _parse_value (pyStrip val) = .ok x) :
    _parse_value (mult ++ '*' :: val) = .ok (.list (pyListMul m [x])) := by
  have hm1 : '*' ∉ mult := by
    intro hm
    have := List.all_eq_true.mp hmd _ hm
    simp at this
  have hstar_mem : '*' ∈ mult ++ '*' :: val := by simp
  have hhead : ∃ d, (mult ++ '*' :: val).head? = some d ∧ d.isDigit = true := by
    cases hmx : mult with
    | nil => exact absurd hmx hmne
    | cons d ds =>
      refine ⟨d, by simp, ?_⟩
      exact List.all_eq_true.mp hmd d (by rw [hmx]; simp)
  obtain ⟨d, hhd, hdd⟩ := hhead
  have hsstrip : '*' ∈ pyStrip (mult ++ '*' :: val) :=
    mem_pyStrip_of_not_space (by decide) hstar_mem
  have hpi : pyInt (mult ++ '*' :: val) = none :=
    pyInt_none_of_char hsstrip (by decide) (by decide) (by decide)
  have hpf : pyFloat (mult ++ '*' :: val) = none :=
    pyFloat_none_of_char hsstrip (by decide) (by decide)
  have hlowmem : '*' ∈ pyLower (mult ++ '*' :: val) := by
    rw [pyLower]
    exact List.mem_map.mpr ⟨'*', hstar_mem, by decide⟩
  have hbt : pyLower (mult ++ '*' :: val) ∉ [".true.".data, "t".data, "true".data] := by
    intro hmm
    simp only [List.mem_cons, List.not_mem_nil, or_false] at hmm
    rcases hmm with he | he | he <;> (rw [he] at hlowmem; exact absurd hlowmem (by decide))
  have hbf : pyLower (mult ++ '*' :: val) ∉ [".false.".data, "f".data, "false".data] := by
    intro hmm
    simp only [List.mem_cons, List.not_mem_nil, or_false] at hmm
    rcases hmm with he | he | he <;> (rw [he] at hlowmem; exact absurd hlowmem (by decide))
  have hdq : ∀ c : Char, c.isDigit = true → (c == '\'') = false ∧ (c == '"') = false
      ∧ (c == '/') = false := by
    intro c hcd
    refine ⟨?_, ?_, ?_⟩ <;> (rw [beq_eq_false_iff_ne]; rintro rfl; simp at hcd)
  have hquote : ¬ ((headIs '\'' (mult ++ '*' :: val) ∧ lastIs '\'' (mult ++ '*' :: val)
        ∧ (mult ++ '*' :: val).count '\'' = 2)
      ∨ (headIs '"' (mult ++ '*' :: val) ∧ lastIs '"' (mult ++ '*' :: val)
        ∧ (mult ++ '*' :: val).count '"' = 2)) := by
    rintro (⟨hq1, -, -⟩ | ⟨hq1, -, -⟩) <;>
      (rw [headIs_of_head? hhd] at hq1)
    · rw [(hdq d hdd).1] at hq1
      cases hq1
    · rw [(hdq d hdd).2.1] at hq1
      cases hq1
  have hslash : ¬ (headIs '/' (mult ++ '*' :: val) ∧ lastIs '/' (mult ++ '*' :: val)) := by
    rintro ⟨hq1, -⟩
    rw [headIs_of_head? hhd, (hdq d hdd).2.2] at hq1
    cases hq1
  have hcomma : ¬ (strHas ',' (mult ++ '*' :: val) = true) := by
    rw [strHas_iff]
    intro hmm
    rcases List.mem_append.mp hmm with h1 | h2
    · have := List.all_eq_true.mp hmd _ h1
      simp at this
    · rcases List.mem_cons.mp h2 with he | h3
      · cases he
      · exact hv2 h3
  rw [_parse_value, hpi, hpf, if_neg hbt, if_neg hbf, if_neg hquote, dif_neg hslash,
    dif_neg hcomma, dif_pos (strHas_iff.mpr hstar_mem)]
  have hnil : _parse_array ([] : List Str) = .ok [] := by rw [_parse_array.eq_def]
  rw [parse_array_star_cons hm1 hv1 hn hx hnil, List.append_nil]
  rfl

/-! ## Line splitting on a single equals sign -/

theorem parse_line_single_eq {k v : Str}
    (hk : '=' ∉ k) (hv : '=' ∉ v) (hbk : '!' ∉ k) (hbv : '!' ∉ v)
    (hc : lastIs ',' (k ++ '=' :: v) = false) :
    _parse_line (k ++ '=' :: v)
      = (_parse_value (pyStrip v)).map (fun val => (pyStrip k, val, [])) := by
  have hnb : strHas '!' (k ++ '=' :: v) = false := by
    cases hx : strHas '!' (k ++ '=' :: v) with
    | false => rfl
    | true =>
      have hm := strHas_iff.mp hx
      rcases List.mem_append.mp hm with h1 | h2
      · exact absurd h1 hbk
      · rcases List.mem_cons.mp h2 with he | h3
        · cases he
        · exact absurd h3 hbv
  rw [_parse_line]
  simp only [hnb, Bool.false_eq_true, if_false, hc, splitOnChar_sandwich hk hv]

/-! ## `dumps` failure modes -/

theorem dumps_no_sep {k : Str} {v : Value} {rest : List (Str × Value)}
    (hk : (splitOnChar '.' k).length ≠ 2) :
    Namelist.dumps ⟨'.'⟩ ((k, v) :: rest) = .error (.keyUnpack k) := by
  rw [Namelist.dumps]
  show ((match ((k, v) :: rest).mapM (fun kv => match splitOnChar '.' kv.1 with
      | [group, name] => Except.ok (⟨group, name, kv.2, none⟩ : ParamNml)
      | _ => Except.error (NmlError.keyUnpack kv.1)) with
    | .error e => .error e
    | .ok pars => format_nml pars) : Except NmlError Str) = _
  have hfk : (match splitOnChar '.' k with
      | [group, name] => Except.ok (⟨group, name, v, none⟩ : ParamNml)
      | _ => Except.error (NmlError.keyUnpack k)) = Except.error (NmlError.keyUnpack k) := by
    rcases hs : splitOnChar '.' k with _ | ⟨a, _ | ⟨b, _ | ⟨c, t⟩⟩⟩
    · rfl
    · rfl
    · rw [hs] at hk
      simp at hk
    · rfl
  rw [List.mapM_cons, hfk]
  rfl

theorem dumps_empty_group {n : Str} {w : Value} (hn : '.' ∉ n) :
    Namelist.dumps ⟨'.'⟩ [('.' :: n, w)] = .error .emptyGroupName := by
  have hsplit : splitOnChar '.' ('.' :: n) = [[], n] := by
    rw [splitOnChar_cons_sep]
    rw [splitOnChar, splitOnP_eq_single]
    intro x hx
    simp only [beq_eq_false_iff_ne]
    rintro rfl
    exact hn hx
  rw [Namelist.dumps]
  show ((match [(('.' :: n : Str), w)].mapM (fun kv => match splitOnChar '.' kv.1 with
      | [group, name] => Except.ok (⟨group, name, kv.2, none⟩ : ParamNml)
      | _ => Except.error (NmlError.keyUnpack kv.1)) with
    | .error e => .error e
    | .ok pars => format_nml pars) : Except NmlError Str) = _
  have hf : (match splitOnChar '.' ('.' :: n) with
      | [group, name] => Except.ok (⟨group, name, w, none⟩ : ParamNml)
      | _ => Except.error (NmlError.keyUnpack ('.' :: n))) = Except.ok ⟨[], n, w, none⟩ := by
    rw [hsplit]
  rw [List.mapM_cons, hf]
  rfl

/-! ## Lookup in the ordered dict -/

theorem find?_or_append {α : Type} (p : α → Bool) :
    ∀ l₁ l₂ : List α, (l₁ ++ l₂).find? p = ((l₁.find? p).or (l₂.find? p)) := by
  intro l₁ l₂
  induction l₁ with
  | nil => simp [Option.or]
  | cons x xs ih =>
    rw [List.cons_append, List.find?_cons, List.find?_cons]
    by_cases hx : p x = true
    · simp [hx, Option.or]
    · simp only [hx, Bool.false_eq_true, if_false]
      exact ih

theorem find_map_replace {α : Type} (a : Str) (v : α) (k : Str) :
    ∀ m : List (Str × α),
    dictGet (m.map (fun kv => if kv.1 == a then (a, v) else kv)) k
      = if a = k then (if m.any (fun kv => kv.1 == a) then some v else none)
        else dictGet m k := by
  intro m
  induction m with
  | nil => by_cases h : a = k <;> simp [dictGet, h]
  | cons e m ih =>
    rw [List.map_cons]
    by_cases he : e.1 = a
    · have hFe : (if e.1 == a then (a, v) else e) = (a, v) := by simp [he]
      rw [hFe]
      by_cases hak : a = k
      · subst hak
        rw [if_pos rfl]
        have hany : (e :: m).any (fun kv => kv.1 == a) = true := by simp [he]
        rw [if_pos hany, dictGet, List.find?_cons_of_pos _ (by simp)]
        rfl
      · rw [if_neg hak]
        have h1 : dictGet ((a, v) :: m.map (fun kv => if kv.1 == a then (a, v) else kv)) k
            = dictGet (m.map (fun kv => if kv.1 == a then (a, v) else kv)) k := by
          rw [dictGet, dictGet,
            List.find?_cons_of_neg _ (by simp; exact fun h => hak h)]
        rw [h1, ih, if_neg hak, dictGet, dictGet,
          List.find?_cons_of_neg _ (by simp; intro h; rw [he] at h; exact hak h)]
    · have hFe : (if e.1 == a then (a, v) else e) = e := by simp [he]
      rw [hFe]
      by_cases hek : e.1 = k
      · have h1 : dictGet (e :: m.map (fun kv => if kv.1 == a then (a, v) else kv)) k
            = some e.2 := by
          rw [dictGet, List.find?_cons_of_pos _ (by simp [hek])]
          rfl
        have h2 : dictGet (e :: m) k = some e.2 := by
          rw [dictGet, List.find?_cons_of_pos _ (by simp [hek])]
          rfl
        rw [h1, h2, if_neg (fun hak => he (hek.trans hak.symm))]
      · have h1 : dictGet (e :: m.map (fun kv => if kv.1 == a then (a, v) else kv)) k
            = dictGet (m.map (fun kv => if kv.1 == a then (a, v) else kv)) k := by
          rw [dictGet, dictGet, List.find?_cons_of_neg _ (by simp [hek])]
        have h2 : dictGet (e :: m) k = dictGet m k := by
          rw [dictGet, dictGet, List.find?_cons_of_neg _ (by simp [hek])]
        rw [h1, h2, ih]
        by_cases hak : a = k
        · rw [if_pos hak, if_pos hak]
          have hany2 : (e :: m).any (fun kv => kv.1 == a) = m.any (fun kv => kv.1 == a) := by
            rw [List.any_cons, beq_eq_false_iff_ne.mpr he]
            simp
          rw [hany2]
        · rw [if_neg hak, if_neg hak]

theorem dictGet_dictSet {α : Type} (a : Str) (v : α) (k : Str) (m : List (Str × α)) :
    dictGet (dictSet m a v) k = if a = k then some v else dictGet m k := by
  rw [dictSet]
  by_cases hany : m.any (fun kv => kv.1 == a) = true
  · rw [if_pos hany, find_map_replace]
    by_cases hak : a = k
    · rw [if_pos hak, if_pos hany, if_pos hak]
    · rw [if_neg hak, if_neg hak]
  · rw [if_neg hany, dictGet, find?_or_append]
    have hm : m.find? (fun kv => kv.1 == k) = none ∨ ¬ a = k := by
      by_cases hak : a = k
      · subst hak
        left
        rw [List.find?_eq_none]
        intro e he
        simp only [beq_eq_false_iff_ne.mpr, Bool.not_eq_true, beq_eq_false_iff_ne]
        intro hek
        exact hany (List.any_eq_true.mpr ⟨e, he, by simp [hek]⟩)
      · right
        exact hak
    by_cases hak : a = k
    · rw [if_pos hak]
      rcases hm with hnone | hne
      · rw [hnone]
        subst hak
        simp [Option.or, dictGet, List.find?_cons]
      · exact absurd hak hne
    · rw [if_neg hak]
      have hone : List.find? (fun kv => kv.1 == k) [(a, v)] = none := by
        rw [List.find?_eq_none]
        intro e he
        simp at he
        subst he
        simp only [Bool.not_eq_true, beq_eq_false_iff_ne]
        exact hak
      rw [hone, dictGet]
      cases List.find? (fun kv => kv.1 == k) m <;> rfl

theorem dictSet_keys {α : Type} (m : List (Str × α)) (k : Str) (v : α) :
    (dictSet m k v).map (fun kv => kv.1)
      = if m.any (fun kv => kv.1 == k) then m.map (fun kv => kv.1)
        else m.map (fun kv => kv.1) ++ [k] := by
  rw [dictSet]
  by_cases h : m.any (fun kv => kv.1 == k) = true
  · rw [if_pos h, if_pos h, List.map_map]
    refine List.map_congr_left ?_
    intro e he
    simp only [Function.comp]
    by_cases he2 : e.1 = k
    · rw [if_pos (by simp [he2])]
      exact he2.symm
    · rw [if_neg (by simp [he2])]
  · rw [if_neg h, if_neg h, List.map_append]
    rfl

theorem nodup_keys_dictSet {α : Type} {m : List (Str × α)} {k : Str} {v : α}
    (h : (m.map (fun kv => kv.1)).Nodup) :
    ((dictSet m k v).map (fun kv => kv.1)).Nodup := by
  rw [dictSet_keys]
  by_cases hc : m.any (fun kv => kv.1 == k) = true
  · rw [if_pos hc]
    exact h
  · rw [if_neg hc]
    rw [List.nodup_append]
    refine ⟨h, List.nodup_singleton k, ?_⟩
    intro a ha hb
    simp at hb
    subst hb
    obtain ⟨e, he, heq⟩ := List.mem_map.mp ha
    exact hc (List.any_eq_true.mpr ⟨e, he, by simp [heq]⟩)

theorem nodup_keys_foldl {α : Type} :
    ∀ (ps acc : List (Str × α)), ((acc.map (fun kv => kv.1)).Nodup) →
    (((ps.foldl (fun m kv => dictSet m kv.1 kv.2) acc).map (fun kv => kv.1)).Nodup) := by
  intro ps
  induction ps with
  | nil => intro acc h; exact h
  | cons kv rest ih =>
    intro acc h
    rw [List.foldl_cons]
    exact ih (dictSet acc kv.1 kv.2) (nodup_keys_dictSet h)

theorem odictOfPairs_keys_nodup {α : Type} (ps : List (Str × α)) :
    ((odictOfPairs ps).map (fun kv => kv.1)).Nodup := by
  rw [odictOfPairs]
  exact nodup_keys_foldl ps [] (by simp)

theorem dictGet_foldl_dictSet {α : Type} :
    ∀ (ps acc : List (Str × α)) (k : Str),
    dictGet (ps.foldl (fun m kv => dictSet m kv.1 kv.2) acc) k
      = ((ps.reverse.find? (fun kv => kv.1 == k)).map (fun kv => kv.2)).or (dictGet acc k) := by
  intro ps
  induction ps with
  | nil =>
    intro acc k
    simp [Option.or]
  | cons kv rest ih =>
    intro acc k
    rw [List.foldl_cons, ih, List.reverse_cons, find?_or_append]
    by_cases hf : rest.reverse.find? (fun kv => kv.1 == k) = none
    · rw [hf]
      rw [dictGet_dictSet]
      by_cases hak : kv.1 = k
      · rw [if_pos hak]
        have : List.find? (fun e => e.1 == k) [kv] = some kv := by
          rw [List.find?_cons_of_pos _ (by simp [hak])]
        rw [this]
        simp [Option.or]
      · rw [if_neg hak]
        have : List.find? (fun e => e.1 == k) [kv] = none := by
          rw [List.find?_eq_none]
          intro e he
          simp at he
          subst he
          simp only [Bool.not_eq_true, beq_eq_false_iff_ne]
          exact hak
        rw [this]
        simp [Option.or]
    · cases hx : rest.reverse.find? (fun kv => kv.1 == k) with
      | none => exact absurd hx hf
      | some e =>
        simp [Option.or]

theorem dictGet_odictOfPairs {α : Type} (ps : List (Str × α)) (k : Str) :
    dictGet (odictOfPairs ps) k
      = (ps.reverse.find? (fun kv => kv.1 == k)).map (fun kv => kv.2) := by
  rw [odictOfPairs, dictGet_foldl_dictSet]
  cases (ps.reverse.find? (fun kv => kv.1 == k)).map (fun kv => kv.2) <;> rfl

/-! ## Documents without a terminator -/

theorem mem_of_mem_pyStrip {c : Char} {l : Str} (h : c ∈ pyStrip l) : c ∈ l := by
  rw [pyStrip, List.mem_reverse] at h
  have h2 := ((l.dropWhile pyIsSpace).reverse.dropWhile_sublist pyIsSpace).subset h
  rw [List.mem_reverse] at h2
  exact (l.dropWhile_sublist pyIsSpace).subset h2

theorem filterNmlLine_false_strip {l out : Str} (h : filterNmlLine false l = some out) :
    out = pyStrip l := by
  simp only [filterNmlLine] at h
  by_cases h1 : pyStrip l = []
  · rw [if_pos h1] at h
    cases h
  · rw [if_neg h1] at h
    by_cases h2 : headIs '!' (pyStrip l) = true
    · rw [if_pos h2] at h
      cases h
    · rw [if_neg h2, if_neg (by simp)] at h
      simp at h
      exact h.symm

theorem filterMap_eq_nil_of_none {α β : Type} {f : α → Option β} :
    ∀ {l : List α}, (∀ x ∈ l, f x = none) → l.filterMap f = [] := by
  intro l
  induction l with
  | nil => intro _; rfl
  | cons x xs ih =>
    intro h
    rw [List.filterMap_cons, h x (by simp)]
    exact ih (fun y hy => h y (by simp [hy]))

theorem findGroupBlocks_no_slash {t : Str} (h : '/' ∉ t) : findGroupBlocks t = [] := by
  rw [findGroupBlocks]
  cases hs : splitOnChar '&' t with
  | nil => rfl
  | cons s0 segs =>
    refine filterMap_eq_nil_of_none ?_
    intro seg hseg
    have hsub : seg ∈ splitOnChar '&' t := by
      rw [hs]
      simp [hseg]
    have hns : '/' ∉ seg := by
      intro hm
      exact h (mem_of_mem_splitOnP hsub hm)
    rw [segContent, upToLastSlash_none hns]

theorem parse_nml_no_slash {s : Str} (h : '/' ∉ s) : parse_nml s false = .ok [] := by
  have hjo : '/' ∉ joinWith '\n' ((splitOnChar '\n' s).filterMap (filterNmlLine false)) := by
    intro hm
    rcases mem_joinWith hm with he | ⟨l, hl, hcl⟩
    · cases he
    · obtain ⟨line, hline, hfl⟩ := List.mem_filterMap.mp hl
      rw [filterNmlLine_false_strip hfl] at hcl
      exact h (mem_of_mem_splitOnP (by rw [← splitOnChar]; exact hline)
        (mem_of_mem_pyStrip hcl))
  rw [parse_nml]
  show ((match (findGroupBlocks (joinWith '\n'
      ((splitOnChar '\n' s).filterMap (filterNmlLine false)))).mapM parseGroupBlock with
    | .error e => .error e
    | .ok pss => .ok pss.flatten) : Except NmlError (List ParamNml)) = _
  rw [findGroupBlocks_no_slash hjo]
  rfl

/-! ## Executable mirrors of the file-level helpers -/

def nmlLoadFileE (fs : FileSys) (path : Str) : Except ParamFileError (List (Str × Value)) :=
  match (fs.find? (fun e => e.1 == path)).map (fun e => e.2) with
  | none => .error (.io path)
  | some s =>
    match loadsE ⟨'.'⟩ s with
    | .error e => .error (.fmt e)
    | .ok d => .ok d

theorem nmlLoadFileE_eq (fs : FileSys) (path : Str) :
    nmlLoadFile fs path = nmlLoadFileE fs path := by
  simp only [nmlLoadFile, nmlLoadFileE, loadsE_eq]

def param_check_allE (params : List (Str × Value)) (par_paths : List Str) (fs : FileSys) :
    Except ParamFileError Unit :=
  match par_paths.mapM (nmlLoadFileE fs) with
  | .error e => .error e
  | .ok params_all =>
    let all_keys := (params_all.map (fun d => d.map (fun kv => kv.1))).flatten
    let missing_keys := (params.map (fun kv => kv.1)).filter (fun k => ¬ all_keys.contains k)
    if missing_keys ≠ [] then .error (.missingParams missing_keys par_paths) else .ok ()

theorem param_check_allE_eq (params : List (Str × Value)) (par_paths : List Str)
    (fs : FileSys) : param_check_all params par_paths fs = param_check_allE params par_paths fs := by
  have h : nmlLoadFile fs = nmlLoadFileE fs := funext (nmlLoadFileE_eq fs)
  simp only [param_check_all, param_check_allE, h]

/-! ## Helper: `dumps` as `format_nml` over split keys -/

theorem dumps_eq_format {d : List (Str × Value)} (h : ∀ kv ∈ d, goodKey kv.1 = true) :
    Namelist.dumps ⟨'.'⟩ d = format_nml (d.map (fun kv =>
      (⟨(keyGN kv.1).1, (keyGN kv.1).2, kv.2, none⟩ : ParamNml))) := by
  have hmapd := @mapM_ok (Str × Value) ParamNml
    (fun kv => match splitOnChar '.' kv.1 with
      | [group, name] => Except.ok (⟨group, name, kv.2, none⟩ : ParamNml)
      | _ => Except.error (NmlError.keyUnpack kv.1))
    (fun kv => (⟨(keyGN kv.1).1, (keyGN kv.1).2, kv.2, none⟩ : ParamNml))
    d
    (by
      intro kv hkv
      show (match splitOnChar '.' kv.1 with
        | [group, name] => Except.ok (⟨group, name, kv.2, none⟩ : ParamNml)
        | _ => Except.error (NmlError.keyUnpack kv.1))
        = Except.ok (⟨(keyGN kv.1).1, (keyGN kv.1).2, kv.2, none⟩ : ParamNml)
      rw [(goodKey_split (h kv hkv)).1])
  rw [Namelist.dumps]
  show ((match d.mapM (fun kv => match splitOnChar '.' kv.1 with
      | [group, name] => Except.ok (⟨group, name, kv.2, none⟩ : ParamNml)
      | _ => Except.error (NmlError.keyUnpack kv.1)) with
    | .error e => .error e
    | .ok pars => format_nml pars) : Except NmlError Str) = _
  rw [hmapd]

/-! ## The claims -/

/-- C1 (amended): `loads ∘ dumps` is the identity on every ordered mapping
whose keys are `group.name` over the identifier alphabet and whose values
are integers, booleans, safe strings, or lists of AT LEAST TWO safe scalar
tokens.  The original claim's unrestricted version is false: a one-element
list collapses to its scalar on the way back (see the counterexample), and
floats re-read only up to Python float repr behaviour. -/
theorem C1_round_trip {d : List (Str × Value)} (h : GoodMapping d) :
    (Namelist.dumps ⟨'.'⟩ d).bind (Namelist.loads ⟨'.'⟩) = .ok d :=
  dumps_then_loads h

theorem C1_round_trip_witness :
    GoodMapping [("g.n".data, Value.int 10), ("g.b".data, Value.bool true),
      ("h2.s".data, Value.str "abc".data),
      ("h2.l".data, Value.list [Value.int 1, Value.int 2])]
    ∧ (Namelist.dumps ⟨'.'⟩ [("g.n".data, Value.int 10), ("g.b".data, Value.bool true),
        ("h2.s".data, Value.str "abc".data),
        ("h2.l".data, Value.list [Value.int 1, Value.int 2])]).bind (Namelist.loads ⟨'.'⟩)
      = .ok [("g.n".data, Value.int 10), ("g.b".data, Value.bool true),
        ("h2.s".data, Value.str "abc".data),
        ("h2.l".data, Value.list [Value.int 1, Value.int 2])] :=
  ⟨by decide, C1_round_trip (by decide)⟩

/-- C1 counterexample: a single-element list does not round-trip — `dumps`
prints `[Int 4]` as the bare token `4`, which `loads` reads back as the
scalar `Int 4`. -/
theorem C1_singleton_list_collapses :
    (Namelist.dumps ⟨'.'⟩ [("g.x".data, Value.list [Value.int 4])]).bind
        (Namelist.loads ⟨'.'⟩)
      = .ok [("g.x".data, Value.int 4)]
    ∧ (Namelist.dumps ⟨'.'⟩ [("g.x".data, Value.list [Value.int 4])]).bind
        (Namelist.loads ⟨'.'⟩)
      ≠ .ok [("g.x".data, Value.list [Value.int 4])] := by
  have h : Namelist.loads ⟨'.'⟩ = loadsE ⟨'.'⟩ := funext (loadsE_eq ⟨'.'⟩)
  rw [h]
  exact ⟨by decide, by decide⟩

/-- C2: the value grammar tries integer first, then float, and the examples
of the spec evaluate as stated: `"10"` is `Int 10` (never `Float`),
`"10.0"` is `Float 10`, `".true."` is `Bool true`, `"'x'"` is `String "x"`,
`"1,2"` is a two-element list even though each element alone is an `Int`,
and a token no matcher accepts is a `ValueError`. -/
theorem C2_type_precedence :
    (∀ s : Str, ∀ n : ℤ, pyInt s = some n → _parse_value s = .ok (.int n))
    ∧ (∀ s : Str, ∀ q : ℚ, pyInt s = none → pyFloat s = some q
        → _parse_value s = .ok (.float q))
    ∧ _parse_value ("10".data) = .ok (.int 10)
    ∧ _parse_value ("10.0".data) = .ok (.float 10)
    ∧ _parse_value (".true.".data) = .ok (.bool true)
    ∧ _parse_value ("'x'".data) = .ok (.str "x".data)
    ∧ _parse_value ("1,2".data) = .ok (.list [.int 1, .int 2])
    ∧ _parse_value ("@".data) = .error (.valueError "@".data) := by
  have hfl : pyFloat ("10.0".data) = some 10 := by
    have hmant : pyFloatMant ("10.0".data)
        = some (((10 : ℕ) : ℚ) + ((0 : ℕ) : ℚ) / (10 : ℚ) ^ ("0".data).length) := by
      rw [pyFloatMant]
      simp only [show splitOnChar '.' ("10.0".data) = ["10".data, "0".data] from rfl]
      rw [if_pos (⟨Or.inl (by decide), by decide⟩ :
        ("10".data ≠ [] ∨ "0".data ≠ []) ∧ ("10".data ++ "0".data).all Char.isDigit = true)]
      norm_num [show ("10".data.foldl (fun x c => 10 * x + (c.toNat - '0'.toNat)) 0 : ℕ)
          = 10 from rfl,
        show ("0".data.foldl (fun x c => 10 * x + (c.toNat - '0'.toNat)) 0 : ℕ)
          = 0 from rfl]
    rw [pyFloat]
    simp only [show splitOnP (fun c => c == 'e' || c == 'E') (pySign (pyStrip ("10.0".data))).2
        = [("10.0".data)] from rfl]
    rw [hmant]
    simp only [Option.map_some]
    rw [show (pySign (pyStrip ("10.0".data))).1 = 1 from rfl]
    norm_num
  refine ⟨fun s n h => parse_value_int h, fun s q h1 h2 => parse_value_float h1 h2,
    ?_, parse_value_float (by decide) hfl, ?_, ?_, ?_, ?_⟩
  · rw [_parse_value_exec]
    decide
  · rw [_parse_value_exec]
    decide
  · rw [_parse_value_exec]
    decide
  · rw [_parse_value_exec]
    decide
  · rw [_parse_value_exec]
    decide

/-- C3 (amended): contrary to the original claim, an opened group whose
terminating `/` never appears is SILENTLY DROPPED, not reported: on any
input without a `/` character, `parse_nml` returns the empty parameter list
and never an error, because the group regex only matches ampersand-to-slash
spans and unmatched text is discarded. -/
theorem C3_unterminated_group_silent {s : Str} (h : '/' ∉ s) :
    parse_nml s false = .ok [] :=
  parse_nml_no_slash h

theorem C3_unterminated_group_witness :
    '/' ∉ ("&grp\nx = 1\ny = 2".data)
    ∧ parse_nml ("&grp\nx = 1\ny = 2".data) false = .ok [] :=
  ⟨by decide, C3_unterminated_group_silent (by decide)⟩

/-- C3 counterexample: a group opened by `&grp` with no terminating `/`
parses to the empty list — no unterminated-group error is raised and the
group's parameter is lost. -/
theorem C3_counterexample :
    parse_nml ("&grp\nx = 1".data) false = .ok []
    ∧ ∀ e : NmlError, parse_nml ("&grp\nx = 1".data) false ≠ .error e := by
  rw [parse_nmlE_eq]
  exact ⟨by decide, fun e => by simp [show parse_nmlE ("&grp\nx = 1".data) false
    = .ok [] from by decide]⟩

/-- C4 (amended): `dumps` splits each key on the separator and emits one
`&GROUP .. /` block per MAXIMAL RUN OF CONSECUTIVE records with the same
group (itertools.groupby), with single newlines between all lines — no
blank line between blocks, and a group whose records are not adjacent gets
several blocks.  The runs partition the records in order and every record
of a run carries the run's group. -/
theorem C4_dumps_consecutive_blocks {d : List (Str × Value)} (h : GoodMapping d) :
    Namelist.dumps ⟨'.'⟩ d
      = .ok (renderBody ((groupByKey (d.map (fun kv =>
          (⟨(keyGN kv.1).1, (keyGN kv.1).2, kv.2, none⟩ : ParamNml)))).map
            (fun gr => (gr.1, gr.2.map paramLine))) ++ ['\n'])
    ∧ ((groupByKey (d.map (fun kv =>
          (⟨(keyGN kv.1).1, (keyGN kv.1).2, kv.2, none⟩ : ParamNml)))).map
        (fun gr => gr.2)).flatten
      = d.map (fun kv => (⟨(keyGN kv.1).1, (keyGN kv.1).2, kv.2, none⟩ : ParamNml))
    ∧ ∀ gr ∈ groupByKey (d.map (fun kv =>
          (⟨(keyGN kv.1).1, (keyGN kv.1).2, kv.2, none⟩ : ParamNml))),
        gr.2 ≠ [] ∧ ∀ q ∈ gr.2, q.group = gr.1 := by
  refine ⟨?_, groupByKey_flatten _, groupByKey_runs _⟩
  rw [dumps_eq_format (fun kv hkv => (h.2 kv hkv).1)]
  refine format_nml_render ?_
  intro p hp2
  obtain ⟨kv, hkv, rfl⟩ := List.mem_map.mp hp2
  exact (goodKey_split (h.2 kv hkv).1).2.1

theorem C4_dumps_witness :
    GoodMapping [("g.a".data, Value.int 1), ("h.b".data, Value.int 2)]
    ∧ (Namelist.dumps ⟨'.'⟩ [("g.a".data, Value.int 1), ("h.b".data, Value.int 2)]
        = .ok (renderBody ((groupByKey ([("g.a".data, Value.int 1),
              ("h.b".data, Value.int 2)].map (fun kv =>
            (⟨(keyGN kv.1).1, (keyGN kv.1).2, kv.2, none⟩ : ParamNml)))).map
              (fun gr => (gr.1, gr.2.map paramLine))) ++ ['\n'])
      ∧ ((groupByKey ([("g.a".data, Value.int 1), ("h.b".data, Value.int 2)].map (fun kv =>
            (⟨(keyGN kv.1).1, (keyGN kv.1).2, kv.2, none⟩ : ParamNml)))).map
          (fun gr => gr.2)).flatten
        = [("g.a".data, Value.int 1), ("h.b".data, Value.int 2)].map (fun kv =>
            (⟨(keyGN kv.1).1, (keyGN kv.1).2, kv.2, none⟩ : ParamNml))
      ∧ ∀ gr ∈ groupByKey ([("g.a".data, Value.int 1), ("h.b".data, Value.int 2)].map
            (fun kv => (⟨(keyGN kv.1).1, (keyGN kv.1).2, kv.2, none⟩ : ParamNml))),
          gr.2 ≠ [] ∧ ∀ q ∈ gr.2, q.group = gr.1) :=
  ⟨by decide, C4_dumps_consecutive_blocks (by decide)⟩

/-- C4 counterexample: for records g.a, h.b, g.c the formatter emits THREE
`&`-blocks although only two distinct groups exist (the two `g` records are
not adjacent), and the rendered text contains no blank line — its only
empty line is the one after the trailing newline. -/
theorem C4_counterexample :
    (Namelist.dumps ⟨'.'⟩ [("g.a".data, Value.int 1), ("h.b".data, Value.int 2),
        ("g.c".data, Value.int 3)]).map
      (fun t => ((splitOnChar '&' t).length, (splitOnChar '\n' t).count []))
      = .ok (4, 1)
    ∧ ([("g.a".data, Value.int 1), ("h.b".data, Value.int 2),
        ("g.c".data, Value.int 3)].map (fun kv => (keyGN kv.1).1)).dedup.length = 2 :=
  ⟨by decide, by decide⟩

/-- C5 (amended): the two failure modes differ, contrary to the original
claim.  A key whose separator split does not give exactly two parts (no dot,
or several dots would give more parts — here: any split arity other than
two) makes `dumps` fail at the key-unpacking step with a ValueError-style
unpack error naming that key, before any formatting; only a key with a dot
but an EMPTY group segment reaches the formatter and raises the
empty-group-name error.  In both cases no output text is produced. -/
theorem C5_dumps_bad_key (k n : Str) (v w : Value) (rest : List (Str × Value))
    (hk : (splitOnChar '.' k).length ≠ 2) (hn : '.' ∉ n) :
    Namelist.dumps ⟨'.'⟩ ((k, v) :: rest) = .error (.keyUnpack k)
    ∧ Namelist.dumps ⟨'.'⟩ [('.' :: n, w)] = .error .emptyGroupName :=
  ⟨dumps_no_sep hk, dumps_empty_group hn⟩

theorem C5_dumps_bad_key_witness :
    (splitOnChar '.' ("abc".data)).length ≠ 2
    ∧ '.' ∉ ("x".data)
    ∧ (Namelist.dumps ⟨'.'⟩ [("abc".data, Value.int 1)] = .error (.keyUnpack ("abc".data))
      ∧ Namelist.dumps ⟨'.'⟩ [('.' :: "x".data, Value.int 2)] = .error .emptyGroupName) :=
  ⟨by decide, by decide,
    C5_dumps_bad_key ("abc".data) ("x".data) (Value.int 1) (Value.int 2) []
      (by decide) (by decide)⟩

/-- C5 counterexample: a key with no separator raises the key-unpack error
(Python's two-target unpacking ValueError), which is not the
empty-group-name format error the claim promises. -/
theorem C5_counterexample :
    Namelist.dumps ⟨'.'⟩ [("abc".data, Value.int 5)] = .error (.keyUnpack ("abc".data))
    ∧ NmlError.keyUnpack ("abc".data) ≠ NmlError.emptyGroupName :=
  ⟨by decide, by decide⟩

/-- C6 (amended): a standalone token `N*V` with a nonempty all-digit count,
a star-free, comma-free value text and no trailing slash expands to
`int(N)` copies of the recursively parsed (stripped) `V`; the same
expansion applies per token inside any array context (hence inside
comma-split arrays).  Inside WHITESPACE-separated arrays the original claim
fails: the `*` test precedes the whitespace split, so the whole text is
treated as one star token (see the counterexample).  The spec's examples
`3*4`, `3*"a"` and a comma-context instance evaluate as stated. -/
theorem C6_star_expansion {mult val : Str} {m : ℤ} {x : Value}
    (hmne : mult ≠ []) (hmd : mult.all Char.isDigit = true)
    (hv1 : '*' ∉ val) (hv2 : ',' ∉ val)
    (hsl : lastIs '/' (mult ++ '*' :: val) = false)
    (hn : pyInt mult = some m)
    (hx : _parse_value (pyStrip val) = .ok x) :
    _parse_value (mult ++ '*' :: val) = .ok (.list (pyListMul m [x]))
    ∧ (∀ (rest : List Str) (r : List Value), _parse_array rest = .ok r →
        _parse_array ((mult ++ '*' :: val) :: rest) = .ok (pyListMul m [x] ++ r))
    ∧ _parse_value ("3*4".data) = .ok (.list [.int 4, .int 4, .int 4])
    ∧ _parse_value ("3*\"a\"".data)
      = .ok (.list [.str "a".data, .str "a".data, .str "a".data])
    ∧ _parse_value ("1,3*2".data) = .ok (.list [.int 1, .int 2, .int 2, .int 2]) := by
  have hm1 : '*' ∉ mult := by
    intro hm
    have := List.all_eq_true.mp hmd _ hm
    simp at this
  refine ⟨parse_value_star hmne hmd hv1 hv2 hsl hn hx,
    fun rest r hr => parse_array_star_cons hm1 hv1 hn hx hr, ?_, ?_, ?_⟩
  · rw [_parse_value_exec]
    decide
  · rw [_parse_value_exec]
    decide
  · rw [_parse_value_exec]
    decide

theorem C6_star_expansion_witness :
    ("3".data ≠ [] ∧ ("3".data).all Char.isDigit = true ∧ '*' ∉ ("4".data)
      ∧ ',' ∉ ("4".data) ∧ lastIs '/' ("3".data ++ '*' :: "4".data) = false
      ∧ pyInt ("3".data) = some 3 ∧ _parse_value (pyStrip ("4".data)) = .ok (.int 4))
    ∧ (_parse_value ("3".data ++ '*' :: "4".data)
        = .ok (.list (pyListMul 3 [Value.int 4]))
      ∧ (∀ (rest : List Str) (r : List Value), _parse_array rest = .ok r →
          _parse_array (("3".data ++ '*' :: "4".data) :: rest)
            = .ok (pyListMul 3 [Value.int 4] ++ r))
      ∧ _parse_value ("3*4".data) = .ok (.list [.int 4, .int 4, .int 4])
      ∧ _parse_value ("3*\"a\"".data)
        = .ok (.list [.str "a".data, .str "a".data, .str "a".data])
      ∧ _parse_value ("1,3*2".data) = .ok (.list [.int 1, .int 2, .int 2, .int 2])) :=
  ⟨⟨by decide, by decide, by decide, by decide, by decide, by decide,
      by rw [_parse_value_exec]; decide⟩,
    C6_star_expansion (by decide) (by decide) (by decide) (by decide) (by decide)
      (by decide) (by rw [_parse_value_exec]; decide)⟩

/-- C6 counterexample: in a whitespace-separated array a star token is NOT
expanded per token — `"1 3*2"` takes the repeat-count branch before the
whitespace split is ever tried, `int("1 3")` fails, and parsing errors out
instead of yielding `[1, 2, 2, 2]`. -/
theorem C6_counterexample :
    _parse_value ("1 3*2".data) = .error (.intConvError ("1 3".data)) := by
  rw [_parse_value_exec]
  decide

/-- C7 (amended): contrary to the original claim, `_parse_line` uses
Python's two-target unpacking of `line.split('=')`, so it succeeds exactly
when the (comment-stripped, comma-trimmed) line contains ONE `=`: the left
side stripped becomes the name and the right side stripped goes to the
value grammar.  A value text containing a further `=` (for example a quoted
string with `=`) makes the split yield three parts and the line parser
fails with the unpack error (see the counterexample). -/
theorem C7_single_equals_split {k v : Str}
    (hk : '=' ∉ k) (hv : '=' ∉ v) (hbk : '!' ∉ k) (hbv : '!' ∉ v)
    (hc : lastIs ',' (k ++ '=' :: v) = false) :
    _parse_line (k ++ '=' :: v)
      = (_parse_value (pyStrip v)).map (fun val => (pyStrip k, val, [])) :=
  parse_line_single_eq hk hv hbk hbv hc

theorem C7_single_equals_witness :
    ('=' ∉ ("a ".data) ∧ '=' ∉ (" 2".data) ∧ '!' ∉ ("a ".data) ∧ '!' ∉ (" 2".data)
      ∧ lastIs ',' ("a ".data ++ '=' :: " 2".data) = false)
    ∧ _parse_line ("a ".data ++ '=' :: " 2".data)
      = (_parse_value (pyStrip (" 2".data))).map (fun val => (pyStrip ("a ".data), val, [])) :=
  ⟨⟨by decide, by decide, by decide, by decide, by decide⟩,
    C7_single_equals_split (by decide) (by decide) (by decide) (by decide) (by decide)⟩

/-- C7 counterexample: a line whose quoted value contains a second `=` does
NOT split on the first `=` only — `a = 'x=y'` produces three parts and the
line parser raises the unpack error instead of parsing the value. -/
theorem C7_counterexample :
    _parse_line ("a = 'x=y'".data) = .error (.eqUnpack ("a = 'x=y'".data)) := by
  rw [_parse_lineE_eq]
  decide

/-- The group-alias expansion step at the top of `param_write_to_files`. -/
def paramsMapped (params : List (Str × Value)) (al : Option (List (Str × Str))) :
    List (Str × Value) :=
  match al with
  | some a => if 0 < a.length then param_map_groups params a else params
  | none => params

/-- The missing-key set `param_check_all` computes from the loaded files. -/
def missingKeys (params : List (Str × Value)) (loaded : List (List (Str × Value))) :
    List Str :=
  (params.map (fun kv => kv.1)).filter
    (fun k => ¬ ((loaded.map (fun d => d.map (fun kv => kv.1))).flatten).contains k)

/-- C8: `param_write_to_files` first loads every source namelist, checks
the alias-mapped parameters against the union of all source keys, and on
any missing key stops with ONE error that carries the complete missing-key
list and the full list of files checked — writing no destination file (the
returned value is that error; the in-memory file system is untouched). -/
theorem C8_check_before_write (params : List (Str × Value)) (srcs dsts : List Str)
    (al : Option (List (Str × Str))) (fs : FileSys)
    (loaded : List (List (Str × Value)))
    (hload : srcs.mapM (nmlLoadFile fs) = .ok loaded)
    (hmiss : missingKeys (paramsMapped params al) loaded ≠ []) :
    param_check_all (paramsMapped params al) srcs fs
      = .error (.missingParams (missingKeys (paramsMapped params al) loaded) srcs)
    ∧ param_write_to_files params srcs dsts al fs
      = .error (.missingParams (missingKeys (paramsMapped params al) loaded) srcs) := by
  have hcheck : param_check_all (paramsMapped params al) srcs fs
      = .error (.missingParams (missingKeys (paramsMapped params al) loaded) srcs) := by
    rw [param_check_all, hload]
    show (if missingKeys (paramsMapped params al) loaded ≠ [] then
        Except.error (ParamFileError.missingParams
          (missingKeys (paramsMapped params al) loaded) srcs)
      else Except.ok ()) = Except.error (ParamFileError.missingParams
          (missingKeys (paramsMapped params al) loaded) srcs)
    rw [if_pos hmiss]
  refine ⟨hcheck, ?_⟩
  rw [param_write_to_files.eq_def]
  show ((match param_check_all (paramsMapped params al) srcs fs with
    | Except.error e => Except.error e
    | Except.ok _ => (srcs.zip dsts).foldlM
        (fun cur sd => param_write_to_file (paramsMapped params al) sd.1 sd.2 cur) fs)
    : Except ParamFileError FileSys) = Except.error (ParamFileError.missingParams
      (missingKeys (paramsMapped params al) loaded) srcs)
  rw [hcheck]

theorem C8_check_before_write_witness :
    ["src.nml".data].mapM (nmlLoadFile [("src.nml".data, "&g\nx = 1\n/".data)])
      = .ok [[("g.x".data, Value.int 1)]]
    ∧ missingKeys (paramsMapped [("g.y".data, Value.int 2)] none)
        [[("g.x".data, Value.int 1)]] ≠ []
    ∧ (param_check_all (paramsMapped [("g.y".data, Value.int 2)] none) ["src.nml".data]
          [("src.nml".data, "&g\nx = 1\n/".data)]
        = .error (.missingParams (missingKeys (paramsMapped [("g.y".data, Value.int 2)] none)
            [[("g.x".data, Value.int 1)]]) ["src.nml".data])
      ∧ param_write_to_files [("g.y".data, Value.int 2)] ["src.nml".data] ["out.nml".data]
          none [("src.nml".data, "&g\nx = 1\n/".data)]
        = .error (.missingParams (missingKeys (paramsMapped [("g.y".data, Value.int 2)] none)
            [[("g.x".data, Value.int 1)]]) ["src.nml".data])) :=
  ⟨by
      rw [show nmlLoadFile [("src.nml".data, "&g\nx = 1\n/".data)]
          = nmlLoadFileE [("src.nml".data, "&g\nx = 1\n/".data)]
        from funext (nmlLoadFileE_eq [("src.nml".data, "&g\nx = 1\n/".data)])]
      decide,
    by decide,
    C8_check_before_write [("g.y".data, Value.int 2)] ["src.nml".data] ["out.nml".data]
      none [("src.nml".data, "&g\nx = 1\n/".data)] [[("g.x".data, Value.int 1)]]
      (by
        rw [show nmlLoadFile [("src.nml".data, "&g\nx = 1\n/".data)]
            = nmlLoadFileE [("src.nml".data, "&g\nx = 1\n/".data)]
          from funext (nmlLoadFileE_eq [("src.nml".data, "&g\nx = 1\n/".data)])]
        decide)
      (by decide)⟩

/-- C9: whenever parsing succeeds, `loads` builds an insertion-ordered dict
from the flattened `group.name` keys: every key appears exactly once
(`Nodup`), and looking a key up yields the value of its LAST occurrence in
text order (the first occurrence keeps the position, Python dict
semantics). -/
theorem C9_last_wins {s : Str} {ps : List ParamNml}
    (h : parse_nml s false = .ok ps) :
    Namelist.loads ⟨'.'⟩ s
      = .ok (odictOfPairs (ps.map (fun p => (p.group ++ '.' :: p.name, p.value))))
    ∧ ((odictOfPairs (ps.map (fun p => (p.group ++ '.' :: p.name, p.value)))).map
        (fun kv => kv.1)).Nodup
    ∧ ∀ k : Str,
        dictGet (odictOfPairs (ps.map (fun p => (p.group ++ '.' :: p.name, p.value)))) k
        = ((ps.map (fun p => (p.group ++ '.' :: p.name, p.value))).reverse.find?
            (fun kv => kv.1 == k)).map (fun kv => kv.2) := by
  refine ⟨?_, odictOfPairs_keys_nodup _, fun k => dictGet_odictOfPairs _ k⟩
  rw [Namelist.loads]
  show ((match parse_nml s false with
    | Except.error e => Except.error e
    | Except.ok params => Except.ok (odictOfPairs (params.map
        (fun p => (p.group ++ '.' :: p.name, p.value)))))
    : Except NmlError (List (Str × Value)))
    = Except.ok (odictOfPairs (ps.map (fun p => (p.group ++ '.' :: p.name, p.value))))
  rw [h]

theorem C9_last_wins_witness :
    parse_nml ("&g\nx = 1\nx = 2\n/".data) false
      = .ok [(⟨"g".data, "x".data, Value.int 1, some []⟩ : ParamNml),
          (⟨"g".data, "x".data, Value.int 2, some []⟩ : ParamNml)]
    ∧ (Namelist.loads ⟨'.'⟩ ("&g\nx = 1\nx = 2\n/".data)
        = .ok (odictOfPairs ([(⟨"g".data, "x".data, Value.int 1, some []⟩ : ParamNml),
            (⟨"g".data, "x".data, Value.int 2, some []⟩ : ParamNml)].map
              (fun p => (p.group ++ '.' :: p.name, p.value))))
      ∧ ((odictOfPairs ([(⟨"g".data, "x".data, Value.int 1, some []⟩ : ParamNml),
            (⟨"g".data, "x".data, Value.int 2, some []⟩ : ParamNml)].map
              (fun p => (p.group ++ '.' :: p.name, p.value)))).map
          (fun kv => kv.1)).Nodup
      ∧ ∀ k : Str,
          dictGet (odictOfPairs ([(⟨"g".data, "x".data, Value.int 1, some []⟩ : ParamNml),
              (⟨"g".data, "x".data, Value.int 2, some []⟩ : ParamNml)].map
                (fun p => (p.group ++ '.' :: p.name, p.value)))) k
          = (([(⟨"g".data, "x".data, Value.int 1, some []⟩ : ParamNml),
              (⟨"g".data, "x".data, Value.int 2, some []⟩ : ParamNml)].map
                (fun p => (p.group ++ '.' :: p.name, p.value))).reverse.find?
              (fun kv => kv.1 == k)).map (fun kv => kv.2)) :=
  ⟨by rw [parse_nmlE_eq]; decide,
    C9_last_wins (by rw [parse_nmlE_eq]; decide)⟩

/-- C10: `param_map_groups` is the ordered-dict built from rewriting each
key: a key containing a dot keeps only its FIRST TWO dot-separated
segments, the first replaced by its alias when one is defined — so
`a.b.c` becomes `a.b` (alias applied to `a`) and the trailing segments are
silently dropped — while a key without a dot, and every value, passes
through unchanged. -/
theorem C10_param_map_groups (params : List (Str × Value)) (al : List (Str × Str))
    (g n t : Str) (v : Value) (k : Str) (w : Value)
    (hg : '.' ∉ g) (hn : '.' ∉ n) (hk : '.' ∉ k) :
    param_map_groups params al = odictOfPairs (params.map (fun kv =>
        (if strHas '.' kv.1 then
          (match al.find? (fun a => a.1 == (splitOnChar '.' kv.1).headD []) with
            | some a => a.2
            | none => (splitOnChar '.' kv.1).headD [])
          ++ '.' :: ((splitOnChar '.' kv.1).drop 1).headD []
        else kv.1, kv.2)))
    ∧ param_map_groups [(g ++ '.' :: (n ++ '.' :: t), v)] al
      = [((match al.find? (fun a => a.1 == g) with
          | some a => a.2
          | none => g) ++ '.' :: n, v)]
    ∧ param_map_groups [(k, w)] al = [(k, w)] := by
  refine ⟨?_, ?_, ?_⟩
  · rw [param_map_groups, odictOfPairs, List.foldl_map]
  · have hsp1 : splitOnChar '.' (g ++ '.' :: (n ++ '.' :: t))
        = g :: n :: splitOnChar '.' t := by
      rw [splitOnChar, splitOnP_append ?_ (by simp), splitOnP_append ?_ (by simp)]
      · rfl
      · intro x hx
        simp only [beq_eq_false_iff_ne]
        rintro rfl
        exact hn hx
      · intro x hx
        simp only [beq_eq_false_iff_ne]
        rintro rfl
        exact hg hx
    have hhas : strHas '.' (g ++ '.' :: (n ++ '.' :: t)) = true := strHas_iff.mpr (by simp)
    rw [param_map_groups, List.foldl_cons, List.foldl_nil]
    show dictSet [] (if strHas '.' (g ++ '.' :: (n ++ '.' :: t)) then
        (match al.find? (fun a =>
            a.1 == (splitOnChar '.' (g ++ '.' :: (n ++ '.' :: t))).headD []) with
          | some a => a.2
          | none => (splitOnChar '.' (g ++ '.' :: (n ++ '.' :: t))).headD [])
        ++ '.' :: ((splitOnChar '.' (g ++ '.' :: (n ++ '.' :: t))).drop 1).headD []
      else g ++ '.' :: (n ++ '.' :: t)) v = _
    rw [if_pos hhas]
    simp only [hsp1, List.headD_cons, List.drop_succ_cons, List.drop_zero]
    rw [dictSet, if_neg (by simp)]
    simp
  · have hf : strHas '.' k = false := by
      cases hx : strHas '.' k with
      | false => rfl
      | true => exact absurd (strHas_iff.mp hx) hk
    rw [param_map_groups, List.foldl_cons, List.foldl_nil]
    show dictSet [] (if strHas '.' k then
        (match al.find? (fun a => a.1 == (splitOnChar '.' k).headD []) with
          | some a => a.2
          | none => (splitOnChar '.' k).headD [])
        ++ '.' :: ((splitOnChar '.' k).drop 1).headD []
      else k) w = _
    rw [if_neg (by simp [hf])]
    rw [dictSet, if_neg (by simp)]
    simp

theorem C10_param_map_groups_witness :
    ('.' ∉ ("a".data) ∧ '.' ∉ ("b".data) ∧ '.' ∉ ("nog".data))
    ∧ (param_map_groups [("p.q".data, Value.int 1)] [("a".data, "alias".data)]
        = odictOfPairs ([("p.q".data, Value.int 1)].map (fun kv =>
            (if strHas '.' kv.1 then
              (match [("a".data, "alias".data)].find? (fun a =>
                  a.1 == (splitOnChar '.' kv.1).headD []) with
                | some a => a.2
                | none => (splitOnChar '.' kv.1).headD [])
              ++ '.' :: ((splitOnChar '.' kv.1).drop 1).headD []
            else kv.1, kv.2)))
      ∧ param_map_groups [("a".data ++ '.' :: ("b".data ++ '.' :: "c".data), Value.int 7)]
          [("a".data, "alias".data)]
        = [((match [("a".data, "alias".data)].find? (fun a => a.1 == "a".data) with
            | some a => a.2
            | none => "a".data) ++ '.' :: "b".data, Value.int 7)]
      ∧ param_map_groups [("nog".data, Value.int 9)] [("a".data, "alias".data)]
        = [("nog".data, Value.int 9)]) :=
  ⟨⟨by decide, by decide, by decide⟩,
    C10_param_map_groups [("p.q".data, Value.int 1)] [("a".data, "alias".data)]
      ("a".data) ("b".data) ("c".data) (Value.int 7) ("nog".data) (Value.int 9)
      (by decide) (by decide) (by decide)⟩
